import Mathlib

/-!
# Schedule algebra of `coli_core.cpp`

A shallow embedding of the scheduling core (`split`, `interchange`, `tile`,
`align_schedules`, `after`, `first`) together with the handful of isl
primitives these functions call.

An isl map is embedded by its meaning: the relation between input tuples and
output tuples, plus the identifiers carried by its output dimensions (the code
reads and writes them, and they decide what the textual transformation maps
denote) and the identifier of its output tuple (isl drops it when dimensions
are added, and `interchange` needs it).  Symbolic parameters, when a map has
them, are read as part of the input tuple.  C++ `int` values are embedded as
unbounded integers.
-/

namespace coli

/-! ## The isl primitives used by the core -/

/-- An isl map: the optional identifier of every output dimension (the length
of this list is the output rank), the optional identifier of the output tuple
and the integer relation itself. -/
structure isl_map where
  out_dims : List (Option String)
  out_tuple_id : Option String
  rel : List Int → List Int → Prop
  wf : ∀ i o, rel i o → o.length = out_dims.length

/-- The call `isl_map_get_tuple_id(map, isl_dim_out)`; `none` is the NULL that
isl returns for a tuple without identifier. -/
def isl_map_get_tuple_id (map : isl_map) : Option String :=
  map.out_tuple_id

/-- The call `isl_map_set_tuple_id(map, isl_dim_out, id)` with an identifier
that is not NULL. -/
def isl_map_set_tuple_id (map : isl_map) (id : String) : isl_map :=
  { map with out_tuple_id := some id }

/-- The call `isl_map_dim(map, isl_dim_out)`. -/
def isl_map_dim_out (map : isl_map) : Nat :=
  map.out_dims.length

/-- The call `isl_map_get_dim_name(map, isl_dim_out, pos)`; `none` is the NULL
that isl returns for a dimension without identifier. -/
def isl_map_get_dim_name (map : isl_map) (pos : Nat) : Option String :=
  map.out_dims.getD pos none

/-- The call `isl_map_set_dim_id(map, isl_dim_out, pos, id)`. -/
def isl_map_set_dim_id (map : isl_map) (pos : Nat) (id : String) : isl_map :=
  { map with
    out_dims := map.out_dims.set pos (some id)
    wf := by
      intro i o h
      simpa using map.wf i o h }

/-- The call `isl_map_apply_range(map1, map2)`: relational composition; the
output space (rank, identifiers of the dimensions and of the tuple) is the one
of `map2`.  Every caller in the core gives the input tuple of `map2` the
identifier of the output tuple of `map1`, so the two spaces match. -/
def isl_map_apply_range (map1 map2 : isl_map) : isl_map :=
  { out_dims := map2.out_dims
    out_tuple_id := map2.out_tuple_id
    rel := fun i o => ∃ m, map1.rel i m ∧ map2.rel m o
    wf := by
      rintro i o ⟨m, _, h⟩
      exact map2.wf m o h }

/-- The call `isl_map_add_dims(map, isl_dim_out, n)`: `n` fresh output
dimensions, without identifier and unconstrained, are appended.  The call
resets the output tuple, also for `n = 0`: the result has no output tuple
identifier. -/
def isl_map_add_dims (map : isl_map) (n : Nat) : isl_map :=
  { out_dims := map.out_dims ++ List.replicate n none
    out_tuple_id := none
    rel := fun i o =>
      ∃ m, map.rel i m ∧ o.take map.out_dims.length = m ∧
        o.length = map.out_dims.length + n
    wf := by
      rintro i o ⟨m, _, _, h⟩
      simpa using h }

/-- Adding (`isl_map_add_constraint`) the equality built by
`isl_constraint_set_coefficient_si(cst, isl_dim_out, pos, 1)` and
`isl_constraint_set_constant_si(cst, -val)`: output coordinate `pos` equals
`val`. -/
def isl_map_add_out_eq_constraint (map : isl_map) (pos : Nat) (val : Int) : isl_map :=
  { map with
    rel := fun i o => map.rel i o ∧ o.getD pos 0 = val
    wf := by
      rintro i o ⟨h, _⟩
      exact map.wf i o h }

/-- Adding the equality with coefficient `1` on input dimension `pos` and `-1`
on output dimension `pos`: the two coordinates are equal. -/
def isl_map_add_in_eq_out_constraint (map : isl_map) (pos : Nat) : isl_map :=
  { map with
    rel := fun i o => map.rel i o ∧ i.getD pos 0 = o.getD pos 0
    wf := by
      rintro i o ⟨h, _⟩
      exact map.wf i o h }

/-- The universe map of the space of `isl_set_identity(isl_map_range(map))`:
every tuple of the range space is related to every tuple of the range space;
the output dimensions and the output tuple keep the identifiers of the range
of `map`. -/
def isl_map_universe_of_range (map : isl_map) : isl_map :=
  { out_dims := map.out_dims
    out_tuple_id := map.out_tuple_id
    rel := fun i o => i.length = map.out_dims.length ∧ o.length = map.out_dims.length
    wf := by
      rintro i o ⟨_, h⟩
      exact h }

/-! ### Textual maps

`split` and `interchange` write their transformation map as text and hand it
to `isl_map_read_from_str`.  The text is kept as its three parts: the entries
of the input tuple, the entries of the output tuple and the constraints after
the colon. -/

/-- An entry of the output tuple of a textual map: an identifier or the
literal `0`. -/
inductive tuple_entry where
  | ident (name : String)
  | zero
  deriving DecidableEq

/-- A constraint of the text written by `split`: `lhs = floor(arg/size)` or
`lhs = (arg%size)`. -/
inductive text_constraint where
  | floor_div (lhs arg : String) (size : Int)
  | modulo (lhs arg : String) (size : Int)

/-- The text `[ins] -> [outs] : constraints` of a transformation map. -/
structure map_text where
  ins : List String
  outs : List tuple_entry
  constraints : List text_constraint

/-- Value of a tuple entry under a valuation of the identifiers. -/
def tuple_entry.eval (σ : String → Int) : tuple_entry → Int
  | tuple_entry.ident x => σ x
  | tuple_entry.zero => 0

/-- Meaning of a textual constraint: isl's `floor(a/k)` rounds towards minus
infinity and its `%` is the matching remainder. -/
def text_constraint.holds (σ : String → Int) : text_constraint → Prop
  | text_constraint.floor_div lhs arg size => σ lhs = Int.fdiv (σ arg) size
  | text_constraint.modulo lhs arg size => σ lhs = Int.fmod (σ arg) size

/-- Identifier that the isl reader gives output dimension `j`: an entry gets
one exactly when it is an identifier that did not occur before in the text
(an identifier seen before is an expression over that variable). -/
def parsed_dim_name (ins : List String) (outs : List tuple_entry) (j : Nat) : Option String :=
  match outs.getD j tuple_entry.zero with
  | tuple_entry.ident x =>
    if x ∈ ins ∨ tuple_entry.ident x ∈ outs.take j then none else some x
  | tuple_entry.zero => none

/-- The call `isl_map_read_from_str` on the text of a transformation map: an
identifier denotes one integer wherever it occurs, so a tuple is related to
another exactly when some valuation of the identifiers produces both and
satisfies the constraints. -/
def isl_map_read_from_str (text : map_text) : isl_map :=
  { out_dims := (List.range text.outs.length).map (parsed_dim_name text.ins text.outs)
    out_tuple_id := none
    rel := fun i o =>
      ∃ σ : String → Int, i = text.ins.map σ ∧ o = text.outs.map (tuple_entry.eval σ) ∧
        ∀ c ∈ text.constraints, text_constraint.holds σ c
    wf := by
      rintro i o ⟨σ, _, ho, _⟩
      simp [ho] }

/-! ## Variable names -/

/-- The function `generate_new_variable_name`, on the value of the global
`id_counter`; the caller stores the incremented counter. -/
def generate_new_variable_name (id_counter : Nat) : String :=
  "c" ++ toString id_counter

/-! ## `computation::split` -/

/-- The loop `for (i = 0; i < dimensions.size(); i++) isl_map_set_dim_id(...)`
of `split`. -/
def set_dim_ids (map : isl_map) (dimensions : List String) : isl_map :=
  (List.range dimensions.length).foldl
    (fun m i => isl_map_set_dim_id m i (dimensions.getD i "")) map

/-- The text of the transformation map of `split`, and the vector
`dimensions`, for `n_dims` output dimensions; `names i` is the `i`-th name
drawn from the generator by this call. -/
def split_text (n_dims : Nat) (inDim0 : Nat) (sizeX : Int) (names : Nat → String) :
    map_text × List String :=
  let outDim0_str := names 0
  let outDim1_str := names 1
  let dimensions_str := (List.range n_dims).map (fun i => names (2 + i))
  let inDim0_str := dimensions_str.getD inDim0 ""
  let outs := (List.range n_dims).flatMap (fun i =>
    if i ≠ inDim0 then [tuple_entry.ident (dimensions_str.getD i "")]
    else [tuple_entry.ident outDim0_str, tuple_entry.zero, tuple_entry.ident outDim1_str])
  let dimensions := (List.range n_dims).flatMap (fun i =>
    if i ≠ inDim0 then [dimensions_str.getD i ""]
    else [outDim0_str, outDim1_str])
  ({ ins := dimensions_str
     outs := outs
     constraints := [text_constraint.floor_div outDim0_str inDim0_str sizeX,
                     text_constraint.modulo outDim1_str inDim0_str sizeX] },
   dimensions)

/-- The method `computation::split(inDim0, sizeX)` on the schedule of the
computation and the global `id_counter`; `none` when an assertion fails.  The
method first gives the output tuple of its copy of the schedule the
identifier `" "`, so the identifier it reads back for the input tuple of the
transformation map is never NULL; the output tuple of the transformation map
gets the identifier `" "` too. -/
def split (schedule : isl_map) (inDim0 sizeX : Int) (id_counter : Nat) :
    Option (isl_map × Nat) :=
  if 0 ≤ inDim0 ∧ inDim0 < isl_map_dim_out schedule ∧ 1 ≤ sizeX then
    let n_dims := isl_map_dim_out schedule
    let text := split_text n_dims inDim0.toNat sizeX
      (fun i => generate_new_variable_name (id_counter + i))
    let transformation_map := isl_map_set_tuple_id
      (set_dim_ids (isl_map_read_from_str text.1) text.2) " "
    some (isl_map_apply_range (isl_map_set_tuple_id schedule " ") transformation_map,
      id_counter + 2 + n_dims)
  else none

/-! ## `computation::interchange` -/

/-- One turn of the first loop of `interchange`: a dimension without name gets
a generated one.  The state is the schedule and the global `id_counter`. -/
def interchange_name_dim (st : isl_map × Nat) (i : Nat) : isl_map × Nat :=
  match isl_map_get_dim_name st.1 i with
  | none => (isl_map_set_dim_id st.1 i (generate_new_variable_name st.2), st.2 + 1)
  | some _ => st

/-- The text of the transformation map of `interchange`; `schedule` is the
schedule after the first loop, `inDim0_str` and `inDim1_str` were read before
that loop. -/
def interchange_text (schedule : isl_map) (n_dims inDim0 inDim1 : Nat)
    (inDim0_str inDim1_str : String) : map_text :=
  { ins := (List.range n_dims).map (fun i => (isl_map_get_dim_name schedule i).getD "")
    outs := (List.range n_dims).map (fun i =>
      if i ≠ inDim0 ∧ i ≠ inDim1 then
        tuple_entry.ident ((isl_map_get_dim_name schedule i).getD "")
      else if i = inDim0 then tuple_entry.ident inDim1_str
      else tuple_entry.ident inDim0_str)
    constraints := [] }

/-- The method `computation::interchange(inDim0, inDim1)` on the schedule of
the computation and the global `id_counter`.  The result is the schedule the
method stores, and `none` when it stores none: when an assertion fails, when
`std::string` is built from the NULL name of dimension `inDim0` or `inDim1`,
and when the output tuple of the schedule has no identifier.  In the last
case no assertion fails: `isl_map_get_tuple_id` returns NULL,
`isl_map_set_tuple_id` returns NULL for a NULL identifier, so does
`isl_map_apply_range`, and the schedule stored is NULL.  Unlike `split`, the
method does not give the output tuple of the schedule an identifier first.
The output tuple of the transformation map gets the identifier `""`.  The
vector `dimensions` of the source is filled and never read, so no identifier
is set on the dimensions of the result. -/
def interchange (schedule : isl_map) (inDim0 inDim1 : Int) (id_counter : Nat) :
    Option (isl_map × Nat) :=
  if 0 ≤ inDim0 ∧ inDim0 < isl_map_dim_out schedule ∧
      0 ≤ inDim1 ∧ inDim1 < isl_map_dim_out schedule then
    let n_dims := isl_map_dim_out schedule
    match isl_map_get_dim_name schedule inDim0.toNat,
        isl_map_get_dim_name schedule inDim1.toNat with
    | some inDim0_str, some inDim1_str =>
      let named := (List.range n_dims).foldl interchange_name_dim (schedule, id_counter)
      match isl_map_get_tuple_id named.1 with
      | none => none
      | some _ =>
        let transformation_map := isl_map_set_tuple_id (isl_map_read_from_str
          (interchange_text named.1 n_dims inDim0.toNat inDim1.toNat inDim0_str inDim1_str)) ""
        some (isl_map_apply_range named.1 transformation_map, named.2)
    | _, _ => none
  else none

/-! ## `computation::tile` -/

/-- The method `computation::tile(inDim0, inDim1, sizeX, sizeY)`. -/
def tile (schedule : isl_map) (inDim0 inDim1 sizeX sizeY : Int) (id_counter : Nat) :
    Option (isl_map × Nat) :=
  if (inDim0 = inDim1 + 2 ∨ inDim1 = inDim0 + 2) ∧ sizeX > 0 ∧ sizeY > 0 ∧
      inDim0 ≥ 0 ∧ inDim1 ≥ 0 ∧ inDim1 < isl_map_dim_out schedule then
    let new_inDim1 := inDim1 + 2
    match split schedule inDim0 sizeX id_counter with
    | none => none
    | some (s1, c1) =>
      match split s1 new_inDim1 sizeY c1 with
      | none => none
      | some (s2, c2) => interchange s2 (inDim0 + 2) new_inDim1 c2
  else none

/-! ## Setting the constant of an output dimension -/

/-- The map `identity` built by `isl_map_set_const_dim`: the universe map over
the range space, with one equality per output dimension. -/
def set_const_dim_identity (map : isl_map) (dim_pos : Int) (val : Int) : isl_map :=
  (List.range (isl_map_dim_out (isl_map_universe_of_range map))).foldl
    (fun (identity : isl_map) (i : Nat) =>
      if (i : Int) = dim_pos then isl_map_add_out_eq_constraint identity i val
      else isl_map_add_in_eq_out_constraint identity i)
    (isl_map_universe_of_range map)

/-- The function `isl_map_set_const_dim(map, dim_pos, val)`; `none` when an
assertion fails. -/
def isl_map_set_const_dim (map : isl_map) (dim_pos : Int) (val : Int) : Option isl_map :=
  if 0 ≤ dim_pos ∧ dim_pos ≤ isl_map_dim_out map then
    some (isl_map_apply_range map (set_const_dim_identity map dim_pos val))
  else none

/-! ## Computations and functions -/

/-- The part of a `computation` object the scheduling methods use.  The field
`addr` is the address of the object: the source compares computations by
pointer and `std::sort` breaks ties of `relative_order` by it. -/
structure computation where
  addr : Nat
  name : String
  schedule : isl_map
  relative_order : Int

/-- The part of a `function` object the scheduling methods use: the vector
`body` of its computations. -/
structure function where
  body : List computation

/-- Modelled from the spec: `computation::root_dimension` is declared in the
header `coli/core.h`, which is not part of the sources; the specification calls
`after(S1, -1)` the ordering at the root level. -/
def root_dimension : Int := -1

/-! ## `function::align_schedules` -/

/-- The method `function::get_max_schedules_range_dim`. -/
def get_max_schedules_range_dim (f : function) : Nat :=
  f.body.foldl (fun max_dim comp => max max_dim (isl_map_dim_out comp.schedule)) 0

/-- The function `isl_map_align_range_dims(map, max_dim)`; `none` when the
assertion `max_dim >= mdim` fails. -/
def isl_map_align_range_dims (map : isl_map) (max_dim : Nat) : Option isl_map :=
  let mdim := isl_map_dim_out map
  if mdim ≤ max_dim then
    some ((List.range' mdim (max_dim - mdim)).foldl
      (fun m i => isl_map_add_out_eq_constraint m i 0)
      (isl_map_add_dims map (max_dim - mdim)))
  else none

/-- The loop of `align_schedules` over the computations. -/
def align_schedules_loop (max_dim : Nat) : List computation → Option (List computation)
  | [] => some []
  | comp :: rest =>
    match isl_map_align_range_dims comp.schedule max_dim with
    | none => none
    | some sched =>
      match align_schedules_loop max_dim rest with
      | none => none
      | some rest' => some ({ comp with schedule := sched } :: rest')

/-- The method `function::align_schedules`. -/
def align_schedules (f : function) : Option function :=
  match align_schedules_loop (get_max_schedules_range_dim f) f.body with
  | none => none
  | some body => some { f with body := body }

/-! ## `computation::after`, `computation::first`, `computation::before` -/

/-- The first loop of `after` on the computations of the function: the
assertions on `dim`, then the update of `relative_order`; `comp` is the
address of the argument of `after`. -/
def after_update_orders (comp : Nat) (dim : Int) : List computation → Option (List computation)
  | [] => some []
  | c :: rest =>
    if dim < isl_map_dim_out c.schedule ∧ dim ≥ root_dimension then
      match after_update_orders comp dim rest with
      | none => none
      | some rest' =>
        some ({ c with relative_order :=
                  if c.addr ≠ comp then c.relative_order * 10 + 1
                  else c.relative_order * 10 } :: rest')
    else none

/-- The vector `ordered_computations`: the pairs of `relative_order` and
pointer, in body order. -/
def ordered_computations (body : List computation) : List (Int × Nat) :=
  body.map (fun c => (c.relative_order, c.addr))

/-- The order `!(q < p)` for the `operator<` of `std::pair<int, computation *>`. -/
def pair_le (p q : Int × Nat) : Prop :=
  p.1 < q.1 ∨ (p.1 = q.1 ∧ p.2 ≤ q.2)

instance : DecidableRel pair_le := fun p q => by
  unfold pair_le
  infer_instance

/-- The call `std::sort(ordered_computations.begin(), ordered_computations.end())`.
The pairs of distinct objects are distinct, so the sorted vector does not
depend on the sorting algorithm. -/
def sort_ordered_computations (l : List (Int × Nat)) : List (Int × Nat) :=
  l.insertionSort pair_le

/-- The call `c->get_schedule()` through a pointer. -/
def get_schedule_at (addr : Nat) (body : List computation) : Option isl_map :=
  (body.find? (fun c => c.addr = addr)).map (fun c => c.schedule)

/-- The call `c->set_schedule(sched)` through a pointer. -/
def set_schedule_at (addr : Nat) (sched : isl_map) (body : List computation) :
    List computation :=
  body.map (fun c => if c.addr = addr then { c with schedule := sched } else c)

/-- The second loop of `after`: it walks the sorted vector and writes `order`,
`order + 1`, ... at position `dim + 1`. -/
def after_set_orders (dim : Int) : List (Int × Nat) → Nat → List computation →
    Option (List computation)
  | [], _, body => some body
  | c :: rest, order, body =>
    match get_schedule_at c.2 body with
    | none => none
    | some sched1 =>
      match isl_map_set_const_dim sched1 (dim + 1) order with
      | none => none
      | some sched1' => after_set_orders dim rest (order + 1) (set_schedule_at c.2 sched1' body)

/-- The method `this->after(comp, dim)`; `comp` is the address of the argument
(the receiver is only used to reach the function). -/
def after (f : function) (comp : Nat) (dim : Int) : Option function :=
  match align_schedules f with
  | none => none
  | some f1 =>
    match after_update_orders comp dim f1.body with
    | none => none
    | some body =>
      match after_set_orders dim (sort_ordered_computations (ordered_computations body)) 0
          body with
      | none => none
      | some body' => some { f1 with body := body' }

/-- The loop of `first` on the computations of the function; `this` is the
address of the receiver. -/
def first_loop (this : Nat) (dim : Int) : List computation → Option (List computation)
  | [] => some []
  | c :: rest =>
    if dim < isl_map_dim_out c.schedule ∧ dim ≥ root_dimension then
      match isl_map_set_const_dim c.schedule (dim + 1) (if c.addr = this then 0 else 1) with
      | none => none
      | some sched1 =>
        match first_loop this dim rest with
        | none => none
        | some rest' =>
          some ({ c with
                  relative_order :=
                    if c.addr ≠ this then c.relative_order + 1 else c.relative_order
                  schedule := sched1 } :: rest')
    else none

/-- The method `this->first(dim)`. -/
def first (f : function) (this : Nat) (dim : Int) : Option function :=
  match align_schedules f with
  | none => none
  | some f1 =>
    match first_loop this dim f1.body with
    | none => none
    | some body => some { f1 with body := body }

/-- The method `this->before(comp, dim)`, which is `comp.after(*this, dim)`. -/
def before (f : function) (this : Nat) (dim : Int) : Option function :=
  after f this dim

/-! ## Strings -/

/-- The call `str.find(delimiter)` of `std::string` on lists of characters:
the position of the first occurrence, `none` for `std::string::npos`. -/
def string_find (delimiter : List Char) : List Char → Option Nat
  | [] => if delimiter = [] then some 0 else none
  | c :: t =>
    if (c :: t).take delimiter.length = delimiter then some 0
    else (string_find delimiter t).map (fun pos => pos + 1)

/-- The loop of `split_string` and the two statements after it.  Every turn
of the loop uses one unit of `fuel`; `none` means that the fuel ran out before
the loop was left. -/
def split_string_loop (delimiter : List Char) :
    Nat → List Char → List (List Char) → Option (List (List Char))
  | 0, _, _ => none
  | fuel + 1, str, vector =>
    match string_find delimiter str with
    | some pos =>
      split_string_loop delimiter fuel (str.drop (pos + delimiter.length))
        (vector ++ [str.take pos])
    | none => some (vector ++ [str.take str.length])

/-- The function `split_string(str, delimiter, vector)`, with one unit of fuel
per character of `str` and one more for the last test of the loop. -/
def split_string (str delimiter : List Char) (vector : List (List Char)) :
    Option (List (List Char)) :=
  split_string_loop delimiter (str.length + 1) str vector

/-! ## `computation::set_schedule` -/

/-- An isl map together with the name of its input tuple, the value of
`isl_map_get_tuple_name(map, isl_dim_in)`; the empty name also stands for a
tuple without name. -/
structure named_map where
  tuple_name : String
  map : isl_map

/-- Modelled from the spec: `function::get_computation_by_name` is defined in
the header `coli/core.h`, which is not part of the sources; the specification
describes it as looking up the computation whose name matches. -/
def get_computation_by_name (f : function) (name : String) : Option computation :=
  f.body.find? (fun c => c.name = name)

/-- The method `computation::update_let_stmt_schedule_domain_name`; the
constant `LET_STMT_PREFIX` of the absent header is a parameter.  The result is
`none` when the assertion fails and when `coli::error` is called. -/
def update_let_stmt_schedule_domain_name (f : function) (LET_STMT_PREFIX : String)
    (map : named_map) : Option named_map :=
  let comp_name := map.tuple_name
  if comp_name.length > 0 then
    match get_computation_by_name f comp_name with
    | none =>
      let pos := string_find LET_STMT_PREFIX.data comp_name.data
      if pos = none ∨ pos ≠ some 0 then
        let comp_name := LET_STMT_PREFIX ++ comp_name
        match get_computation_by_name f comp_name with
        | some _ => some { map with tuple_name := comp_name }
        | none => none
      else some map
    | some _ => some map
  else none

/-- The method `computation::set_schedule(std::string map_str)` on the map
that `isl_map_read_from_str` returns for the text: the result is the map that
`this->set_schedule(map)` stores as the schedule of the computation. -/
def set_schedule (f : function) (LET_STMT_PREFIX : String) (map : named_map) :
    Option named_map :=
  update_let_stmt_schedule_domain_name f LET_STMT_PREFIX map

/-! ## `function::add_computation` -/

/-- The method `function::add_computation`; `none` when the assertion that no
computation of the body has the name of `cpt` fails. -/
def add_computation (f : function) (cpt : computation) : Option function :=
  match f.body.find? (fun c => c.name = cpt.name) with
  | none => some { f with body := f.body ++ [cpt] }
  | some _ => none

/-- A sequence of `add_computation` calls. -/
def add_computations (f : function) : List computation → Option function
  | [] => some f
  | cpt :: rest =>
    match add_computation f cpt with
    | none => none
    | some f' => add_computations f' rest

/-! ## GPU tags -/

/-- The call `gpu_dimensions.find(comp)` on the member `gpu_dimensions`, a
`std::map` from names to pairs of levels, kept as a list of its entries. -/
def gpu_dimensions_find (gpu_dimensions : List (String × (Int × Int))) (comp : String) :
    Option (Int × Int) :=
  (gpu_dimensions.find? (fun e => e.1 = comp)).map (fun e => e.2)

/-- The call `gpu_dimensions.insert(pair)` of `std::map`: nothing is stored
when the key is present. -/
def gpu_dimensions_insert (gpu_dimensions : List (String × (Int × Int)))
    (stmt_name : String) (dims : Int × Int) : List (String × (Int × Int)) :=
  match gpu_dimensions_find gpu_dimensions stmt_name with
  | some _ => gpu_dimensions
  | none => gpu_dimensions ++ [(stmt_name, dims)]

/-- The method `function::add_gpu_dimensions` on the member `gpu_dimensions`;
`none` when an assertion fails. -/
def add_gpu_dimensions (gpu_dimensions : List (String × (Int × Int)))
    (stmt_name : String) (dim0 dim1 : Int) : Option (List (String × (Int × Int))) :=
  if dim0 ≥ 0 ∧ dim1 ≥ 0 ∧ dim1 = dim0 + 1 ∧ stmt_name.length > 0 then
    some (gpu_dimensions_insert gpu_dimensions stmt_name (dim0, dim1))
  else none

/-- The method `computation::tag_gpu_dimensions` of the computation called
`name`, on the member `gpu_dimensions` of its function. -/
def tag_gpu_dimensions (gpu_dimensions : List (String × (Int × Int)))
    (name : String) (dim0 dim1 : Int) : Option (List (String × (Int × Int))) :=
  if dim0 ≥ 0 ∧ dim1 ≥ 0 ∧ dim1 = dim0 + 1 ∧ name.length > 0 then
    add_gpu_dimensions gpu_dimensions name dim0 dim1
  else none

/-- The method `function::get_gpu_iterator`; `none` when an assertion fails
and when `coli::error` reports that the level is not mapped. -/
def get_gpu_iterator (gpu_dimensions : List (String × (Int × Int)))
    (comp : String) (lev0 : Int) : Option String :=
  if comp.length > 0 ∧ lev0 ≥ 0 then
    match gpu_dimensions_find gpu_dimensions comp with
    | none => none
    | some levels =>
      if lev0 = levels.1 then some "__thread_id_x"
      else if lev0 = levels.2 then some "__thread_id_y"
      else none
  else none

/-- The method `function::should_map_to_gpu`; `none` when an assertion
fails. -/
def should_map_to_gpu (gpu_dimensions : List (String × (Int × Int)))
    (comp : String) (lev0 : Int) : Option Bool :=
  if comp.length > 0 ∧ lev0 ≥ 0 then
    match gpu_dimensions_find gpu_dimensions comp with
    | none => some false
    | some levels => some (decide (lev0 = levels.1 ∨ lev0 = levels.2))
  else none

/-! ## Definitions used to state the properties -/

/-- Decimal value of a list of digit characters. -/
def digits_value (cs : List Char) : Nat :=
  cs.foldl (fun acc ch => 10 * acc + (ch.toNat - 48)) 0

/-- The strip-mined tuple the specification describes for `split(d, k)`:
`(x_0, ..., x_(d-1), floor(x_d / k), 0, x_d mod k, x_(d+1), ..., x_(n-1))`. -/
def split_image (d : Nat) (k : Int) (x : List Int) : List Int :=
  x.take d ++ [Int.fdiv (x.getD d 0) k, 0, Int.fmod (x.getD d 0) k] ++ x.drop (d + 1)

/-- The tuple the specification describes for `interchange(d0, d1)`: the
coordinates at positions `d0` and `d1` exchanged, every other coordinate at
its position. -/
def swap_image (d0 d1 : Nat) (x : List Int) : List Int :=
  (List.range x.length).map (fun i =>
    x.getD (if i = d0 then d1 else if i = d1 then d0 else i) 0)

/-- The tuple `x` with the coordinate at position `pos` replaced by `val`
(`x` itself when it has no such position). -/
def with_const (pos : Int) (val : Int) (x : List Int) : List Int :=
  x.set pos.toNat val

/-- An output position that exists and is constrained to the single constant
`v`: a static coordinate. -/
def static_coordinate (map : isl_map) (pos : Nat) (v : Int) : Prop :=
  pos < isl_map_dim_out map ∧ ∀ i o, map.rel i o → o.getD pos 0 = v

/-- Every coordinate of the first schedule at `pos` is strictly less than
every coordinate of the second schedule at `pos`. -/
def static_coordinate_lt (pos : Nat) (s1 s2 : isl_map) : Prop :=
  ∀ i1 o1 i2 o2, s1.rel i1 o1 → s2.rel i2 o2 → o1.getD pos 0 < o2.getD pos 0

/-- The map `isl_map_set_const_dim` returns when its assertions hold. -/
def set_const (map : isl_map) (pos val : Int) : isl_map :=
  isl_map_apply_range map (set_const_dim_identity map pos val)

/-- The map without the identifier of its output tuple. -/
def without_tuple_id (map : isl_map) : isl_map :=
  { map with out_tuple_id := none }

/-- The function with the identifier of the output tuple removed from every
schedule. -/
def drop_tuple_ids (f : function) : function :=
  { f with body := f.body.map (fun c => { c with schedule := without_tuple_id c.schedule }) }

/-- The `relative_order` that the first loop of `after` gives a computation. -/
def after_order (comp : Nat) (c : computation) : Int :=
  if c.addr ≠ comp then c.relative_order * 10 + 1 else c.relative_order * 10

/-- The body of the function when `after` returns, written in one piece for a
body whose schedules are aligned: every computation has its new
`relative_order`, and its schedule has at position `dim + 1` the index of the
computation in the sorted vector. -/
def after_result (comp : Nat) (dim : Int) (body : List computation) : List computation :=
  body.map (fun c =>
    { c with
      relative_order := after_order comp c
      schedule := set_const c.schedule (dim + 1)
        (((sort_ordered_computations
            (body.map (fun b => (after_order comp b, b.addr)))).map Prod.snd).indexOf c.addr :
          Nat) })

/-- The number of occurrences of `delimiter` met when `s` is read from left to
right, one character at a time, an occurrence being skipped over once it is
counted (`skip` characters are still to be skipped). -/
def count_occurrences (delimiter : List Char) : Nat → List Char → Nat
  | _, [] => 0
  | skip + 1, _ :: t => count_occurrences delimiter skip t
  | 0, c :: t =>
    if (c :: t).take delimiter.length = delimiter then
      1 + count_occurrences delimiter (delimiter.length - 1) t
    else count_occurrences delimiter 0 t

/-- The range of a map (`isl_map_range`): the output tuples it relates to some
input tuple. -/
def isl_map_range (map : isl_map) : List Int → Prop :=
  fun o => ∃ i, map.rel i o

/-- Projecting the dimension at position `pos` out of a set of tuples
(`isl_set_project_out` with one dimension). -/
def isl_set_project_out (set : List Int → Prop) (pos : Nat) : List Int → Prop :=
  fun o => ∃ x, set x ∧ o = x.eraseIdx pos

/-! ## Sample schedules and functions -/

/-- The identity schedule `{ S[names] -> S[names] }` of a computation whose
iteration domain holds all tuples of rank `names.length`, the identity map
over the space of the domain: the output dimensions carry the names of the
domain and the output tuple carries its identifier `S`. -/
def identity_schedule (names : List String) : isl_map :=
  { out_dims := names.map some
    out_tuple_id := some "S"
    rel := fun i o => i.length = names.length ∧ o = i
    wf := by
      rintro i o ⟨h, rfl⟩
      simpa using h }

/-- A function with two computations `S1` (at address `1`) and `S2` (at
address `2`), both with the identity schedule of rank two and
`relative_order` `0`. -/
def two_computations : function :=
  { body := [{ addr := 1, name := "S1", schedule := identity_schedule ["s", "i"],
               relative_order := 0 },
             { addr := 2, name := "S2", schedule := identity_schedule ["s", "i"],
               relative_order := 0 }] }

/-- A function with three computations `A`, `B` and `C` (at the addresses `1`,
`2` and `3`), each with the identity schedule of rank two and `relative_order`
`0`. -/
def three_computations : function :=
  { body := [{ addr := 1, name := "A", schedule := identity_schedule ["s", "i"],
               relative_order := 0 },
             { addr := 2, name := "B", schedule := identity_schedule ["s", "i"],
               relative_order := 0 },
             { addr := 3, name := "C", schedule := identity_schedule ["s", "i"],
               relative_order := 0 }] }

/-- The body of the function when `first` returns, written in one piece for a
body whose schedules are aligned: the receiver keeps its `relative_order` and
has `0` at position `dim + 1`, every other computation has its
`relative_order` increased by one and has `1` at position `dim + 1`. -/
def first_result (this : Nat) (dim : Int) (body : List computation) : List computation :=
  body.map (fun c =>
    { c with
      relative_order := if c.addr ≠ this then c.relative_order + 1 else c.relative_order
      schedule := set_const c.schedule (dim + 1) (if c.addr = this then 0 else 1) })

/-- A function with one computation `S` at address `1` that has the given
schedule. -/
def single_computation (schedule : isl_map) : function :=
  { body := [{ addr := 1, name := "S", schedule := schedule, relative_order := 0 }] }

/-- A computation `S1` at address `1` with the identity schedule of rank
two. -/
def sample_computation : computation :=
  { addr := 1, name := "S1", schedule := identity_schedule ["s", "i"], relative_order := 0 }

/-! ## Sequences of scheduling calls and the interleaved layout -/

/-- The tuple `(0, x_0, 0, x_1, ..., x_(n-1), 0)`. -/
def interleave : List Int → List Int
  | [] => [0]
  | v :: rest => 0 :: v :: interleave rest

/-- The names of the output dimensions of the interleaved identity schedule:
the loop iterators keep the names of the domain, the static slots have
none. -/
def interleaved_names : List String → List (Option String)
  | [] => [none]
  | a :: rest => none :: some a :: interleaved_names rest

/-- Modelled from the spec: the interleaved identity schedule
`{ S[i, j] -> [0, i, 0, j, 0] }` of a fresh computation.  The constructor of
`computation` is in the header `coli/core.h`, which is not part of the
sources; the layout is the one the specification gives, static slots at the
positions `0, 2, 4, ...` and the loop iterators between them.  The output
tuple has no identifier, as after the insertion of the static dimensions. -/
def interleaved_identity_schedule (names : List String) : isl_map :=
  { out_dims := interleaved_names names
    out_tuple_id := none
    rel := fun i o => i.length = names.length ∧ o = interleave i
    wf := by
      rintro i o ⟨h, rfl⟩
      induction names generalizing i with
      | nil =>
        cases i with
        | nil => rfl
        | cons v rest => simp at h
      | cons a tl ih =>
        cases i with
        | nil => simp at h
        | cons v rest =>
          have hr : rest.length = tl.length := by simpa using h
          simp only [interleave, interleaved_names, List.length_cons, ih rest hr] }

/-- A call of a scheduling method in the user program; `this` is the address
of the receiver, `comp` the address of the argument. -/
inductive transformer_call where
  | split (this : Nat) (inDim0 sizeX : Int)
  | interchange (this : Nat) (inDim0 inDim1 : Int)
  | tile (this : Nat) (inDim0 inDim1 sizeX sizeY : Int)
  | after (this comp : Nat) (dim : Int)
  | before (this comp : Nat) (dim : Int)
  | first (this : Nat) (dim : Int)

/-- A method that replaces the schedule of its receiver (`split`,
`interchange`, `tile`), called on the computation at address `this` of the
function; the state is the function and the global `id_counter`. -/
def method_on (this : Nat) (st : function × Nat)
    (method : isl_map → Nat → Option (isl_map × Nat)) : Option (function × Nat) :=
  match get_schedule_at this st.1.body with
  | none => none
  | some schedule =>
    match method schedule st.2 with
    | none => none
    | some r => some ({ st.1 with body := set_schedule_at this r.1 st.1.body }, r.2)

/-- One call of a scheduling method on the state; `none` when the call leaves
no schedule: an assertion of the method fails, or `interchange` stores a NULL
schedule. -/
def apply_call (st : function × Nat) : transformer_call → Option (function × Nat)
  | transformer_call.split this inDim0 sizeX =>
    method_on this st (fun s c => split s inDim0 sizeX c)
  | transformer_call.interchange this inDim0 inDim1 =>
    method_on this st (fun s c => interchange s inDim0 inDim1 c)
  | transformer_call.tile this inDim0 inDim1 sizeX sizeY =>
    method_on this st (fun s c => tile s inDim0 inDim1 sizeX sizeY c)
  | transformer_call.after _ comp dim => (after st.1 comp dim).map (fun f => (f, st.2))
  | transformer_call.before this _ dim => (before st.1 this dim).map (fun f => (f, st.2))
  | transformer_call.first this dim => (first st.1 this dim).map (fun f => (f, st.2))

/-- A finite sequence of calls, each on the state the one before it left; the
result is `none` as soon as a call leaves no schedule. -/
def run_calls : function × Nat → List transformer_call → Option (function × Nat)
  | st, [] => some st
  | st, call :: rest =>
    match apply_call st call with
    | none => none
    | some st1 => run_calls st1 rest

/-- The static slots of the interleaved layout: every output position
`0, 2, 4, ...` of the schedule is constrained to a single constant. -/
def interleaved (s : isl_map) : Prop :=
  ∀ p, p % 2 = 0 → p < isl_map_dim_out s → ∃ v, static_coordinate s p v

/-- Every schedule of the function has the static slots of the interleaved
layout. -/
def interleaved_function (f : function) : Prop :=
  ∀ c ∈ f.body, interleaved c.schedule

/-- An `interchange` call exchanges two positions of the same parity; no
condition on the other calls. -/
def same_parity_interchange : transformer_call → Prop
  | transformer_call.interchange _ inDim0 inDim1 => inDim0 % 2 = inDim1 % 2
  | _ => True

/-- A function with one computation `S` at address `1`, with the interleaved
identity schedule `{ S[i] -> [0, i, 0] }`. -/
def one_interleaved_computation : function :=
  { body := [{ addr := 1, name := "S", schedule := interleaved_identity_schedule ["i"],
               relative_order := 0 }] }

/-! ## Facts about lists, names and valuations -/

theorem digitChar_value (d : Nat) (h : d < 10) : (Nat.digitChar d).toNat - 48 = d := by
  interval_cases d <;> rfl

theorem toDigitsCore_value (fuel : Nat) : ∀ (n : Nat) (ds : List Char), n < fuel →
    ∃ pre, Nat.toDigitsCore 10 fuel n ds = pre ++ ds ∧ digits_value pre = n := by
  induction fuel with
  | zero => intro n ds h; omega
  | succ fuel ih =>
    intro n ds h
    simp only [Nat.toDigitsCore]
    by_cases h0 : n / 10 = 0
    · refine ⟨[Nat.digitChar (n % 10)], ?_, ?_⟩
      · simp [h0]
      · simp only [digits_value, List.foldl]
        rw [digitChar_value _ (Nat.mod_lt _ (by decide))]
        omega
    · have hlt : n / 10 < fuel := by omega
      obtain ⟨pre, hpre, hval⟩ := ih (n / 10) (Nat.digitChar (n % 10) :: ds) hlt
      refine ⟨pre ++ [Nat.digitChar (n % 10)], ?_, ?_⟩
      · simp [h0, hpre]
      · simp only [digits_value, List.foldl_append, List.foldl] at hval ⊢
        rw [hval, digitChar_value _ (Nat.mod_lt _ (by decide))]
        omega

theorem toDigits_injective (a b : Nat) (h : Nat.toDigits 10 a = Nat.toDigits 10 b) : a = b := by
  obtain ⟨pa, hpa, hva⟩ := toDigitsCore_value (a + 1) a [] (by omega)
  obtain ⟨pb, hpb, hvb⟩ := toDigitsCore_value (b + 1) b [] (by omega)
  simp only [Nat.toDigits] at h
  rw [hpa, hpb] at h
  simp at h
  rw [← hva, ← hvb, h]

/-- Two calls of the name generator with different counters give different
names. -/
theorem generate_new_variable_name_injective (a b : Nat)
    (h : generate_new_variable_name a = generate_new_variable_name b) : a = b := by
  apply toDigits_injective
  have h2 := congrArg String.data h
  simp only [generate_new_variable_name, String.data_append] at h2
  have h3 : (toString a).data = (toString b).data := by simpa using h2
  exact h3

theorem flatMap_range_singletons {α β : Type} (l : List α) (dflt : α) (g : α → β) :
    (List.range l.length).flatMap (fun i => [g (l.getD i dflt)]) = l.map g := by
  induction l with
  | nil => rfl
  | cons a tl ih =>
    rw [List.length_cons, List.range_succ_eq_map, List.flatMap_cons, List.flatMap_map]
    simp only [List.getD_cons_zero, Nat.succ_eq_add_one, List.getD_cons_succ, List.map_cons]
    rw [ih]
    rfl

/-- A loop over the positions of `l` that emits `A` at position `d` and one
element `g l[i]` elsewhere. -/
theorem flatMap_range_splice {α β : Type} (l : List α) (dflt : α) (g : α → β) (A : List β) :
    ∀ d, d < l.length →
    (List.range l.length).flatMap (fun i => if i ≠ d then [g (l.getD i dflt)] else A)
      = (l.take d).map g ++ A ++ (l.drop (d + 1)).map g := by
  induction l with
  | nil => intro d hd; simp at hd
  | cons a tl ih =>
    intro d hd
    rw [List.length_cons, List.range_succ_eq_map, List.flatMap_cons, List.flatMap_map]
    cases d with
    | zero =>
      simp only [Nat.succ_eq_add_one, List.getD_cons_succ, ne_eq, not_true_eq_false, if_false,
        Nat.add_one_ne_zero, not_false_eq_true, if_true, List.take_zero, List.map_nil,
        List.nil_append, Nat.zero_add, List.drop_succ_cons, List.drop_zero]
      rw [flatMap_range_singletons]
    | succ d =>
      have hd2 : d < tl.length := by simpa using hd
      simp only [Nat.succ_eq_add_one, List.getD_cons_succ, ne_eq, Nat.add_right_cancel_iff,
        List.getD_cons_zero, List.take_succ_cons, List.map_cons, List.drop_succ_cons,
        List.cons_append]
      have h0 : (0 : Nat) ≠ d + 1 := by omega
      simp only [h0, not_false_eq_true, if_true, List.singleton_append, List.cons.injEq, true_and]
      exact ih d hd2

theorem getD_append_offset {α : Type} (l1 l2 : List α) (d j : Nat) (dflt : α)
    (h : l1.length = d) : (l1 ++ l2).getD (d + j) dflt = l2.getD j dflt := by
  subst h
  rw [List.getD_append_right _ _ _ _ (by omega)]
  simp

/-- Distinct identifiers can be given any values. -/
theorem exists_valuation (ds : List String) : ∀ (x : List Int), ds.Nodup →
    x.length = ds.length → ∃ σ : String → Int, ds.map σ = x := by
  induction ds with
  | nil =>
    intro x _ hl
    exact ⟨fun _ => 0, by simpa using (List.length_eq_zero.mp hl).symm⟩
  | cons a tl ih =>
    intro x hn hl
    cases x with
    | nil => simp at hl
    | cons v vs =>
      obtain ⟨hatl, hntl⟩ := List.nodup_cons.mp hn
      obtain ⟨σ, hσ⟩ := ih vs hntl (by simpa using hl)
      refine ⟨Function.update σ a v, ?_⟩
      simp only [List.map_cons, Function.update_same, List.cons.injEq, true_and]
      rw [← hσ]
      apply List.map_congr_left
      intro b hb
      have hne : b ≠ a := fun hba => hatl (hba ▸ hb)
      exact Function.update_noteq hne v σ

/-! ## `split` -/

theorem set_dim_ids_rel (map : isl_map) (dimensions : List String) :
    (set_dim_ids map dimensions).rel = map.rel := by
  unfold set_dim_ids
  generalize List.range dimensions.length = idx
  induction idx generalizing map with
  | nil => rfl
  | cons a tl ih => rw [List.foldl_cons, ih]; rfl

theorem set_dim_ids_length (map : isl_map) (dimensions : List String) :
    (set_dim_ids map dimensions).out_dims.length = map.out_dims.length := by
  unfold set_dim_ids
  generalize List.range dimensions.length = idx
  induction idx generalizing map with
  | nil => rfl
  | cons a tl ih => rw [List.foldl_cons, ih]; simp [isl_map_set_dim_id]

theorem split_text_outs (n d : Nat) (k : Int) (names : Nat → String) (hd : d < n) :
    (split_text n d k names).1.outs
      = (((List.range n).map (fun i => names (2 + i))).take d).map tuple_entry.ident
        ++ [tuple_entry.ident (names 0), tuple_entry.zero, tuple_entry.ident (names 1)]
        ++ (((List.range n).map (fun i => names (2 + i))).drop (d + 1)).map tuple_entry.ident := by
  have h := flatMap_range_splice ((List.range n).map (fun i => names (2 + i))) ""
    tuple_entry.ident
    [tuple_entry.ident (names 0), tuple_entry.zero, tuple_entry.ident (names 1)] d
    (by simpa using hd)
  simp only [List.length_map, List.length_range] at h
  simpa [split_text] using h

theorem split_text_outs_length (n d : Nat) (k : Int) (names : Nat → String) (hd : d < n) :
    (split_text n d k names).1.outs.length = n + 2 := by
  rw [split_text_outs n d k names hd]
  simp
  omega

/-- The relation denoted by the text that `split` writes: the input tuple has
`n` coordinates and the output tuple is the strip-mined one. -/
theorem split_text_rel (n d : Nat) (k : Int) (names : Nat → String)
    (hinj : Function.Injective names) (hd : d < n) (x o : List Int) :
    (isl_map_read_from_str (split_text n d k names).1).rel x o ↔
      x.length = n ∧
      o = x.take d ++ [Int.fdiv (x.getD d 0) k, 0, Int.fmod (x.getD d 0) k] ++ x.drop (d + 1) := by
  have hlen : ((List.range n).map (fun i => names (2 + i))).length = n := by simp
  have hget : ((List.range n).map (fun i => names (2 + i))).getD d "" = names (2 + d) := by
    rw [List.getD_eq_getElem _ _ (by simpa using hd)]
    simp
  have hins : (split_text n d k names).1.ins = (List.range n).map (fun i => names (2 + i)) := rfl
  have hcs : (split_text n d k names).1.constraints
      = [text_constraint.floor_div (names 0) (names (2 + d)) k,
         text_constraint.modulo (names 1) (names (2 + d)) k] := by
    simp only [split_text, hget]
  simp only [isl_map_read_from_str, hins, hcs, split_text_outs n d k names hd]
  constructor
  · rintro ⟨σ, hx, ho, hc⟩
    have h1 := hc _ (List.mem_cons_self _ _)
    have h2 := hc _ (List.mem_cons_of_mem _ (List.mem_cons_self _ _))
    simp only [text_constraint.holds] at h1 h2
    have hxd : x.getD d 0 = σ (names (2 + d)) := by
      rw [hx, List.getD_eq_getElem _ _ (by simpa using hd)]
      simp
    refine ⟨by rw [hx]; simp, ?_⟩
    rw [ho, hxd, ← h1, ← h2, hx]
    simp [List.map_take, List.map_drop, tuple_entry.eval, Function.comp_def]
  · rintro ⟨hxl, ho⟩
    have hnodup : ((List.range n).map (fun i => names (2 + i))).Nodup :=
      List.Nodup.map (fun a b hab => by have := hinj hab; omega) (List.nodup_range n)
    obtain ⟨σ, hσ⟩ := exists_valuation _ x hnodup (by rw [hlen, hxl])
    have hnot : ∀ j, j < 2 → ∀ b ∈ (List.range n).map (fun i => names (2 + i)), b ≠ names j := by
      intro j hj b hb
      obtain ⟨i, _, hi⟩ := List.mem_map.mp hb
      intro hbj
      have := hinj (hi.trans hbj)
      omega
    have h01 : names 0 ≠ names 1 := fun h => by have := hinj h; omega
    let τ : String → Int :=
      Function.update (Function.update σ (names 0) (Int.fdiv (x.getD d 0) k))
        (names 1) (Int.fmod (x.getD d 0) k)
    have hτ : ∀ b ∈ (List.range n).map (fun i => names (2 + i)), τ b = σ b := by
      intro b hb
      simp only [τ]
      rw [Function.update_noteq (hnot 1 (by omega) b hb),
        Function.update_noteq (hnot 0 (by omega) b hb)]
    have hτ0 : τ (names 0) = Int.fdiv (x.getD d 0) k := by
      simp only [τ]
      rw [Function.update_noteq h01, Function.update_same]
    have hτ1 : τ (names 1) = Int.fmod (x.getD d 0) k := by
      simp only [τ]
      rw [Function.update_same]
    have hmap : ((List.range n).map (fun i => names (2 + i))).map τ = x := by
      rw [List.map_congr_left hτ, hσ]
    have hτd : τ (names (2 + d)) = x.getD d 0 := by
      have : x.getD d 0 = (((List.range n).map (fun i => names (2 + i))).map τ).getD d 0 := by
        rw [hmap]
      rw [this, List.getD_eq_getElem _ _ (by simpa using hd)]
      simp
    refine ⟨τ, hmap.symm, ?_, ?_⟩
    · rw [ho]
      simp only [List.map_append, List.map_map, List.map_cons, List.map_nil, tuple_entry.eval,
        hτ0, hτ1]
      have hc : (tuple_entry.eval τ ∘ tuple_entry.ident) = τ := rfl
      rw [hc, List.map_take, List.map_drop, hmap]
    · intro c hc
      simp only [List.mem_cons, List.mem_singleton, List.not_mem_nil, or_false] at hc
      rcases hc with rfl | rfl
      · simp only [text_constraint.holds, hτ0, hτd]
      · simp only [text_constraint.holds, hτ1, hτd]

/-- The result of `split` when its assertions hold. -/
theorem split_eq (schedule : isl_map) (d k : Int) (id_counter : Nat)
    (hd0 : 0 ≤ d) (hd : d < isl_map_dim_out schedule) (hk : 1 ≤ k) :
    split schedule d k id_counter =
      some (isl_map_apply_range (isl_map_set_tuple_id schedule " ")
        (isl_map_set_tuple_id
          (set_dim_ids (isl_map_read_from_str (split_text (isl_map_dim_out schedule) d.toNat k
            (fun i => generate_new_variable_name (id_counter + i))).1)
            (split_text (isl_map_dim_out schedule) d.toNat k
            (fun i => generate_new_variable_name (id_counter + i))).2) " "),
        id_counter + 2 + isl_map_dim_out schedule) := by
  unfold split
  rw [if_pos ⟨hd0, hd, hk⟩]

theorem generated_names_injective (id_counter : Nat) :
    Function.Injective (fun i => generate_new_variable_name (id_counter + i)) := by
  intro a b h
  have := generate_new_variable_name_injective _ _ h
  omega

/-- Relation of the schedule after `split`. -/
theorem split_rel (schedule s' : isl_map) (d k : Int) (id_counter c' : Nat)
    (hd0 : 0 ≤ d) (hd : d < isl_map_dim_out schedule) (hk : 1 ≤ k)
    (h : split schedule d k id_counter = some (s', c')) (i o : List Int) :
    s'.rel i o ↔ ∃ x, schedule.rel i x ∧ o = split_image d.toNat k x := by
  rw [split_eq schedule d k id_counter hd0 hd hk] at h
  have hs := (Prod.mk.inj (Option.some.inj h)).1
  have hdn : d.toNat < isl_map_dim_out schedule := by omega
  rw [← hs]
  simp only [isl_map_apply_range, isl_map_set_tuple_id, set_dim_ids_rel,
    split_text_rel _ _ _ _ (generated_names_injective id_counter) hdn, split_image]
  constructor
  · rintro ⟨x, hx, _, ho⟩
    exact ⟨x, hx, ho⟩
  · rintro ⟨x, hx, ho⟩
    exact ⟨x, hx, schedule.wf i x hx, ho⟩

/-- The method `split` succeeds under its assertions; the new schedule has two
more output dimensions and relates a point to the strip-mined images of its
old images. -/
theorem split_spec (schedule : isl_map) (d k : Int) (id_counter : Nat)
    (hd0 : 0 ≤ d) (hd : d < isl_map_dim_out schedule) (hk : 1 ≤ k) :
    ∃ s' c', split schedule d k id_counter = some (s', c') ∧
      isl_map_dim_out s' = isl_map_dim_out schedule + 2 ∧
      ∀ i o, s'.rel i o ↔ ∃ x, schedule.rel i x ∧ o = split_image d.toNat k x := by
  have hdn : d.toNat < isl_map_dim_out schedule := by omega
  refine ⟨_, _, split_eq schedule d k id_counter hd0 hd hk, ?_, ?_⟩
  · simp only [isl_map_dim_out, isl_map_apply_range, isl_map_set_tuple_id, set_dim_ids_length,
      isl_map_read_from_str, List.length_map, List.length_range]
    exact split_text_outs_length _ _ _ _ hdn
  · intro i o
    exact split_rel schedule _ d k id_counter _ hd0 hd hk
      (split_eq schedule d k id_counter hd0 hd hk) i o

/-- The schedule that `split` returns has the identifier `" "` on its output
tuple. -/
theorem split_out_tuple_id (schedule s' : isl_map) (d k : Int) (id_counter c' : Nat)
    (h : split schedule d k id_counter = some (s', c')) : s'.out_tuple_id = some " " := by
  unfold split at h
  split at h
  · rw [← (Prod.mk.inj (Option.some.inj h)).1]
    rfl
  · exact absurd h (by simp)

/-- Claim C1: for a schedule of output rank `n`, a position `0 ≤ d < n` and a
size `k ≥ 1`, `split(d, k)` succeeds and stores a schedule of output rank
`n + 2` that relates an iteration point to exactly the strip-mined images
`(x_0, ..., floor(x_d / k), 0, x_d mod k, ..., x_(n-1))` of its old images
`x`; the remainder is the non-negative one: `k * outer + inner = x_d` and
`0 ≤ inner < k` for every `x_d`, negative ones included. -/
theorem split_strip_mines (schedule : isl_map) (d k : Int) (id_counter : Nat)
    (hd0 : 0 ≤ d) (hd : d < isl_map_dim_out schedule) (hk : 1 ≤ k) :
    ∃ s' c', split schedule d k id_counter = some (s', c') ∧
      isl_map_dim_out s' = isl_map_dim_out schedule + 2 ∧
      (∀ i o, s'.rel i o ↔ ∃ x, schedule.rel i x ∧ o = split_image d.toNat k x) ∧
      (∀ i x, schedule.rel i x →
        (split_image d.toNat k x).getD (d.toNat + 1) 0 = 0 ∧
        k * (split_image d.toNat k x).getD d.toNat 0
          + (split_image d.toNat k x).getD (d.toNat + 2) 0 = x.getD d.toNat 0 ∧
        0 ≤ (split_image d.toNat k x).getD (d.toNat + 2) 0 ∧
        (split_image d.toNat k x).getD (d.toNat + 2) 0 < k) := by
  have hdn : d.toNat < isl_map_dim_out schedule := by omega
  obtain ⟨s', c', e, hrank, hrel⟩ := split_spec schedule d k id_counter hd0 hd hk
  refine ⟨s', c', e, hrank, hrel, ?_⟩
  · intro i x hx
    have hxl : x.length = isl_map_dim_out schedule := schedule.wf i x hx
    have hlt : (List.take d.toNat x).length = d.toNat := by
      rw [List.length_take]; omega
    have e0 : (split_image d.toNat k x).getD d.toNat 0 = Int.fdiv (x.getD d.toNat 0) k := by
      have h := getD_append_offset (List.take d.toNat x)
        ([Int.fdiv (x.getD d.toNat 0) k, 0, Int.fmod (x.getD d.toNat 0) k]
          ++ x.drop (d.toNat + 1)) d.toNat 0 0 hlt
      simpa [split_image] using h
    have e1 : (split_image d.toNat k x).getD (d.toNat + 1) 0 = 0 := by
      have h := getD_append_offset (List.take d.toNat x)
        ([Int.fdiv (x.getD d.toNat 0) k, 0, Int.fmod (x.getD d.toNat 0) k]
          ++ x.drop (d.toNat + 1)) d.toNat 1 0 hlt
      simpa [split_image] using h
    have e2 : (split_image d.toNat k x).getD (d.toNat + 2) 0 = Int.fmod (x.getD d.toNat 0) k := by
      have h := getD_append_offset (List.take d.toNat x)
        ([Int.fdiv (x.getD d.toNat 0) k, 0, Int.fmod (x.getD d.toNat 0) k]
          ++ x.drop (d.toNat + 1)) d.toNat 2 0 hlt
      simpa [split_image] using h
    rw [e0, e1, e2]
    exact ⟨rfl, Int.fdiv_add_fmod _ _, by
      rw [Int.fmod_eq_emod _ (by omega)]; exact Int.emod_nonneg _ (by omega),
      Int.fmod_lt_of_pos _ (by omega)⟩

/-- Witness for `split`: the identity schedule of rank two, split at position
`0` by `4`. -/
theorem split_strip_mines_witness :
    (0 : Int) ≤ 0 ∧ (0 : Int) < isl_map_dim_out (identity_schedule ["i", "j"]) ∧ (1 : Int) ≤ 4 ∧
    ∃ s' c', split (identity_schedule ["i", "j"]) 0 4 0 = some (s', c') ∧
      isl_map_dim_out s' = isl_map_dim_out (identity_schedule ["i", "j"]) + 2 ∧
      (∀ i o, s'.rel i o ↔
        ∃ x, (identity_schedule ["i", "j"]).rel i x ∧ o = split_image (0 : Int).toNat 4 x) ∧
      (∀ i x, (identity_schedule ["i", "j"]).rel i x →
        (split_image (0 : Int).toNat 4 x).getD ((0 : Int).toNat + 1) 0 = 0 ∧
        4 * (split_image (0 : Int).toNat 4 x).getD (0 : Int).toNat 0
          + (split_image (0 : Int).toNat 4 x).getD ((0 : Int).toNat + 2) 0
            = x.getD (0 : Int).toNat 0 ∧
        0 ≤ (split_image (0 : Int).toNat 4 x).getD ((0 : Int).toNat + 2) 0 ∧
        (split_image (0 : Int).toNat 4 x).getD ((0 : Int).toNat + 2) 0 < 4) :=
  ⟨by decide, by decide, by decide,
    split_strip_mines (identity_schedule ["i", "j"]) 0 4 0 (by decide) (by decide) (by decide)⟩

/-! ## `interchange` -/

theorem interchange_name_dims_rel (idx : List Nat) (st : isl_map × Nat) :
    (idx.foldl interchange_name_dim st).1.rel = st.1.rel := by
  induction idx generalizing st with
  | nil => rfl
  | cons a tl ih =>
    rw [List.foldl_cons, ih]
    unfold interchange_name_dim
    split <;> rfl

theorem interchange_name_dims_length (idx : List Nat) (st : isl_map × Nat) :
    (idx.foldl interchange_name_dim st).1.out_dims.length = st.1.out_dims.length := by
  induction idx generalizing st with
  | nil => rfl
  | cons a tl ih =>
    rw [List.foldl_cons, ih]
    unfold interchange_name_dim
    split
    · simp [isl_map_set_dim_id]
    · rfl

/-- The first loop of `interchange` leaves a dimension that has a name
alone. -/
theorem interchange_name_dims_keeps (idx : List Nat) (st : isl_map × Nat) (p : Nat) (v : String)
    (h : isl_map_get_dim_name st.1 p = some v) :
    isl_map_get_dim_name (idx.foldl interchange_name_dim st).1 p = some v := by
  induction idx generalizing st with
  | nil => exact h
  | cons a tl ih =>
    rw [List.foldl_cons]
    apply ih
    unfold interchange_name_dim
    split
    · rename_i hnone
      have hne : a ≠ p := by
        intro hap
        rw [hap, h] at hnone
        exact Option.noConfusion hnone
      simp only [isl_map_get_dim_name, isl_map_set_dim_id, List.getD_eq_getElem?_getD] at h ⊢
      rw [List.getElem?_set_ne hne]
      exact h
    · exact h

theorem interchange_name_dims_tuple_id (idx : List Nat) (st : isl_map × Nat) :
    (idx.foldl interchange_name_dim st).1.out_tuple_id = st.1.out_tuple_id := by
  induction idx generalizing st with
  | nil => rfl
  | cons a tl ih =>
    rw [List.foldl_cons, ih]
    unfold interchange_name_dim
    split <;> rfl

/-- The value of `interchange` when its assertions hold, the two dimensions
have a name and the output tuple of the schedule has an identifier. -/
theorem interchange_eq (s : isl_map) (d0 d1 : Int) (c : Nat) (v0 v1 t : String)
    (hass : 0 ≤ d0 ∧ d0 < isl_map_dim_out s ∧ 0 ≤ d1 ∧ d1 < isl_map_dim_out s)
    (hv0 : isl_map_get_dim_name s d0.toNat = some v0)
    (hv1 : isl_map_get_dim_name s d1.toNat = some v1)
    (ht : s.out_tuple_id = some t) :
    interchange s d0 d1 c = some
      (isl_map_apply_range
        ((List.range (isl_map_dim_out s)).foldl interchange_name_dim (s, c)).1
        (isl_map_set_tuple_id (isl_map_read_from_str
          (interchange_text
            ((List.range (isl_map_dim_out s)).foldl interchange_name_dim (s, c)).1
            (isl_map_dim_out s) d0.toNat d1.toNat v0 v1)) ""),
        ((List.range (isl_map_dim_out s)).foldl interchange_name_dim (s, c)).2) := by
  have htid : isl_map_get_tuple_id
      ((List.range (isl_map_dim_out s)).foldl interchange_name_dim (s, c)).1 = some t := by
    unfold isl_map_get_tuple_id
    rw [interchange_name_dims_tuple_id]
    exact ht
  unfold interchange
  rw [if_pos hass]
  simp only [hv0, hv1, htid]

/-- When `interchange` returns a schedule, its assertions hold, the two
dimensions have a name, the output tuple of the schedule has an identifier,
and the result is the one of `interchange_eq`. -/
theorem interchange_inv (s s1 : isl_map) (d0 d1 : Int) (c c1 : Nat)
    (h : interchange s d0 d1 c = some (s1, c1)) :
    ∃ v0 v1 t, (0 ≤ d0 ∧ d0 < isl_map_dim_out s ∧ 0 ≤ d1 ∧ d1 < isl_map_dim_out s) ∧
      isl_map_get_dim_name s d0.toNat = some v0 ∧
      isl_map_get_dim_name s d1.toNat = some v1 ∧
      s.out_tuple_id = some t ∧
      s1 = isl_map_apply_range
        ((List.range (isl_map_dim_out s)).foldl interchange_name_dim (s, c)).1
        (isl_map_set_tuple_id (isl_map_read_from_str
          (interchange_text
            ((List.range (isl_map_dim_out s)).foldl interchange_name_dim (s, c)).1
            (isl_map_dim_out s) d0.toNat d1.toNat v0 v1)) "") := by
  by_cases hass : 0 ≤ d0 ∧ d0 < isl_map_dim_out s ∧ 0 ≤ d1 ∧ d1 < isl_map_dim_out s
  · cases hv0 : isl_map_get_dim_name s d0.toNat with
    | none =>
      unfold interchange at h
      rw [if_pos hass] at h
      simp only [hv0] at h
      exact absurd h (by simp)
    | some v0 =>
      cases hv1 : isl_map_get_dim_name s d1.toNat with
      | none =>
        unfold interchange at h
        rw [if_pos hass] at h
        simp only [hv0, hv1] at h
        exact absurd h (by simp)
      | some v1 =>
        cases ht : s.out_tuple_id with
        | none =>
          have htid : isl_map_get_tuple_id
              ((List.range (isl_map_dim_out s)).foldl interchange_name_dim (s, c)).1
              = none := by
            unfold isl_map_get_tuple_id
            rw [interchange_name_dims_tuple_id]
            exact ht
          unfold interchange at h
          rw [if_pos hass] at h
          simp only [hv0, hv1, htid] at h
          exact absurd h (by simp)
        | some t =>
          rw [interchange_eq s d0 d1 c v0 v1 t hass hv0 hv1 ht] at h
          exact ⟨v0, v1, t, hass, rfl, rfl, rfl, ((Prod.mk.inj (Option.some.inj h)).1).symm⟩
  · unfold interchange at h
    rw [if_neg hass] at h
    exact absurd h (by simp)

/-- Without an identifier on the output tuple of the schedule, `interchange`
stores no schedule. -/
theorem interchange_without_tuple_id (s : isl_map) (d0 d1 : Int) (c : Nat)
    (ht : s.out_tuple_id = none) : interchange s d0 d1 c = none := by
  cases h : interchange s d0 d1 c with
  | none => rfl
  | some r =>
    obtain ⟨v0, v1, t, -, -, -, ht2, -⟩ := interchange_inv s r.1 d0 d1 c r.2 h
    rw [ht] at ht2
    exact absurd ht2 (by simp)

theorem names_of_named (ns : List String) :
    (List.range ns.length).map (fun i => ((ns.map some).getD i none).getD "") = ns := by
  apply List.ext_getElem
  · simp
  · intro i h1 h2
    simp only [List.length_map, List.length_range] at h1
    simp [List.getD_eq_getElem?_getD, h1]

/-- The relation denoted by the text that `interchange` writes, when the
output dimensions of the schedule carry pairwise distinct names. -/
theorem interchange_text_rel (named : isl_map) (ns : List String) (n d0 d1 : Nat)
    (hn : n = ns.length) (hns : named.out_dims = ns.map some) (hnd : ns.Nodup)
    (h0 : d0 < ns.length) (h1 : d1 < ns.length) (x o : List Int) :
    (isl_map_read_from_str (interchange_text named n d0 d1
      (ns.getD d0 "") (ns.getD d1 ""))).rel x o ↔
      x.length = ns.length ∧ o = swap_image d0 d1 x := by
  subst hn
  have hins : (interchange_text named ns.length d0 d1 (ns.getD d0 "") (ns.getD d1 "")).ins
      = ns := by
    simp only [interchange_text, isl_map_get_dim_name, hns]
    exact names_of_named ns
  have hname : ∀ i, i < ns.length → (isl_map_get_dim_name named i).getD "" = ns.getD i "" := by
    intro i hi
    simp [isl_map_get_dim_name, hns, List.getD_eq_getElem?_getD, hi]
  have houts : ∀ σ : String → Int,
      (interchange_text named ns.length d0 d1 (ns.getD d0 "") (ns.getD d1 "")).outs.map
          (tuple_entry.eval σ)
        = swap_image d0 d1 (ns.map σ) := by
    intro σ
    simp only [interchange_text, swap_image, List.map_map, List.length_map]
    apply List.map_congr_left
    intro i hi
    have hi2 : i < ns.length := List.mem_range.mp hi
    simp only [Function.comp]
    by_cases e0 : i = d0
    · subst e0
      simp [tuple_entry.eval, List.getElem?_eq_getElem h1]
    · by_cases e1 : i = d1
      · subst e1
        simp [e0, tuple_entry.eval, List.getElem?_eq_getElem h0]
      · simp [e0, e1, tuple_entry.eval, hname i hi2, List.getElem?_eq_getElem hi2]
  simp only [isl_map_read_from_str, hins, houts]
  constructor
  · rintro ⟨σ, hx, ho, _⟩
    refine ⟨by rw [hx]; simp, ?_⟩
    rw [ho, hx]
  · rintro ⟨hxl, ho⟩
    obtain ⟨σ, hσ⟩ := exists_valuation ns x hnd hxl
    refine ⟨σ, hσ.symm, ?_, ?_⟩
    · rw [ho, hσ]
    · intro c hc
      simp [interchange_text] at hc

/-- The result of `interchange` on a schedule whose output tuple has an
identifier, whose dimensions `d0` and `d1` have a name and whose output names,
once the first loop has named the remaining dimensions, are pairwise distinct:
the schedule keeps its rank and relates every point to its old images with the
two coordinates exchanged. -/
theorem interchange_of_named (s : isl_map) (d0 d1 : Int) (c : Nat) (ns : List String)
    (hd0 : 0 ≤ d0) (hd0n : d0 < isl_map_dim_out s) (hd1 : 0 ≤ d1) (hd1n : d1 < isl_map_dim_out s)
    (hn0 : isl_map_get_dim_name s d0.toNat ≠ none)
    (hn1 : isl_map_get_dim_name s d1.toNat ≠ none)
    (hns : ((List.range (isl_map_dim_out s)).foldl interchange_name_dim (s, c)).1.out_dims
      = ns.map some)
    (hnd : ns.Nodup) (htid : s.out_tuple_id ≠ none) :
    ∃ s' c', interchange s d0 d1 c = some (s', c') ∧
      isl_map_dim_out s' = isl_map_dim_out s ∧
      ∀ i o, s'.rel i o ↔ ∃ x, s.rel i x ∧ o = swap_image d0.toNat d1.toNat x := by
  obtain ⟨t, ht⟩ := Option.ne_none_iff_exists'.mp htid
  have hlen : isl_map_dim_out s = ns.length := by
    have h := interchange_name_dims_length (List.range (isl_map_dim_out s)) (s, c)
    rw [hns] at h
    simpa [isl_map_dim_out] using h.symm
  have h0 : d0.toNat < ns.length := by omega
  have h1 : d1.toNat < ns.length := by omega
  obtain ⟨v0, hv0⟩ := Option.ne_none_iff_exists'.mp hn0
  obtain ⟨v1, hv1⟩ := Option.ne_none_iff_exists'.mp hn1
  have key : ∀ p v, p < ns.length → isl_map_get_dim_name s p = some v → v = ns.getD p "" := by
    intro p v hp hpv
    have hk := interchange_name_dims_keeps (List.range (isl_map_dim_out s)) (s, c) p v hpv
    simp only [isl_map_get_dim_name, hns] at hk
    simp only [List.getD_eq_getElem?_getD, List.getElem?_map, List.getElem?_eq_getElem hp,
      Option.map_some', Option.getD_some] at hk ⊢
    exact (Option.some.inj hk).symm
  have e0 := key _ _ h0 hv0
  have e1 := key _ _ h1 hv1
  refine ⟨_, _, interchange_eq s d0 d1 c v0 v1 t ⟨hd0, hd0n, hd1, hd1n⟩ hv0 hv1 ht, ?_, ?_⟩
  · simp [isl_map_dim_out, isl_map_apply_range, isl_map_set_tuple_id, isl_map_read_from_str,
      interchange_text]
  · intro i o
    simp only [isl_map_apply_range, isl_map_set_tuple_id, interchange_name_dims_rel]
    rw [e0, e1]
    constructor
    · rintro ⟨x, hx, hT⟩
      exact ⟨x, hx, ((interchange_text_rel _ ns _ _ _ hlen hns hnd h0 h1 x o).mp hT).2⟩
    · rintro ⟨x, hx, ho⟩
      exact ⟨x, hx, (interchange_text_rel _ ns _ _ _ hlen hns hnd h0 h1 x o).mpr
        ⟨by rw [s.wf i x hx]; exact hlen, ho⟩⟩

/-- The lemma `interchange_of_named` at a concrete input: on the identity
schedule of rank two, whose dimensions are named `i` and `j`,
`interchange(0, 1)` returns a schedule that sends `(3, 8)` to `(8, 3)`. -/
theorem interchange_identity_example :
    ∃ s' c', interchange (identity_schedule ["i", "j"]) 0 1 0 = some (s', c') ∧
      isl_map_dim_out s' = 2 ∧ ∀ o, s'.rel [3, 8] o ↔ o = [8, 3] := by
  obtain ⟨s', c', e, hd, hr⟩ := interchange_of_named (identity_schedule ["i", "j"]) 0 1 0
    ["i", "j"] (by decide) (by decide) (by decide) (by decide)
    (by simp [isl_map_get_dim_name, identity_schedule])
    (by simp [isl_map_get_dim_name, identity_schedule]) rfl (by decide)
    (by simp [identity_schedule])
  refine ⟨s', c', e, hd, ?_⟩
  intro o
  rw [hr]
  simp only [identity_schedule]
  constructor
  · rintro ⟨x, ⟨-, rfl⟩, rfl⟩
    rfl
  · rintro rfl
    exact ⟨[3, 8], ⟨rfl, rfl⟩, rfl⟩

/-- Claim C2, the code at a failing input: `align_schedules` pads the rank-one
identity schedule to rank two with a dimension that has no name, and
`interchange(0, 1)` on the padded schedule builds a `std::string` from that
NULL name: the call aborts instead of exchanging the two coordinates. -/
theorem interchange_fails_on_unnamed_dimension :
    ∃ s, isl_map_align_range_dims (identity_schedule ["i"]) 2 = some s ∧
      isl_map_dim_out s = 2 ∧ isl_map_get_dim_name s 1 = none ∧
      interchange s 0 1 0 = none :=
  ⟨_, rfl, rfl, rfl, rfl⟩

/-- The schedule that `interchange` returns has no dimension name at all:
every entry of the output tuple of its text is a name of the input tuple. -/
theorem interchange_result_unnamed (s s1 : isl_map) (d0 d1 : Int) (c c1 : Nat)
    (h : interchange s d0 d1 c = some (s1, c1)) (k : Nat) :
    isl_map_get_dim_name s1 k = none := by
  obtain ⟨v0, v1, t, hass, hv0, hv1, -, hs⟩ := interchange_inv s s1 d0 d1 c c1 h
  rw [hs]
  have k0 := interchange_name_dims_keeps (List.range (isl_map_dim_out s)) (s, c) _ _ hv0
  have k1 := interchange_name_dims_keeps (List.range (isl_map_dim_out s)) (s, c) _ _ hv1
  have hd0 : d0.toNat < isl_map_dim_out s := by omega
  have hd1 : d1.toNat < isl_map_dim_out s := by omega
  simp only [isl_map_get_dim_name, isl_map_apply_range, isl_map_set_tuple_id,
    isl_map_read_from_str, interchange_text, List.length_map, List.length_range]
  by_cases hk : k < isl_map_dim_out s
  · rw [List.getD_eq_getElem _ _ (by simpa using hk)]
    simp only [List.getElem_map, List.getElem_range, parsed_dim_name]
    rw [List.getD_eq_getElem _ _ (by simpa using hk)]
    simp only [List.getElem_map, List.getElem_range]
    have hmem : ∀ j, j < isl_map_dim_out s →
        (isl_map_get_dim_name
          ((List.range (isl_map_dim_out s)).foldl interchange_name_dim (s, c)).1 j).getD ""
        ∈ (List.range (isl_map_dim_out s)).map (fun i =>
          (isl_map_get_dim_name
            ((List.range (isl_map_dim_out s)).foldl interchange_name_dim (s, c)).1 i).getD
            "") := by
      intro j hj
      exact List.mem_map.mpr ⟨j, List.mem_range.mpr hj, rfl⟩
    have m0 := hmem _ hd0
    have m1 := hmem _ hd1
    simp only [isl_map_get_dim_name] at k0 k1 m0 m1 hmem
    rw [k0] at m0
    rw [k1] at m1
    simp only [Option.getD_some] at m0 m1
    by_cases e0 : k = d0.toNat
    · subst e0
      simp only [ne_eq, not_true_eq_false, false_and, if_false, if_true]
      rw [if_pos (Or.inl m1)]
    · by_cases e1 : k = d1.toNat
      · subst e1
        simp only [e0, ne_eq, not_true_eq_false, and_false, if_false]
        rw [if_pos (Or.inl m0)]
      · simp only [e0, e1, ne_eq, not_false_eq_true, and_self, if_true]
        rw [if_pos (Or.inl (hmem k hk))]
  · rw [List.getD_eq_default _ _ (by simpa using Nat.le_of_not_lt hk)]

/-- After a call of `interchange` that returned, every further call of
`interchange` aborts. -/
theorem interchange_after_interchange_fails (s s1 : isl_map) (d0 d1 : Int) (c c1 : Nat)
    (h : interchange s d0 d1 c = some (s1, c1)) (a b : Int) (c2 : Nat) :
    interchange s1 a b c2 = none := by
  unfold interchange
  split
  · rw [interchange_result_unnamed s s1 d0 d1 c c1 h]
  · rfl

/-- Claim C3, the code at a failing input: the first `interchange(0, 1)` on the
identity schedule of rank two succeeds and leaves both output dimensions
without name; the second `interchange(0, 1)` then aborts on the NULL name, so
no schedule equal to the original is produced. -/
theorem interchange_twice_fails :
    ∃ s1 c1, interchange (identity_schedule ["i", "j"]) 0 1 0 = some (s1, c1) ∧
      s1.out_dims = [none, none] ∧ interchange s1 0 1 c1 = none :=
  ⟨_, _, rfl, rfl, rfl⟩

/-! ## `tile` -/

/-- Claim C4, the code at a failing input: `tile(2, 0, 2, 3)` passes the
assertions of `tile` (positions two apart, given in descending order) on the
identity schedule of rank three.  The second `split` is applied at position
`inDim1 + 2 = 2`, the outer part of the first split, and not to the coordinate
at position `0`: the point `(5, 0, 7)` is sent to `(5, 0, 0, 0, 1, 0, 1)`,
where the coordinate `5` is untouched and neither `floor(7 / 2) = 3` nor
`5 mod 3 = 2` occurs. -/
theorem tile_descending_positions :
    ∃ s' c', tile (identity_schedule ["i", "s", "j"]) 2 0 2 3 0 = some (s', c') ∧
      isl_map_dim_out s' = 7 ∧
      ∀ o, s'.rel [5, 0, 7] o ↔ o = [5, 0, 0, 0, 1, 0, 1] := by
  have hs1 := split_eq (identity_schedule ["i", "s", "j"]) 2 2 0
    (by decide) (by decide) (by decide)
  obtain ⟨s1, c1, e1, -, r1⟩ := split_spec (identity_schedule ["i", "s", "j"]) 2 2 0
    (by decide) (by decide) (by decide)
  have hc1 : c1 = 5 := by
    rw [hs1] at e1
    exact ((Prod.mk.inj (Option.some.inj e1)).2).symm
  have hd1 : isl_map_dim_out s1 = 5 := by
    rw [hs1] at e1
    rw [← (Prod.mk.inj (Option.some.inj e1)).1]
    rfl
  subst hc1
  have hs2 := split_eq s1 2 3 5 (by decide) (by rw [hd1]; decide) (by decide)
  obtain ⟨s2, c2, e2, -, r2⟩ := split_spec s1 2 3 5
    (by decide) (by rw [hd1]; decide) (by decide)
  have hc2 : c2 = 12 := by
    rw [hs2] at e2
    rw [← (Prod.mk.inj (Option.some.inj e2)).2, hd1]
  have hd2 : s2.out_dims
      = [some "c7", some "c8", some "c5", some "c6", some "c10", some "c11", none] := by
    rw [hs2] at e2
    rw [← (Prod.mk.inj (Option.some.inj e2)).1, hd1]
    rfl
  subst hc2
  have hn2 : isl_map_dim_out s2 = 7 := by simp [isl_map_dim_out, hd2]
  obtain ⟨s3, c3, e3, hd3, r3⟩ := interchange_of_named s2 4 2 12
    ["c7", "c8", "c5", "c6", "c10", "c11", "c12"]
    (by decide) (by rw [hn2]; decide) (by decide) (by rw [hn2]; decide)
    (by simp [isl_map_get_dim_name, hd2]) (by simp [isl_map_get_dim_name, hd2])
    (by
      rw [hn2]
      simp [List.range, List.range.loop, interchange_name_dim, isl_map_get_dim_name, hd2,
        isl_map_set_dim_id]
      decide)
    (by decide)
    (by rw [split_out_tuple_id s1 s2 _ _ _ _ e2]; simp)
  refine ⟨s3, c3, ?_, by rw [hd3, hn2], ?_⟩
  · unfold tile
    rw [if_pos (by decide)]
    simp only [e1]
    have h02 : (0 : Int) + 2 = 2 := by decide
    have h22 : (2 : Int) + 2 = 4 := by decide
    rw [h02, e2]
    simp only [h22]
    exact e3
  · intro o
    simp only [r3, r2, r1, identity_schedule]
    constructor
    · rintro ⟨x, ⟨y, ⟨z, ⟨_, rfl⟩, rfl⟩, rfl⟩, rfl⟩
      decide
    · intro ho
      exact ⟨_, ⟨_, ⟨_, ⟨rfl, rfl⟩, rfl⟩, rfl⟩, by rw [ho]; decide⟩

/-- The method `interchange` returns a schedule when its assertions hold, the
two dimensions have a name and the output tuple has an identifier. -/
theorem interchange_some (s : isl_map) (d0 d1 : Int) (c : Nat)
    (hd0 : 0 ≤ d0) (hd0n : d0 < isl_map_dim_out s) (hd1 : 0 ≤ d1) (hd1n : d1 < isl_map_dim_out s)
    (hn0 : isl_map_get_dim_name s d0.toNat ≠ none)
    (hn1 : isl_map_get_dim_name s d1.toNat ≠ none) (htid : s.out_tuple_id ≠ none) :
    ∃ s' c', interchange s d0 d1 c = some (s', c') := by
  obtain ⟨v0, hv0⟩ := Option.ne_none_iff_exists'.mp hn0
  obtain ⟨v1, hv1⟩ := Option.ne_none_iff_exists'.mp hn1
  obtain ⟨t, ht⟩ := Option.ne_none_iff_exists'.mp htid
  exact ⟨_, _, interchange_eq s d0 d1 c v0 v1 t ⟨hd0, hd0n, hd1, hd1n⟩ hv0 hv1 ht⟩

/-- Every image under the schedule that `interchange` returns comes from an
old image that is a valuation of the names written in the input tuple of the
transformation map: positions with the same name hold the same value. -/
theorem interchange_rel_valuation (s s' : isl_map) (d0 d1 : Int) (c c' : Nat)
    (h : interchange s d0 d1 c = some (s', c')) (i o : List Int) (hr : s'.rel i o) :
    ∃ x, ∃ σ : String → Int, s.rel i x ∧
      x = ((List.range (isl_map_dim_out s)).map (fun k =>
        (isl_map_get_dim_name
          ((List.range (isl_map_dim_out s)).foldl interchange_name_dim (s, c)).1 k).getD "")).map
        σ := by
  obtain ⟨v0, v1, t, -, -, -, -, hs⟩ := interchange_inv s s' d0 d1 c c' h
  rw [hs] at hr
  obtain ⟨x, hx, σ, hxσ, -, -⟩ := hr
  rw [interchange_name_dims_rel] at hx
  exact ⟨x, σ, hx, hxσ⟩

/-- The second defect of `tile`: with `inDim1` the last output dimension, the
second `split` leaves the same generated name on the last two positions, and
the text `interchange` writes from the names only relates tuples whose last
two coordinates are equal.  On the identity schedule of rank three,
`tile(0, 2, 2, 3)` returns a schedule that relates the point `(5, 0, 7)` to
nothing, although the old schedule has it in its domain. -/
theorem tile_last_dimension_drops_points :
    ∃ s' c', tile (identity_schedule ["i", "s", "j"]) 0 2 2 3 0 = some (s', c') ∧
      (identity_schedule ["i", "s", "j"]).rel [5, 0, 7] [5, 0, 7] ∧
      ∀ o, ¬ s'.rel [5, 0, 7] o := by
  have hs1 := split_eq (identity_schedule ["i", "s", "j"]) 0 2 0
    (by decide) (by decide) (by decide)
  obtain ⟨s1, c1, e1, -, r1⟩ := split_spec (identity_schedule ["i", "s", "j"]) 0 2 0
    (by decide) (by decide) (by decide)
  have hc1 : c1 = 5 := by
    rw [hs1] at e1
    exact ((Prod.mk.inj (Option.some.inj e1)).2).symm
  have hd1 : isl_map_dim_out s1 = 5 := by
    rw [hs1] at e1
    rw [← (Prod.mk.inj (Option.some.inj e1)).1]
    rfl
  subst hc1
  have hs2 := split_eq s1 4 3 5 (by decide) (by rw [hd1]; decide) (by decide)
  obtain ⟨s2, c2, e2, -, r2⟩ := split_spec s1 4 3 5
    (by decide) (by rw [hd1]; decide) (by decide)
  have hc2 : c2 = 12 := by
    rw [hs2] at e2
    rw [← (Prod.mk.inj (Option.some.inj e2)).2, hd1]
  have hd2 : s2.out_dims
      = [some "c7", some "c8", some "c9", some "c10", some "c5", some "c6", some "c6"] := by
    rw [hs2] at e2
    rw [← (Prod.mk.inj (Option.some.inj e2)).1, hd1]
    rfl
  subst hc2
  have hn2 : isl_map_dim_out s2 = 7 := by simp [isl_map_dim_out, hd2]
  obtain ⟨s3, c3, e3⟩ := interchange_some s2 2 4 12
    (by decide) (by rw [hn2]; decide) (by decide) (by rw [hn2]; decide)
    (by simp [isl_map_get_dim_name, hd2]) (by simp [isl_map_get_dim_name, hd2])
    (by rw [split_out_tuple_id s1 s2 _ _ _ _ e2]; simp)
  refine ⟨s3, c3, ?_, ⟨rfl, rfl⟩, ?_⟩
  · unfold tile
    rw [if_pos (by decide)]
    simp only [e1]
    have h22 : (2 : Int) + 2 = 4 := by decide
    have h02 : (0 : Int) + 2 = 2 := by decide
    rw [h22, e2]
    simp only [h02]
    exact e3
  · intro o ho
    obtain ⟨x, σ, hx, hxσ⟩ := interchange_rel_valuation s2 s3 2 4 12 c3 e3 _ o ho
    rw [hn2] at hxσ
    simp [List.range, List.range.loop, interchange_name_dim, isl_map_get_dim_name, hd2] at hxσ
    obtain ⟨y, hy, rfl⟩ := (r2 _ x).mp hx
    obtain ⟨z, hz, rfl⟩ := (r1 _ y).mp hy
    obtain ⟨-, rfl⟩ := hz
    have h5 := congrArg (fun l => l.getD 5 0) hxσ
    have h6 := congrArg (fun l => l.getD 6 0) hxσ
    simp only [List.getD_cons_succ, List.getD_cons_zero] at h5 h6
    rw [← h6] at h5
    exact absurd h5 (by decide)

/-! ## `align_schedules` -/

theorem isl_map_eq (a b : isl_map) (h1 : a.out_dims = b.out_dims)
    (ht : a.out_tuple_id = b.out_tuple_id) (h2 : a.rel = b.rel) : a = b := by
  cases a
  cases b
  simp only [isl_map.mk.injEq]
  exact ⟨h1, ht, h2⟩

theorem fold_out_eq_constraints_rel (l : List Nat) (base : isl_map) (i o : List Int) :
    (l.foldl (fun m j => isl_map_add_out_eq_constraint m j 0) base).rel i o ↔
      base.rel i o ∧ ∀ j ∈ l, o.getD j 0 = 0 := by
  induction l generalizing base with
  | nil => simp
  | cons a tl ih =>
    rw [List.foldl_cons, ih]
    simp only [isl_map_add_out_eq_constraint, List.mem_cons, forall_eq_or_imp]
    tauto

theorem fold_out_eq_constraints_dims (l : List Nat) (base : isl_map) :
    (l.foldl (fun m j => isl_map_add_out_eq_constraint m j 0) base).out_dims = base.out_dims := by
  induction l generalizing base with
  | nil => rfl
  | cons a tl ih => rw [List.foldl_cons, ih]; rfl

theorem fold_out_eq_constraints_tuple_id (l : List Nat) (base : isl_map) :
    (l.foldl (fun m j => isl_map_add_out_eq_constraint m j 0) base).out_tuple_id
      = base.out_tuple_id := by
  induction l generalizing base with
  | nil => rfl
  | cons a tl ih => rw [List.foldl_cons, ih]; rfl

/-- A list that starts with `x` and has only zeros after it. -/
theorem eq_append_zeros (x o : List Int) (k : Nat) (hx : o.take x.length = x)
    (hl : o.length = x.length + k)
    (hz : ∀ j ∈ List.range' x.length k, o.getD j 0 = 0) :
    o = x ++ List.replicate k 0 := by
  apply List.ext_getElem
  · simp [hl]
  · intro j h1 h2
    by_cases hj : j < x.length
    · rw [List.getElem_append_left hj]
      have : (o.take x.length)[j]? = x[j]? := by rw [hx]
      rw [List.getElem?_take_of_lt hj, List.getElem?_eq_getElem h1,
        List.getElem?_eq_getElem hj] at this
      exact Option.some.inj this
    · rw [List.getElem_append_right (by omega)]
      have hm : j ∈ List.range' x.length k := by
        rw [List.mem_range'_1]
        omega
      have := hz j hm
      rw [List.getD_eq_getElem _ _ h1] at this
      simp [this]

/-- The result of `isl_map_align_range_dims`: the rank becomes `max_dim`, the
old dimensions keep their names, and every old image is extended by zeros. -/
theorem isl_map_align_range_dims_spec (map : isl_map) (max_dim : Nat)
    (h : isl_map_dim_out map ≤ max_dim) :
    ∃ m', isl_map_align_range_dims map max_dim = some m' ∧
      m'.out_dims = map.out_dims ++ List.replicate (max_dim - isl_map_dim_out map) none ∧
      ∀ i o, m'.rel i o ↔
        ∃ x, map.rel i x ∧ o = x ++ List.replicate (max_dim - isl_map_dim_out map) 0 := by
  refine ⟨_, by unfold isl_map_align_range_dims; rw [if_pos h], ?_, ?_⟩
  · rw [fold_out_eq_constraints_dims]
    rfl
  · intro i o
    rw [fold_out_eq_constraints_rel]
    simp only [isl_map_add_dims]
    constructor
    · rintro ⟨⟨x, hx, ht, hl⟩, hz⟩
      have hxl : x.length = isl_map_dim_out map := map.wf i x hx
      refine ⟨x, hx, ?_⟩
      apply eq_append_zeros
      · rw [hxl]; exact ht
      · rw [hxl]; exact hl
      · rw [hxl]; exact hz
    · rintro ⟨x, hx, ho⟩
      have hxl : x.length = map.out_dims.length := map.wf i x hx
      refine ⟨⟨x, hx, ?_, ?_⟩, ?_⟩
      · rw [ho, ← hxl]; simp
      · rw [ho]; simp [hxl, isl_map_dim_out]
      · intro j hj
        rw [List.mem_range'_1] at hj
        rw [ho, List.getD_eq_getElem?_getD, List.getElem?_append_right (by rw [hxl]; exact hj.1)]
        simp only [List.getElem?_replicate]
        split <;> rfl

theorem foldl_max_ge (l : List computation) (a : Nat) :
    a ≤ l.foldl (fun max_dim comp => max max_dim (isl_map_dim_out comp.schedule)) a ∧
    ∀ c ∈ l, isl_map_dim_out c.schedule
      ≤ l.foldl (fun max_dim comp => max max_dim (isl_map_dim_out comp.schedule)) a := by
  induction l generalizing a with
  | nil => simp
  | cons b tl ih =>
    rw [List.foldl_cons]
    obtain ⟨h1, h2⟩ := ih (max a (isl_map_dim_out b.schedule))
    refine ⟨le_trans (le_max_left _ _) h1, ?_⟩
    intro c hc
    rcases List.mem_cons.mp hc with rfl | hc
    · exact le_trans (le_max_right _ _) h1
    · exact h2 c hc

theorem foldl_max_attained (l : List computation) (a : Nat) :
    l.foldl (fun max_dim comp => max max_dim (isl_map_dim_out comp.schedule)) a = a ∨
    ∃ c ∈ l, isl_map_dim_out c.schedule
      = l.foldl (fun max_dim comp => max max_dim (isl_map_dim_out comp.schedule)) a := by
  induction l generalizing a with
  | nil => left; rfl
  | cons b tl ih =>
    rw [List.foldl_cons]
    rcases ih (max a (isl_map_dim_out b.schedule)) with h | ⟨c, hc, h⟩
    · rw [h]
      rcases le_total a (isl_map_dim_out b.schedule) with hab | hab
      · right
        exact ⟨b, List.mem_cons_self _ _, by rw [max_eq_right hab]⟩
      · left
        rw [max_eq_left hab]
    · right
      exact ⟨c, List.mem_cons_of_mem _ hc, h⟩

/-- The value of `get_max_schedules_range_dim` is the largest output rank of
the schedules of the function (`0` for an empty body). -/
theorem get_max_schedules_range_dim_spec (f : function) :
    (∀ c ∈ f.body, isl_map_dim_out c.schedule ≤ get_max_schedules_range_dim f) ∧
    (f.body ≠ [] → ∃ c ∈ f.body, isl_map_dim_out c.schedule = get_max_schedules_range_dim f) := by
  refine ⟨(foldl_max_ge f.body 0).2, ?_⟩
  intro hne
  rcases foldl_max_attained f.body 0 with h | h
  · obtain ⟨c, tl, hb⟩ := List.exists_cons_of_ne_nil hne
    refine ⟨c, by rw [hb]; exact List.mem_cons_self _ _, ?_⟩
    have := (foldl_max_ge f.body 0).2 c (by rw [hb]; exact List.mem_cons_self _ _)
    unfold get_max_schedules_range_dim
    omega
  · exact h

/-- The loop of `align_schedules` succeeds when no rank exceeds `max_dim`, and
aligns the computations one by one. -/
theorem align_schedules_loop_spec (max_dim : Nat) (l : List computation)
    (h : ∀ c ∈ l, isl_map_dim_out c.schedule ≤ max_dim) :
    ∃ l', align_schedules_loop max_dim l = some l' ∧ l'.length = l.length ∧
      ∀ k (hk : k < l.length) (hk' : k < l'.length),
        isl_map_align_range_dims l[k].schedule max_dim = some l'[k].schedule ∧
        l'[k].addr = l[k].addr ∧ l'[k].name = l[k].name ∧
        l'[k].relative_order = l[k].relative_order := by
  induction l with
  | nil => exact ⟨[], rfl, rfl, fun k hk => by simp at hk⟩
  | cons c tl ih =>
    obtain ⟨tl', e, hl, hk⟩ := ih (fun c hc => h c (List.mem_cons_of_mem _ hc))
    obtain ⟨m', em, -, -⟩ := isl_map_align_range_dims_spec c.schedule max_dim
      (h c (List.mem_cons_self _ _))
    refine ⟨{ c with schedule := m' } :: tl', ?_, by simp [hl], ?_⟩
    · simp only [align_schedules_loop, em, e]
    · intro k hk1 hk2
      cases k with
      | zero => exact ⟨em, rfl, rfl, rfl⟩
      | succ k =>
        simp only [List.getElem_cons_succ]
        exact hk k (by simpa using hk1) (by simpa using hk2)

/-- The method `align_schedules` succeeds on every function.  It keeps the
computations in place with their address, name and `relative_order`; every
schedule gets rank `D`, the value of `get_max_schedules_range_dim`, the old
dimensions keep their names and every old image is extended by zeros. -/
theorem align_schedules_spec (f : function) :
    ∃ f', align_schedules f = some f' ∧ f'.body.length = f.body.length ∧
      ∀ k (hk : k < f.body.length) (hk' : k < f'.body.length),
        f'.body[k].addr = f.body[k].addr ∧ f'.body[k].name = f.body[k].name ∧
        f'.body[k].relative_order = f.body[k].relative_order ∧
        isl_map_dim_out f'.body[k].schedule = get_max_schedules_range_dim f ∧
        f'.body[k].schedule.out_dims = f.body[k].schedule.out_dims ++ List.replicate
          (get_max_schedules_range_dim f - isl_map_dim_out f.body[k].schedule) none ∧
        ∀ i o, f'.body[k].schedule.rel i o ↔
          ∃ x, f.body[k].schedule.rel i x ∧
            o = x ++ List.replicate
              (get_max_schedules_range_dim f - isl_map_dim_out f.body[k].schedule) 0 := by
  obtain ⟨hmax, -⟩ := get_max_schedules_range_dim_spec f
  obtain ⟨l', e, hl, hk⟩ := align_schedules_loop_spec (get_max_schedules_range_dim f) f.body hmax
  refine ⟨{ f with body := l' }, by simp only [align_schedules, e], hl, ?_⟩
  intro k hk1 hk2
  obtain ⟨ha, h1, h2, h3⟩ := hk k hk1 hk2
  have hle := hmax f.body[k] (List.getElem_mem hk1)
  obtain ⟨m', em, hd, hr⟩ := isl_map_align_range_dims_spec f.body[k].schedule
    (get_max_schedules_range_dim f) hle
  rw [ha] at em
  have hm : m' = l'[k].schedule := (Option.some.inj em).symm
  subst hm
  refine ⟨h1, h2, h3, ?_, hd, hr⟩
  unfold isl_map_dim_out at hle ⊢
  rw [hd, List.length_append, List.length_replicate]
  unfold isl_map_dim_out
  omega

/-- Claim C5: `align_schedules` succeeds on every function; afterwards every
schedule has output rank `D`, the largest output rank before the call, and the
schedule of every computation relates an iteration point to exactly its old
images followed by `D - m` zeros (`m` the old rank): the first `m` coordinates
are kept and every appended coordinate is `0`. -/
theorem align_schedules_pads_with_zeros (f : function) :
    ∃ f', align_schedules f = some f' ∧ f'.body.length = f.body.length ∧
      (∀ c ∈ f.body, isl_map_dim_out c.schedule ≤ get_max_schedules_range_dim f) ∧
      (f.body ≠ [] →
        ∃ c ∈ f.body, isl_map_dim_out c.schedule = get_max_schedules_range_dim f) ∧
      ∀ k (hk : k < f.body.length) (hk' : k < f'.body.length),
        isl_map_dim_out f'.body[k].schedule = get_max_schedules_range_dim f ∧
        ∀ i o, f'.body[k].schedule.rel i o ↔
          ∃ x, f.body[k].schedule.rel i x ∧
            o = x ++ List.replicate
              (get_max_schedules_range_dim f - isl_map_dim_out f.body[k].schedule) 0 := by
  obtain ⟨hmax, hatt⟩ := get_max_schedules_range_dim_spec f
  obtain ⟨f', e, hl, hk⟩ := align_schedules_spec f
  refine ⟨f', e, hl, hmax, hatt, ?_⟩
  intro k hk1 hk2
  obtain ⟨-, -, -, hrank, -, hrel⟩ := hk k hk1 hk2
  exact ⟨hrank, hrel⟩

/-- The schedule that `isl_map_align_range_dims` returns has no identifier on
its output tuple: `isl_map_add_dims` resets it. -/
theorem isl_map_align_range_dims_tuple_id (map m1 : isl_map) (max_dim : Nat)
    (h : isl_map_align_range_dims map max_dim = some m1) : m1.out_tuple_id = none := by
  unfold isl_map_align_range_dims at h
  dsimp only at h
  split at h
  · rw [← Option.some.inj h, fold_out_eq_constraints_tuple_id]
    rfl
  · exact absurd h (by simp)

/-- A schedule that already has rank `max_dim` keeps its dimensions and its
relation and loses the identifier of its output tuple. -/
theorem isl_map_align_range_dims_same (map : isl_map) (max_dim : Nat)
    (h : isl_map_dim_out map = max_dim) :
    isl_map_align_range_dims map max_dim = some (without_tuple_id map) := by
  obtain ⟨m', em, hd, hr⟩ := isl_map_align_range_dims_spec map max_dim (le_of_eq h)
  have ht := isl_map_align_range_dims_tuple_id map m' max_dim em
  rw [em]
  congr 1
  apply isl_map_eq
  · rw [hd, h]
    simp [without_tuple_id]
  · rw [ht]
    rfl
  · funext i o
    apply propext
    rw [hr, h]
    simp [without_tuple_id]

theorem without_tuple_id_of_none (map : isl_map) (h : map.out_tuple_id = none) :
    without_tuple_id map = map :=
  isl_map_eq _ _ rfl h.symm rfl

theorem align_schedules_loop_same (max_dim : Nat) (l : List computation)
    (h : ∀ c ∈ l, isl_map_dim_out c.schedule = max_dim) :
    align_schedules_loop max_dim l
      = some (l.map (fun c => { c with schedule := without_tuple_id c.schedule })) := by
  induction l with
  | nil => rfl
  | cons c tl ih =>
    simp only [align_schedules_loop,
      isl_map_align_range_dims_same c.schedule max_dim (h c (List.mem_cons_self _ _)),
      ih (fun c hc => h c (List.mem_cons_of_mem _ hc)), List.map_cons]

/-- On a function whose schedules share one output rank, `align_schedules`
leaves everything as it is except the identifier of the output tuple of every
schedule, which it removes. -/
theorem align_schedules_same (f : function)
    (h : ∀ c ∈ f.body, ∀ c' ∈ f.body,
      isl_map_dim_out c.schedule = isl_map_dim_out c'.schedule) :
    align_schedules f = some (drop_tuple_ids f) := by
  obtain ⟨-, hatt⟩ := get_max_schedules_range_dim_spec f
  have hall : ∀ c ∈ f.body, isl_map_dim_out c.schedule = get_max_schedules_range_dim f := by
    intro c hc
    obtain ⟨c', hc', e⟩ := hatt (List.ne_nil_of_mem hc)
    rw [← e]
    exact h c hc c' hc'
  simp only [align_schedules,
    align_schedules_loop_same (get_max_schedules_range_dim f) f.body hall, drop_tuple_ids]

theorem drop_tuple_ids_of_none (f : function)
    (h : ∀ c ∈ f.body, c.schedule.out_tuple_id = none) : drop_tuple_ids f = f := by
  unfold drop_tuple_ids
  have hb : f.body.map (fun c => { c with schedule := without_tuple_id c.schedule })
      = f.body := by
    conv_rhs => rw [← List.map_id f.body]
    apply List.map_congr_left
    intro c hc
    rw [without_tuple_id_of_none c.schedule (h c hc)]
    rfl
  rw [hb]

/-- A function whose schedules share one output rank and have no identifier
on the output tuple is left as it is. -/
theorem align_schedules_same_of_none (f : function)
    (h : ∀ c ∈ f.body, ∀ c' ∈ f.body,
      isl_map_dim_out c.schedule = isl_map_dim_out c'.schedule)
    (hid : ∀ c ∈ f.body, c.schedule.out_tuple_id = none) :
    align_schedules f = some f := by
  rw [align_schedules_same f h, drop_tuple_ids_of_none f hid]

/-- After `align_schedules` all schedules have the same rank. -/
theorem align_schedules_rank (f f' : function) (h : align_schedules f = some f') :
    ∀ c ∈ f'.body, isl_map_dim_out c.schedule = get_max_schedules_range_dim f := by
  obtain ⟨f1, e, hl, hk⟩ := align_schedules_spec f
  rw [h] at e
  have := Option.some.inj e
  subst this
  intro c hc
  obtain ⟨k, hk1, rfl⟩ := List.getElem_of_mem hc
  exact (hk k (by omega) hk1).2.2.2.1

theorem align_schedules_loop_tuple_id (max_dim : Nat) :
    ∀ (l l1 : List computation), align_schedules_loop max_dim l = some l1 →
      ∀ c ∈ l1, c.schedule.out_tuple_id = none := by
  intro l
  induction l with
  | nil =>
    intro l1 h c hc
    have e : l1 = [] := (Option.some.inj h).symm
    subst e
    simp at hc
  | cons a tl ih =>
    intro l1 h c hc
    unfold align_schedules_loop at h
    split at h
    · exact absurd h (by simp)
    · rename_i sched e1
      split at h
      · exact absurd h (by simp)
      · rename_i rest1 e2
        have e := Option.some.inj h
        subst e
        rcases List.mem_cons.mp hc with rfl | hm
        · exact isl_map_align_range_dims_tuple_id a.schedule sched max_dim e1
        · exact ih rest1 e2 c hm

/-- After `align_schedules` no schedule has an identifier on its output
tuple. -/
theorem align_schedules_tuple_id (f f1 : function) (h : align_schedules f = some f1) :
    ∀ c ∈ f1.body, c.schedule.out_tuple_id = none := by
  unfold align_schedules at h
  split at h
  · exact absurd h (by simp)
  · rename_i body e
    have e1 := Option.some.inj h
    subst e1
    exact align_schedules_loop_tuple_id _ f.body body e

/-- Claim C6, a counterexample: the schedule that `split(0, 2)` leaves on the
identity schedule of rank two has the identifier `" "` on its output tuple.
A function whose only computation has this schedule has one output rank, yet
`align_schedules` does not leave the schedule equal to what it was:
`isl_map_add_dims`, called with `0` dimensions, removes the identifier.  The
difference shows in the next call: `interchange(0, 2)` returns a schedule
before `align_schedules` and stores none after it. -/
theorem align_schedules_drops_tuple_id :
    ∃ s1 c1, split (identity_schedule ["i", "j"]) 0 2 0 = some (s1, c1) ∧
      ∃ f1, align_schedules (single_computation s1) = some f1 ∧
        f1 ≠ single_computation s1 ∧
        f1.body.map (fun c => c.schedule) = [without_tuple_id s1] ∧
        s1.out_tuple_id = some " " ∧ (without_tuple_id s1).out_tuple_id = none ∧
        (∃ r, interchange s1 0 2 c1 = some r) ∧
        interchange (without_tuple_id s1) 0 2 c1 = none := by
  have hs1 := split_eq (identity_schedule ["i", "j"]) 0 2 0
    (by decide) (by decide) (by decide)
  obtain ⟨s1, c1, e1, -, -⟩ := split_spec (identity_schedule ["i", "j"]) 0 2 0
    (by decide) (by decide) (by decide)
  have hd1 : s1.out_dims = [some "c0", some "c1", some "c3", none] := by
    rw [hs1] at e1
    rw [← (Prod.mk.inj (Option.some.inj e1)).1]
    rfl
  have ht1 := split_out_tuple_id _ s1 _ _ _ _ e1
  have hn1 : isl_map_dim_out s1 = 4 := by simp [isl_map_dim_out, hd1]
  have ha := align_schedules_same (single_computation s1) (by
    intro c hc c' hc'
    rw [List.mem_singleton.mp hc, List.mem_singleton.mp hc'])
  obtain ⟨s2, c2, e2⟩ := interchange_some s1 0 2 c1
    (by decide) (by rw [hn1]; decide) (by decide) (by rw [hn1]; decide)
    (by simp [isl_map_get_dim_name, hd1]) (by simp [isl_map_get_dim_name, hd1])
    (by rw [ht1]; simp)
  refine ⟨s1, c1, e1, _, ha, ?_, rfl, ht1, rfl, ⟨_, e2⟩,
    interchange_without_tuple_id _ _ _ _ rfl⟩
  intro heq
  have hb := congrArg (fun f => f.body.map (fun c => c.schedule.out_tuple_id)) heq
  have hb2 : [(none : Option String)] = [s1.out_tuple_id] := hb
  rw [ht1] at hb2
  exact absurd hb2 (by decide)

/-- Claim C6 as amended: on a function whose schedules already share one
output rank, `align_schedules` returns the function with every schedule as it
was in its dimensions (rank and names) and in its relation, and without
identifier on its output tuple; a schedule that had no such identifier is
equal to what it was, and when no schedule has one the function is returned
as it is.  On every function a second call returns what the first call
returned. -/
theorem align_schedules_idempotent (f : function) :
    ((∀ c ∈ f.body, ∀ c' ∈ f.body,
        isl_map_dim_out c.schedule = isl_map_dim_out c'.schedule) →
      align_schedules f = some (drop_tuple_ids f) ∧
      (∀ c ∈ f.body,
        (without_tuple_id c.schedule).out_dims = c.schedule.out_dims ∧
        (without_tuple_id c.schedule).rel = c.schedule.rel ∧
        (without_tuple_id c.schedule).out_tuple_id = none ∧
        (c.schedule.out_tuple_id = none → without_tuple_id c.schedule = c.schedule)) ∧
      ((∀ c ∈ f.body, c.schedule.out_tuple_id = none) → align_schedules f = some f)) ∧
    ∃ f1, align_schedules f = some f1 ∧ align_schedules f1 = some f1 := by
  refine ⟨fun h => ⟨align_schedules_same f h,
    fun c _ => ⟨rfl, rfl, rfl, without_tuple_id_of_none c.schedule⟩,
    align_schedules_same_of_none f h⟩, ?_⟩
  obtain ⟨f1, e, -⟩ := align_schedules_spec f
  refine ⟨f1, e, align_schedules_same_of_none f1 ?_ (align_schedules_tuple_id f f1 e)⟩
  intro c hc c' hc'
  rw [align_schedules_rank f f1 e c hc, align_schedules_rank f f1 e c' hc']

/-- Witness for the amended claim C6: the two computations of the sample
function share the rank two and their schedules have the identifier `S` on
the output tuple; the first call removes it and the second call changes
nothing. -/
theorem align_schedules_idempotent_witness :
    (∀ c ∈ two_computations.body, ∀ c' ∈ two_computations.body,
        isl_map_dim_out c.schedule = isl_map_dim_out c'.schedule) ∧
      align_schedules two_computations = some (drop_tuple_ids two_computations) ∧
      align_schedules (drop_tuple_ids two_computations)
        = some (drop_tuple_ids two_computations) := by
  have h : ∀ c ∈ two_computations.body, ∀ c' ∈ two_computations.body,
      isl_map_dim_out c.schedule = isl_map_dim_out c'.schedule := by
    intro c hc c' hc'
    simp only [two_computations, List.mem_cons, List.mem_singleton, List.not_mem_nil,
      or_false] at hc hc'
    rcases hc with rfl | rfl <;> rcases hc' with rfl | rfl <;> rfl
  have h1 := ((align_schedules_idempotent two_computations).1 h).1
  obtain ⟨f1, e1, e2⟩ := (align_schedules_idempotent two_computations).2
  rw [h1] at e1
  rw [← Option.some.inj e1] at e2
  exact ⟨h, h1, e2⟩

/-! ## `isl_map_set_const_dim` -/

theorem fold_set_const_constraints_rel (l : List Nat) (base : isl_map) (pos val : Int)
    (i o : List Int) :
    (l.foldl (fun (identity : isl_map) (j : Nat) =>
        if (j : Int) = pos then isl_map_add_out_eq_constraint identity j val
        else isl_map_add_in_eq_out_constraint identity j) base).rel i o ↔
      base.rel i o ∧ ∀ j ∈ l,
        if (j : Int) = pos then o.getD j 0 = val else i.getD j 0 = o.getD j 0 := by
  induction l generalizing base with
  | nil => simp
  | cons a tl ih =>
    rw [List.foldl_cons, ih]
    simp only [List.mem_cons, forall_eq_or_imp]
    by_cases h : (a : Int) = pos
    · simp only [h, if_true, isl_map_add_out_eq_constraint]
      tauto
    · simp only [h, if_false, isl_map_add_in_eq_out_constraint]
      tauto

theorem fold_set_const_constraints_dims (l : List Nat) (base : isl_map) (pos val : Int) :
    (l.foldl (fun (identity : isl_map) (j : Nat) =>
        if (j : Int) = pos then isl_map_add_out_eq_constraint identity j val
        else isl_map_add_in_eq_out_constraint identity j) base).out_dims = base.out_dims := by
  induction l generalizing base with
  | nil => rfl
  | cons a tl ih =>
    rw [List.foldl_cons, ih]
    split <;> rfl

theorem fold_set_const_constraints_tuple_id (l : List Nat) (base : isl_map) (pos val : Int) :
    (l.foldl (fun (identity : isl_map) (j : Nat) =>
        if (j : Int) = pos then isl_map_add_out_eq_constraint identity j val
        else isl_map_add_in_eq_out_constraint identity j) base).out_tuple_id
      = base.out_tuple_id := by
  induction l generalizing base with
  | nil => rfl
  | cons a tl ih =>
    rw [List.foldl_cons, ih]
    split <;> rfl

/-- The map `identity` of `isl_map_set_const_dim` relates a tuple of the range
space to the tuple with the coordinate at `dim_pos` replaced by `val`. -/
theorem set_const_dim_identity_rel (map : isl_map) (pos val : Int) (hpos : 0 ≤ pos)
    (x o : List Int) :
    (set_const_dim_identity map pos val).rel x o ↔
      x.length = isl_map_dim_out map ∧ o = with_const pos val x := by
  unfold set_const_dim_identity
  rw [fold_set_const_constraints_rel]
  simp only [isl_map_universe_of_range, isl_map_dim_out, with_const]
  constructor
  · rintro ⟨⟨hx, ho⟩, hc⟩
    refine ⟨hx, ?_⟩
    apply List.ext_getElem
    · simp [hx, ho]
    · intro j h1 h2
      have hj : j < map.out_dims.length := by omega
      have := hc j (List.mem_range.mpr hj)
      rw [List.getD_eq_getElem _ _ h1] at this
      by_cases e : (j : Int) = pos
      · have ej : pos.toNat = j := by omega
        rw [if_pos e] at this
        simp [ej, this]
      · have ej : pos.toNat ≠ j := by omega
        rw [if_neg e, List.getD_eq_getElem _ _ (by omega)] at this
        rw [List.getElem_set_ne ej]
        exact this.symm
  · rintro ⟨hx, ho⟩
    refine ⟨⟨hx, by rw [ho]; simpa using hx⟩, ?_⟩
    intro j hj
    have hj2 : j < x.length := by rw [hx]; exact List.mem_range.mp hj
    have hj3 : j < (x.set pos.toNat val).length := by simpa using hj2
    rw [ho, List.getD_eq_getElem _ _ hj3, List.getD_eq_getElem _ _ hj2]
    by_cases e : (j : Int) = pos
    · have ej : pos.toNat = j := by omega
      rw [if_pos e]
      simp [ej]
    · have ej : pos.toNat ≠ j := by omega
      rw [if_neg e, List.getElem_set_ne ej]

/-- The result of `isl_map_set_const_dim` when its assertions hold: the names
and the rank are kept and every old image gets the constant at `dim_pos`. -/
theorem isl_map_set_const_dim_spec (map : isl_map) (pos val : Int)
    (hpos : 0 ≤ pos) (hle : pos ≤ isl_map_dim_out map) :
    ∃ m', isl_map_set_const_dim map pos val = some m' ∧ m'.out_dims = map.out_dims ∧
      ∀ i o, m'.rel i o ↔ ∃ x, map.rel i x ∧ o = with_const pos val x := by
  refine ⟨_, by unfold isl_map_set_const_dim; rw [if_pos ⟨hpos, hle⟩], ?_, ?_⟩
  · simp only [isl_map_apply_range, set_const_dim_identity]
    rw [fold_set_const_constraints_dims]
    rfl
  · intro i o
    simp only [isl_map_apply_range, set_const_dim_identity_rel map pos val hpos]
    constructor
    · rintro ⟨x, hx, -, ho⟩
      exact ⟨x, hx, ho⟩
    · rintro ⟨x, hx, ho⟩
      exact ⟨x, hx, map.wf i x hx, ho⟩

theorem with_const_getD (pos val : Int) (x : List Int)
    (h : pos.toNat < x.length) : (with_const pos val x).getD pos.toNat 0 = val := by
  unfold with_const
  rw [List.getD_eq_getElem _ _ (by simpa using h)]
  simp

/-- Writing a constant at an existing position makes it a static
coordinate. -/
theorem static_coordinate_of_set_const (map m' : isl_map) (pos val : Int) (hpos : 0 ≤ pos)
    (hlt : pos < isl_map_dim_out map) (hd : m'.out_dims = map.out_dims)
    (hr : ∀ i o, m'.rel i o ↔ ∃ x, map.rel i x ∧ o = with_const pos val x) :
    static_coordinate m' pos.toNat val := by
  refine ⟨by unfold isl_map_dim_out at hlt ⊢; rw [hd]; omega, ?_⟩
  intro i o hio
  obtain ⟨x, hx, rfl⟩ := (hr i o).mp hio
  apply with_const_getD
  rw [map.wf i x hx]
  unfold isl_map_dim_out at hlt
  omega

/-! ## `first` -/

/-- The loop of `first` succeeds when `dim` passes the assertions for every
computation; it adds `1` to the `relative_order` of the computations other
than the receiver and writes `0` (receiver) or `1` (others) at position
`dim + 1`. -/
theorem first_loop_spec (this : Nat) (dim : Int) (l : List computation)
    (hroot : root_dimension ≤ dim) (h : ∀ c ∈ l, dim < isl_map_dim_out c.schedule) :
    ∃ l', first_loop this dim l = some l' ∧ l'.length = l.length ∧
      ∀ k (hk : k < l.length) (hk' : k < l'.length),
        l'[k].addr = l[k].addr ∧ l'[k].name = l[k].name ∧
        l'[k].relative_order
          = (if l[k].addr ≠ this then l[k].relative_order + 1 else l[k].relative_order) ∧
        l'[k].schedule.out_dims = l[k].schedule.out_dims ∧
        ∀ i o, l'[k].schedule.rel i o ↔
          ∃ x, l[k].schedule.rel i x ∧
            o = with_const (dim + 1) (if l[k].addr = this then 0 else 1) x := by
  induction l with
  | nil => exact ⟨[], rfl, rfl, fun k hk => by simp at hk⟩
  | cons c tl ih =>
    obtain ⟨tl', e, hl, hk⟩ := ih (fun c hc => h c (List.mem_cons_of_mem _ hc))
    have hc := h c (List.mem_cons_self _ _)
    have hr : (-1 : Int) ≤ dim := hroot
    obtain ⟨m', em, hd, hrel⟩ := isl_map_set_const_dim_spec c.schedule (dim + 1)
      (if c.addr = this then 0 else 1) (by omega) (by omega)
    refine ⟨{ c with
              relative_order := if c.addr ≠ this then c.relative_order + 1 else c.relative_order
              schedule := m' } :: tl', ?_, by simp [hl], ?_⟩
    · simp only [first_loop]
      rw [if_pos ⟨hc, hroot⟩]
      simp only [em, e]
    · intro k hk1 hk2
      cases k with
      | zero => exact ⟨rfl, rfl, rfl, hd, hrel⟩
      | succ k =>
        simp only [List.getElem_cons_succ]
        exact hk k (by simpa using hk1) (by simpa using hk2)

/-- The method `first` succeeds when position `dim + 1` exists in the aligned
schedules; the computations stay in place, the receiver keeps its
`relative_order` and gets the constant `0` at position `dim + 1`, every other
computation has its `relative_order` increased by `1` and gets the
constant `1`. -/
theorem first_spec (f : function) (this : Nat) (dim : Int)
    (hd0 : 0 ≤ dim + 1) (hd : dim + 1 < get_max_schedules_range_dim f) :
    ∃ f', first f this dim = some f' ∧ f'.body.length = f.body.length ∧
      ∀ k (hk : k < f.body.length) (hk' : k < f'.body.length),
        f'.body[k].addr = f.body[k].addr ∧
        f'.body[k].relative_order
          = (if f.body[k].addr ≠ this then f.body[k].relative_order + 1
             else f.body[k].relative_order) ∧
        static_coordinate f'.body[k].schedule (dim + 1).toNat
          (if f.body[k].addr = this then 0 else 1) := by
  obtain ⟨f1, e1, hl1, hk1⟩ := align_schedules_spec f
  have hrank : ∀ c ∈ f1.body, dim < isl_map_dim_out c.schedule := by
    intro c hc
    rw [align_schedules_rank f f1 e1 c hc]
    omega
  obtain ⟨l', e2, hl2, hk2⟩ := first_loop_spec this dim f1.body
    (by unfold root_dimension; omega) hrank
  refine ⟨{ f1 with body := l' }, by simp only [first, e1, e2], by rw [← hl1]; exact hl2, ?_⟩
  intro k hk hk'
  have hkf1 : k < f1.body.length := by omega
  obtain ⟨a1, -, r1, hD, -, -⟩ := hk1 k hk hkf1
  obtain ⟨a2, -, r2, d2, rel2⟩ := hk2 k hkf1 hk'
  refine ⟨a2.trans a1, ?_, ?_⟩
  · show l'[k].relative_order = _
    rw [r2, a1, r1]
  · have hs := static_coordinate_of_set_const f1.body[k].schedule l'[k].schedule (dim + 1)
      (if f1.body[k].addr = this then 0 else 1) hd0 (by rw [hD]; exact hd) d2 rel2
    rw [a1] at hs
    exact hs

/-- Claim C10: when position `d + 1` is a legal output position of the aligned
schedules, `c.first(d)` succeeds; the static coordinate at position `d + 1` of
the schedule of `c` is `0` and the one of every other computation is `1`, so
every coordinate of `c` there is strictly less than every coordinate of any
other computation; the `relative_order` of `c` is unchanged and the one of
every other computation is increased by `1`. -/
theorem first_puts_receiver_first (f : function) (this : Nat) (dim : Int)
    (hd0 : 0 ≤ dim + 1) (hd : dim + 1 < get_max_schedules_range_dim f) :
    ∃ f', first f this dim = some f' ∧ f'.body.length = f.body.length ∧
      ∀ k (hk : k < f.body.length) (hk' : k < f'.body.length),
        f'.body[k].addr = f.body[k].addr ∧
        (f.body[k].addr = this →
          static_coordinate f'.body[k].schedule (dim + 1).toNat 0 ∧
          f'.body[k].relative_order = f.body[k].relative_order ∧
          ∀ j (hj : j < f.body.length) (hj' : j < f'.body.length), f.body[j].addr ≠ this →
            static_coordinate_lt (dim + 1).toNat f'.body[k].schedule f'.body[j].schedule) ∧
        (f.body[k].addr ≠ this →
          static_coordinate f'.body[k].schedule (dim + 1).toNat 1 ∧
          f'.body[k].relative_order = f.body[k].relative_order + 1) := by
  obtain ⟨f', e, hl, hk⟩ := first_spec f this dim hd0 hd
  refine ⟨f', e, hl, ?_⟩
  intro k hk1 hk2
  obtain ⟨a, r, s⟩ := hk k hk1 hk2
  refine ⟨a, ?_, ?_⟩
  · intro hthis
    rw [if_pos hthis] at s
    rw [if_neg (not_not.mpr hthis)] at r
    refine ⟨s, r, ?_⟩
    intro j hj1 hj2 hother
    obtain ⟨-, -, sj⟩ := hk j hj1 hj2
    rw [if_neg hother] at sj
    intro i1 o1 i2 o2 h1 h2
    rw [s.2 i1 o1 h1, sj.2 i2 o2 h2]
    decide
  · intro hother
    rw [if_neg hother] at s
    rw [if_pos hother] at r
    exact ⟨s, r⟩

/-- Witness for `first`: `S1.first(-1)` on the sample function; position `0`
is a legal output position. -/
theorem first_puts_receiver_first_witness :
    (0 : Int) ≤ -1 + 1 ∧ (-1 + 1 : Int) < get_max_schedules_range_dim two_computations ∧
    ∃ f', first two_computations 1 (-1) = some f' ∧
      f'.body.length = two_computations.body.length ∧
      ∀ k (hk : k < two_computations.body.length) (hk' : k < f'.body.length),
        f'.body[k].addr = two_computations.body[k].addr ∧
        (two_computations.body[k].addr = 1 →
          static_coordinate f'.body[k].schedule (-1 + 1 : Int).toNat 0 ∧
          f'.body[k].relative_order = two_computations.body[k].relative_order ∧
          ∀ j (hj : j < two_computations.body.length) (hj' : j < f'.body.length),
            two_computations.body[j].addr ≠ 1 →
            static_coordinate_lt (-1 + 1 : Int).toNat f'.body[k].schedule
              f'.body[j].schedule) ∧
        (two_computations.body[k].addr ≠ 1 →
          static_coordinate f'.body[k].schedule (-1 + 1 : Int).toNat 1 ∧
          f'.body[k].relative_order = two_computations.body[k].relative_order + 1) :=
  ⟨by decide, by decide,
    first_puts_receiver_first two_computations 1 (-1) (by decide) (by decide)⟩

/-! ## `after` -/

theorem isl_map_set_const_dim_eq (map : isl_map) (pos val : Int)
    (hpos : 0 ≤ pos) (hle : pos ≤ isl_map_dim_out map) :
    isl_map_set_const_dim map pos val = some (set_const map pos val) := by
  unfold isl_map_set_const_dim set_const
  rw [if_pos ⟨hpos, hle⟩]

theorem set_const_out_dims (map : isl_map) (pos val : Int) :
    (set_const map pos val).out_dims = map.out_dims := by
  simp only [set_const, isl_map_apply_range, set_const_dim_identity]
  rw [fold_set_const_constraints_dims]
  rfl

theorem set_const_out_tuple_id (map : isl_map) (pos val : Int) :
    (set_const map pos val).out_tuple_id = map.out_tuple_id := by
  simp only [set_const, isl_map_apply_range, set_const_dim_identity]
  rw [fold_set_const_constraints_tuple_id]
  rfl

theorem set_const_rel (map : isl_map) (pos val : Int) (hpos : 0 ≤ pos) (i o : List Int) :
    (set_const map pos val).rel i o ↔ ∃ x, map.rel i x ∧ o = with_const pos val x := by
  simp only [set_const, isl_map_apply_range, set_const_dim_identity_rel map pos val hpos]
  constructor
  · rintro ⟨x, hx, -, ho⟩
    exact ⟨x, hx, ho⟩
  · rintro ⟨x, hx, ho⟩
    exact ⟨x, hx, map.wf i x hx, ho⟩

/-- Writing the same constant a second time changes nothing. -/
theorem set_const_idempotent (map : isl_map) (pos val : Int) (hpos : 0 ≤ pos) :
    set_const (set_const map pos val) pos val = set_const map pos val := by
  apply isl_map_eq
  · rw [set_const_out_dims]
  · rw [set_const_out_tuple_id]
  · funext i o
    apply propext
    rw [set_const_rel _ _ _ hpos]
    constructor
    · rintro ⟨x, hx, rfl⟩
      obtain ⟨y, hy, rfl⟩ := (set_const_rel _ _ _ hpos i x).mp hx
      refine (set_const_rel _ _ _ hpos i _).mpr ⟨y, hy, ?_⟩
      simp [with_const]
    · intro h
      refine ⟨o, h, ?_⟩
      obtain ⟨y, hy, rfl⟩ := (set_const_rel _ _ _ hpos i o).mp h
      simp [with_const]

/-- The first loop of `after` succeeds when `dim` passes the assertions for
every computation, and gives every computation its new `relative_order`. -/
theorem after_update_orders_eq (comp : Nat) (dim : Int) (l : List computation)
    (hroot : root_dimension ≤ dim) (h : ∀ c ∈ l, dim < isl_map_dim_out c.schedule) :
    after_update_orders comp dim l
      = some (l.map (fun c => { c with relative_order := after_order comp c })) := by
  induction l with
  | nil => rfl
  | cons c tl ih =>
    simp only [after_update_orders]
    rw [if_pos ⟨h c (List.mem_cons_self _ _), hroot⟩,
      ih (fun c hc => h c (List.mem_cons_of_mem _ hc))]
    simp only [List.map_cons, after_order]

/-- Looking a computation up by its address finds it, when the addresses of
the body are distinct. -/
theorem find_by_addr (body : List computation) (hnd : (body.map (fun c => c.addr)).Nodup)
    (c0 : computation) (hc0 : c0 ∈ body) :
    body.find? (fun c => c.addr = c0.addr) = some c0 := by
  induction body with
  | nil => simp at hc0
  | cons b tl ih =>
    simp only [List.map_cons, List.nodup_cons] at hnd
    rcases List.mem_cons.mp hc0 with rfl | hmem
    · simp
    · have hne : b.addr ≠ c0.addr := by
        intro hb
        exact hnd.1 (hb ▸ List.mem_map_of_mem (fun c => c.addr) hmem)
      rw [List.find?_cons_of_neg _ (by simpa using hne)]
      exact ih hnd.2 hmem

theorem eq_of_addr_eq (body : List computation) (hnd : (body.map (fun c => c.addr)).Nodup)
    (c c0 : computation) (hc : c ∈ body) (hc0 : c0 ∈ body) (h : c.addr = c0.addr) : c = c0 := by
  have h1 := find_by_addr body hnd c hc
  have h2 := find_by_addr body hnd c0 hc0
  rw [h] at h1
  rw [h1] at h2
  exact Option.some.inj h2

/-- The second loop of `after`: when the pointers of the sorted vector are
distinct and point into the body, every computation the vector names gets, at
position `dim + 1`, the value of `order` at its turn. -/
theorem after_set_orders_eq (dim : Int) (hdim : 0 ≤ dim + 1) :
    ∀ (ps : List (Int × Nat)) (order : Nat) (body : List computation),
      (ps.map Prod.snd).Nodup →
      (∀ p ∈ ps, p.2 ∈ body.map (fun c => c.addr)) →
      (body.map (fun c => c.addr)).Nodup →
      (∀ c ∈ body, dim + 1 ≤ isl_map_dim_out c.schedule) →
      after_set_orders dim ps order body
        = some (body.map (fun c =>
            if c.addr ∈ ps.map Prod.snd then
              { c with
                schedule := set_const c.schedule (dim + 1)
                  ((order + (ps.map Prod.snd).indexOf c.addr : Nat) : Int) }
            else c)) := by
  intro ps
  induction ps with
  | nil =>
    intro order body _ _ _ _
    simp [after_set_orders]
  | cons p ps ih =>
    intro order body hps hsub hnd hrank
    simp only [List.map_cons, List.nodup_cons] at hps
    obtain ⟨c0, hc0, ha0⟩ := List.mem_map.mp (hsub p (List.mem_cons_self _ _))
    have hget : get_schedule_at p.2 body = some c0.schedule := by
      unfold get_schedule_at
      rw [← ha0, find_by_addr body hnd c0 hc0]
      rfl
    have hset : set_schedule_at p.2 (set_const c0.schedule (dim + 1) order) body
        = body.map (fun c => if c.addr = p.2 then
            { c with schedule := set_const c.schedule (dim + 1) order } else c) := by
      unfold set_schedule_at
      apply List.map_congr_left
      intro c hc
      by_cases e : c.addr = p.2
      · have : c = c0 := eq_of_addr_eq body hnd c c0 hc hc0 (e.trans ha0.symm)
        subst this
        rfl
      · simp only [e, if_false]
    have haddr : ∀ l : List computation,
        (l.map (fun c => if c.addr = p.2 then
            { c with schedule := set_const c.schedule (dim + 1) order } else c)).map
          (fun c => c.addr) = l.map (fun c => c.addr) := by
      intro l
      rw [List.map_map]
      apply List.map_congr_left
      intro c _
      simp only [Function.comp]
      split <;> rfl
    simp only [after_set_orders, hget,
      isl_map_set_const_dim_eq c0.schedule (dim + 1) order hdim (hrank c0 hc0), hset]
    rw [ih (order + 1) _ hps.2
      (by
        intro q hq
        rw [haddr]
        exact hsub q (List.mem_cons_of_mem _ hq))
      (by rw [haddr]; exact hnd)
      (by
        intro c hc
        obtain ⟨b, hb, rfl⟩ := List.mem_map.mp hc
        split
        · simp only [isl_map_dim_out, set_const_out_dims]
          exact hrank b hb
        · exact hrank b hb)]
    rw [List.map_map]
    congr 1
    apply List.map_congr_left
    intro c _
    simp only [Function.comp, List.map_cons, List.mem_cons]
    by_cases e : c.addr = p.2
    · have hnot : p.2 ∉ List.map Prod.snd ps := hps.1
      simp only [e, if_true, hnot, if_false, true_or, List.indexOf_cons_self, Nat.add_zero]
    · have e2 : ¬ p.2 = c.addr := fun h => e h.symm
      simp only [e, if_false, false_or]
      by_cases hin : c.addr ∈ List.map Prod.snd ps
      · simp only [hin, if_true]
        rw [List.indexOf_cons_ne _ e2]
        have : order + 1 + List.indexOf c.addr (List.map Prod.snd ps)
            = order + (List.indexOf c.addr (List.map Prod.snd ps) + 1) := by omega
        rw [this]
      · simp only [hin, if_false]

theorem sorted_pointers_perm (l : List (Int × Nat)) :
    ((sort_ordered_computations l).map Prod.snd).Perm (l.map Prod.snd) :=
  (List.perm_insertionSort pair_le l).map Prod.snd

/-- The two loops of `after` on a body with distinct addresses whose schedules
all pass the assertions on `dim`. -/
theorem after_loops_eq (comp : Nat) (dim : Int) (body : List computation)
    (hroot : root_dimension ≤ dim) (hnd : (body.map (fun c => c.addr)).Nodup)
    (h : ∀ c ∈ body, dim < isl_map_dim_out c.schedule) :
    after_set_orders dim
        (sort_ordered_computations (ordered_computations
          (body.map (fun c => { c with relative_order := after_order comp c })))) 0
        (body.map (fun c => { c with relative_order := after_order comp c }))
      = some (after_result comp dim body) := by
  have hr : (-1 : Int) ≤ dim := hroot
  have hpairs : ordered_computations
      (body.map (fun c => { c with relative_order := after_order comp c }))
      = body.map (fun b => (after_order comp b, b.addr)) := by
    simp [ordered_computations, List.map_map, Function.comp_def]
  have haddr : (body.map (fun c => { c with relative_order := after_order comp c })).map
      (fun c => c.addr) = body.map (fun c => c.addr) := by
    simp [List.map_map, Function.comp_def]
  have hsnd : (body.map (fun b => (after_order comp b, b.addr))).map Prod.snd
      = body.map (fun c => c.addr) := by
    simp [List.map_map, Function.comp_def]
  have hperm := sorted_pointers_perm (body.map (fun b => (after_order comp b, b.addr)))
  rw [hsnd] at hperm
  rw [hpairs, after_set_orders_eq dim (by omega) _ 0 _
    (hperm.nodup_iff.mpr hnd)
    (by
      intro p hp
      rw [haddr]
      exact hperm.mem_iff.mp (List.mem_map_of_mem Prod.snd hp))
    (by rw [haddr]; exact hnd)
    (by
      intro c hc
      obtain ⟨b, hb, rfl⟩ := List.mem_map.mp hc
      have := h b hb
      show dim + 1 ≤ (isl_map_dim_out b.schedule : Int)
      omega)]
  unfold after_result
  rw [List.map_map]
  congr 1
  apply List.map_congr_left
  intro c hc
  have hin : c.addr ∈ (sort_ordered_computations
      (body.map (fun b => (after_order comp b, b.addr)))).map Prod.snd :=
    hperm.mem_iff.mpr (List.mem_map_of_mem (fun c => c.addr) hc)
  simp only [Function.comp, hin, if_true, Nat.zero_add]

/-- The method `after` on a function with distinct computations, for a level
that passes the assertions on every computation: the schedules are aligned,
then the body is the one written by `after_result`. -/
theorem after_eq_of_rank (f : function) (comp : Nat) (dim : Int)
    (hnd : (f.body.map (fun c => c.addr)).Nodup)
    (hroot : root_dimension ≤ dim)
    (hd : ∀ c ∈ f.body, dim < get_max_schedules_range_dim f) :
    ∃ f1, align_schedules f = some f1 ∧
      f1.body.map (fun c => c.addr) = f.body.map (fun c => c.addr) ∧
      after f comp dim = some { f1 with body := after_result comp dim f1.body } := by
  obtain ⟨f1, e1, hl1, hk1⟩ := align_schedules_spec f
  have haddr : f1.body.map (fun c => c.addr) = f.body.map (fun c => c.addr) := by
    apply List.ext_getElem
    · simp [hl1]
    · intro k h1 h2
      simp only [List.length_map] at h1 h2
      simp only [List.getElem_map]
      exact (hk1 k h2 h1).1
  have hrank : ∀ c ∈ f1.body, dim < isl_map_dim_out c.schedule := by
    intro c hc
    rw [align_schedules_rank f f1 e1 c hc]
    obtain ⟨k, hk, -⟩ := List.getElem_of_mem hc
    exact hd f.body[k] (List.getElem_mem (by omega))
  refine ⟨f1, e1, haddr, ?_⟩
  simp only [after, e1, after_update_orders_eq comp dim f1.body hroot hrank,
    after_loops_eq comp dim f1.body hroot (by rw [haddr]; exact hnd) hrank]

theorem after_eq (f : function) (comp : Nat) (dim : Int)
    (hnd : (f.body.map (fun c => c.addr)).Nodup)
    (hroot : root_dimension ≤ dim) (hd : dim < get_max_schedules_range_dim f) :
    ∃ f1, align_schedules f = some f1 ∧
      f1.body.map (fun c => c.addr) = f.body.map (fun c => c.addr) ∧
      after f comp dim = some { f1 with body := after_result comp dim f1.body } :=
  after_eq_of_rank f comp dim hnd hroot (fun _ _ => hd)

/-- A function whose schedules all have rank two is already aligned: the call
only removes the identifiers of the output tuples. -/
theorem align_schedules_of_rank_two (f : function)
    (h : ∀ c ∈ f.body, isl_map_dim_out c.schedule = 2) :
    align_schedules f = some (drop_tuple_ids f) :=
  align_schedules_same f (fun c hc c' hc' => by rw [h c hc, h c' hc'])

/-- A function whose schedules all have rank two and no identifier on the
output tuple is left as it is. -/
theorem align_schedules_of_rank_two_none (f : function)
    (h : ∀ c ∈ f.body, isl_map_dim_out c.schedule = 2)
    (hid : ∀ c ∈ f.body, c.schedule.out_tuple_id = none) : align_schedules f = some f :=
  align_schedules_same_of_none f (fun c hc c' hc' => by rw [h c hc, h c' hc']) hid

theorem three_computations_after_first :
    after three_computations 2 (-1) = some
      { body := [{ addr := 1, name := "A",
                   schedule := set_const (without_tuple_id (identity_schedule ["s", "i"])) 0 1,
                   relative_order := 1 },
                 { addr := 2, name := "B",
                   schedule := set_const (without_tuple_id (identity_schedule ["s", "i"])) 0 0,
                   relative_order := 0 },
                 { addr := 3, name := "C",
                   schedule := set_const (without_tuple_id (identity_schedule ["s", "i"])) 0 2,
                   relative_order := 1 }] } := by
  obtain ⟨g, ea, -, e⟩ := after_eq three_computations 2 (-1) (by decide) (by decide) (by decide)
  have hs : align_schedules three_computations = some (drop_tuple_ids three_computations) :=
    align_schedules_of_rank_two three_computations (by
      intro c hc
      simp only [three_computations, List.mem_cons, List.mem_singleton, List.not_mem_nil,
        or_false] at hc
      rcases hc with rfl | rfl | rfl <;> rfl)
  rw [hs] at ea
  have hg := Option.some.inj ea
  subst hg
  rw [e]
  rfl

theorem static_coordinate_set_const (map : isl_map) (pos val : Int) (hpos : 0 ≤ pos)
    (hlt : pos < isl_map_dim_out map) :
    static_coordinate (set_const map pos val) pos.toNat val :=
  static_coordinate_of_set_const map _ pos val hpos hlt (set_const_out_dims map pos val)
    (set_const_rel map pos val hpos)

/-- Claim C7, the code at a failing input: on three computations `A`, `B`, `C`
with fresh identity schedules, `C.after(B, -1)` followed by `B.after(A, -1)` is
a state reachable through `after` alone, and the two requests agree with the
order `A`, `B`, `C`.  The second call gives `A` the `relative_order` `10`, `B`
the value `1` and `C` the value `11`, so the sort puts `B` first: the static
coordinate at position `0` is `1` for `A` and `0` for `B`, and the coordinate
of `A` is not less than the one of `B`. -/
theorem after_keeps_earlier_order :
    ∃ f1 f2 a b c, after three_computations 2 (-1) = some f1 ∧ after f1 1 (-1) = some f2 ∧
      f2.body = [a, b, c] ∧ a.addr = 1 ∧ b.addr = 2 ∧ c.addr = 3 ∧
      a.relative_order = 10 ∧ b.relative_order = 1 ∧ c.relative_order = 11 ∧
      static_coordinate a.schedule 0 1 ∧ static_coordinate b.schedule 0 0 ∧
      a.schedule.rel [0, 3] [1, 3] ∧ b.schedule.rel [0, 3] [0, 3] ∧
      ¬ static_coordinate_lt 0 a.schedule b.schedule := by
  have hrel : ∀ v w : Int,
      (set_const (set_const (without_tuple_id (identity_schedule ["s", "i"])) 0 v) 0 w).rel [0, 3] [w, 3] := by
    intro v w
    rw [set_const_rel _ _ _ (by decide)]
    refine ⟨[v, 3], ?_, rfl⟩
    rw [set_const_rel _ _ _ (by decide)]
    exact ⟨[0, 3], ⟨rfl, rfl⟩, rfl⟩
  have hstat : ∀ v w : Int,
      static_coordinate (set_const (set_const (without_tuple_id (identity_schedule ["s", "i"])) 0 v) 0 w) 0 w := by
    intro v w
    exact static_coordinate_set_const _ 0 w (by decide) (by
      simp only [isl_map_dim_out, set_const_out_dims]
      decide)
  obtain ⟨g, ea, -, e⟩ := after_eq
    { body := [{ addr := 1, name := "A",
                 schedule := set_const (without_tuple_id (identity_schedule ["s", "i"])) 0 1,
                 relative_order := 1 },
               { addr := 2, name := "B",
                 schedule := set_const (without_tuple_id (identity_schedule ["s", "i"])) 0 0,
                 relative_order := 0 },
               { addr := 3, name := "C",
                 schedule := set_const (without_tuple_id (identity_schedule ["s", "i"])) 0 2,
                 relative_order := 1 }] } 1 (-1) (by decide) (by decide) (by decide)
  have hs := align_schedules_of_rank_two_none
    { body := [{ addr := 1, name := "A",
                 schedule := set_const (without_tuple_id (identity_schedule ["s", "i"])) 0 1,
                 relative_order := 1 },
               { addr := 2, name := "B",
                 schedule := set_const (without_tuple_id (identity_schedule ["s", "i"])) 0 0,
                 relative_order := 0 },
               { addr := 3, name := "C",
                 schedule := set_const (without_tuple_id (identity_schedule ["s", "i"])) 0 2,
                 relative_order := 1 }] } (by
      intro c hc
      simp only [List.mem_cons, List.mem_singleton, List.not_mem_nil, or_false] at hc
      rcases hc with rfl | rfl | rfl <;> rfl)
    (by
      intro c hc
      simp only [List.mem_cons, List.mem_singleton, List.not_mem_nil, or_false] at hc
      rcases hc with rfl | rfl | rfl <;> rfl)
  rw [hs] at ea
  have hg := Option.some.inj ea
  subst hg
  refine ⟨_, _, _, _, _, three_computations_after_first, e, rfl, rfl, rfl, rfl, rfl, rfl, rfl,
    hstat 1 1, hstat 0 0, hrel 1 1, hrel 0 0, ?_⟩
  intro hlt
  have := hlt _ _ _ _ (hrel 1 1) (hrel 0 0)
  exact absurd this (by decide)

/-- The base-10 shift of `after` keeps the order of two pairs that an `after`
call with the same argument has produced. -/
theorem shift_keeps_order (comp : Nat) (p q : Int × Nat)
    (hp : ∃ r : Int, p.1 = if p.2 ≠ comp then r * 10 + 1 else r * 10)
    (hq : ∃ r : Int, q.1 = if q.2 ≠ comp then r * 10 + 1 else r * 10) :
    pair_le p q ↔
      pair_le (if p.2 ≠ comp then p.1 * 10 + 1 else p.1 * 10, p.2)
        (if q.2 ≠ comp then q.1 * 10 + 1 else q.1 * 10, q.2) := by
  obtain ⟨rp, hrp⟩ := hp
  obtain ⟨rq, hrq⟩ := hq
  unfold pair_le
  by_cases ep : p.2 ≠ comp <;> by_cases eq : q.2 ≠ comp <;>
    simp only [ep, eq, if_true, if_false] at hrp hrq ⊢ <;>
    constructor <;> rintro (h | ⟨h1, h2⟩) <;>
    first
    | (left; omega)
    | (right; exact ⟨by omega, h2⟩)

/-- A second `after` with the same argument sorts the computations in the same
order. -/
theorem after_result_sorted_pointers (comp : Nat) (dim : Int) (body : List computation) :
    (sort_ordered_computations
      ((after_result comp dim body).map (fun b => (after_order comp b, b.addr)))).map Prod.snd
    = (sort_ordered_computations
      (body.map (fun b => (after_order comp b, b.addr)))).map Prod.snd := by
  have hmap : (after_result comp dim body).map (fun b => (after_order comp b, b.addr))
      = (body.map (fun b => (after_order comp b, b.addr))).map
          (fun p => (if p.2 ≠ comp then p.1 * 10 + 1 else p.1 * 10, p.2)) := by
    simp only [after_result, List.map_map]
    apply List.map_congr_left
    intro c _
    simp only [Function.comp, after_order]
  rw [hmap]
  unfold sort_ordered_computations
  rw [← List.map_insertionSort pair_le pair_le
    (fun p => (if p.2 ≠ comp then p.1 * 10 + 1 else p.1 * 10, p.2))]
  · rw [List.map_map]
    rfl
  · intro p hp q hq
    obtain ⟨b, -, rfl⟩ := List.mem_map.mp hp
    obtain ⟨c, -, rfl⟩ := List.mem_map.mp hq
    exact shift_keeps_order comp _ _ ⟨b.relative_order, rfl⟩ ⟨c.relative_order, rfl⟩

theorem after_result_unfold (comp : Nat) (dim : Int) (body : List computation) :
    after_result comp dim body
      = body.map (fun c =>
          { c with
            relative_order := after_order comp c
            schedule := set_const c.schedule (dim + 1)
              (((sort_ordered_computations
                  (body.map (fun b => (after_order comp b, b.addr)))).map Prod.snd).indexOf
                c.addr : Nat) }) :=
  rfl

/-- A second `after` with the same argument writes the same schedules. -/
theorem after_result_twice (comp : Nat) (dim : Int) (hdim : 0 ≤ dim + 1)
    (body : List computation) :
    (after_result comp dim (after_result comp dim body)).map (fun c => c.schedule)
      = (after_result comp dim body).map (fun c => c.schedule) := by
  have hs := after_result_sorted_pointers comp dim body
  have h1 : after_result comp dim (after_result comp dim body)
      = (after_result comp dim body).map (fun c =>
          { c with
            relative_order := after_order comp c
            schedule := set_const c.schedule (dim + 1)
              (((sort_ordered_computations
                  (body.map (fun b => (after_order comp b, b.addr)))).map Prod.snd).indexOf
                c.addr : Nat) }) := by
    rw [after_result_unfold comp dim (after_result comp dim body), hs]
  rw [h1]
  simp only [after_result, List.map_map]
  apply List.map_congr_left
  intro c _
  simp only [Function.comp]
  exact set_const_idempotent _ _ _ hdim

theorem after_result_addr (comp : Nat) (dim : Int) (body : List computation) :
    (after_result comp dim body).map (fun c => c.addr) = body.map (fun c => c.addr) := by
  simp only [after_result, List.map_map]
  apply List.map_congr_left
  intro c _
  rfl

theorem after_result_rank (comp : Nat) (dim : Int) (body : List computation) (D : Nat)
    (h : ∀ c ∈ body, isl_map_dim_out c.schedule = D) :
    ∀ c ∈ after_result comp dim body, isl_map_dim_out c.schedule = D := by
  intro c hc
  simp only [after_result] at hc
  obtain ⟨b, hb, rfl⟩ := List.mem_map.mp hc
  simp only [isl_map_dim_out, set_const_out_dims]
  exact h b hb

theorem after_result_tuple_id (comp : Nat) (dim : Int) (body : List computation)
    (h : ∀ c ∈ body, c.schedule.out_tuple_id = none) :
    ∀ c ∈ after_result comp dim body, c.schedule.out_tuple_id = none := by
  intro c hc
  simp only [after_result] at hc
  obtain ⟨b, hb, rfl⟩ := List.mem_map.mp hc
  simp only [set_const_out_tuple_id]
  exact h b hb

/-- Claim C8: for a function with distinct computations and a level `d` that
passes the assertions of `after`, the call `S2.after(S1, d)` succeeds, a second
identical call right after it succeeds too, and the second call leaves the
schedule of every computation equal to what the first call produced: the
second base-10 shift of the `relative_order` values keeps their sorted
order. -/
theorem after_twice_same_schedules (f : function) (comp : Nat) (dim : Int)
    (hnd : (f.body.map (fun c => c.addr)).Nodup)
    (hroot : root_dimension ≤ dim) (hd : dim < get_max_schedules_range_dim f) :
    ∃ f1 f2, after f comp dim = some f1 ∧ after f1 comp dim = some f2 ∧
      f2.body.map (fun c => c.addr) = f1.body.map (fun c => c.addr) ∧
      f2.body.map (fun c => c.schedule) = f1.body.map (fun c => c.schedule) := by
  have hr : (-1 : Int) ≤ dim := hroot
  obtain ⟨g, ea, haddr, e⟩ := after_eq f comp dim hnd hroot hd
  have hrank1 : ∀ c ∈ after_result comp dim g.body,
      isl_map_dim_out c.schedule = get_max_schedules_range_dim f :=
    after_result_rank comp dim g.body _ (align_schedules_rank f g ea)
  have hsame : align_schedules { g with body := after_result comp dim g.body }
      = some { g with body := after_result comp dim g.body } :=
    align_schedules_same_of_none _ (by
      intro c hc c' hc'
      rw [hrank1 c hc, hrank1 c' hc'])
      (after_result_tuple_id comp dim g.body (align_schedules_tuple_id f g ea))
  obtain ⟨g1, ea1, -, e1⟩ := after_eq_of_rank { g with body := after_result comp dim g.body }
    comp dim
    (by
      show ((after_result comp dim g.body).map (fun c => c.addr)).Nodup
      rw [after_result_addr, haddr]
      exact hnd)
    hroot
    (by
      intro c hc
      have h1 := (get_max_schedules_range_dim_spec
        { g with body := after_result comp dim g.body }).1 c hc
      have h2 := hrank1 c hc
      omega)
  rw [hsame] at ea1
  have hg1 := Option.some.inj ea1
  subst hg1
  refine ⟨_, _, e, e1, ?_, ?_⟩
  · show (after_result comp dim (after_result comp dim g.body)).map (fun c => c.addr)
      = (after_result comp dim g.body).map (fun c => c.addr)
    rw [after_result_addr]
  · exact after_result_twice comp dim (by omega) g.body

/-- Witness for the repeated `after`: `S2.after(S1, -1)`, twice, on the sample
function. -/
theorem after_twice_same_schedules_witness :
    (two_computations.body.map (fun c => c.addr)).Nodup ∧ root_dimension ≤ (-1 : Int) ∧
    (-1 : Int) < get_max_schedules_range_dim two_computations ∧
    ∃ f1 f2, after two_computations 1 (-1) = some f1 ∧ after f1 1 (-1) = some f2 ∧
      f2.body.map (fun c => c.addr) = f1.body.map (fun c => c.addr) ∧
      f2.body.map (fun c => c.schedule) = f1.body.map (fun c => c.schedule) :=
  ⟨by decide, by decide, by decide,
    after_twice_same_schedules two_computations 1 (-1) (by decide) (by decide) (by decide)⟩

/-- When position `dim + 1` exists in the aligned schedules, `after` returns
and leaves a static coordinate at that position in every schedule. -/
theorem after_static_coordinates (f : function) (comp : Nat) (dim : Int)
    (hnd : (f.body.map (fun c => c.addr)).Nodup)
    (hd0 : 0 ≤ dim + 1) (hd : dim + 1 < get_max_schedules_range_dim f) :
    ∃ f', after f comp dim = some f' ∧
      ∀ c ∈ f'.body, ∃ v, static_coordinate c.schedule (dim + 1).toNat v := by
  obtain ⟨g, ea, -, e⟩ := after_eq f comp dim hnd (by unfold root_dimension; omega) (by omega)
  refine ⟨_, e, ?_⟩
  intro c hc
  simp only [after_result] at hc
  obtain ⟨b, hb, rfl⟩ := List.mem_map.mp hc
  exact ⟨_, static_coordinate_set_const b.schedule (dim + 1) _ hd0
    (by rw [align_schedules_rank f g ea b hb]; exact hd)⟩

/-- At `dim_pos` equal to the rank, which the assertions of
`isl_map_set_const_dim` admit, no turn of its loop meets `i == dim_pos`: the
map is returned as it was. -/
theorem set_const_at_rank (map : isl_map) (val : Int) :
    set_const map (isl_map_dim_out map) val = map := by
  apply isl_map_eq
  · rw [set_const_out_dims]
  · rw [set_const_out_tuple_id]
  · funext i o
    apply propext
    rw [set_const_rel _ _ _ (by omega)]
    have hw : ∀ x, map.rel i x → with_const (isl_map_dim_out map) val x = x := by
      intro x hx
      unfold with_const
      apply List.set_eq_of_length_le
      rw [map.wf i x hx]
      simp [isl_map_dim_out]
    constructor
    · rintro ⟨x, hx, rfl⟩
      rw [hw x hx]
      exact hx
    · intro h
      exact ⟨o, h, (hw o h).symm⟩

/-- Claim C9, the code at a failing input: on two computations with schedules
of rank two, the level `d = 1` passes every assertion of `after` and of
`first` (`root_dimension ≤ 1 < 2`); both calls return and leave every schedule
as it was but for the identifier of the output tuple, which `align_schedules`
removes: every schedule still has rank two, so output position `d + 1 = 2`
does not exist in any schedule and carries no constant. -/
theorem after_and_first_at_last_level :
    (∃ f', after two_computations 2 1 = some f' ∧
      f'.body.map (fun c => c.schedule)
        = two_computations.body.map (fun c => without_tuple_id c.schedule) ∧
      ∀ c ∈ f'.body,
        isl_map_dim_out c.schedule = 2 ∧ ¬ ∃ v, static_coordinate c.schedule 2 v) ∧
    (∃ f', first two_computations 1 1 = some f' ∧
      f'.body.map (fun c => c.schedule)
        = two_computations.body.map (fun c => without_tuple_id c.schedule) ∧
      ∀ c ∈ f'.body,
        isl_map_dim_out c.schedule = 2 ∧ ¬ ∃ v, static_coordinate c.schedule 2 v) ∧
    ∀ c ∈ two_computations.body,
      isl_map_dim_out c.schedule = 2 ∧ ¬ ∃ v, static_coordinate c.schedule 2 v := by
  have hs : align_schedules two_computations = some (drop_tuple_ids two_computations) :=
    align_schedules_same two_computations (by
      intro c hc c' hc'
      simp only [two_computations, List.mem_cons, List.mem_singleton, List.not_mem_nil,
        or_false] at hc hc'
      rcases hc with rfl | rfl <;> rcases hc' with rfl | rfl <;> rfl)
  have hid : ∀ v : Int, set_const (without_tuple_id (identity_schedule ["s", "i"])) 2 v
      = without_tuple_id (identity_schedule ["s", "i"]) :=
    fun v => set_const_at_rank (without_tuple_id (identity_schedule ["s", "i"])) v
  have hno : ∀ l : List isl_map,
      l = [without_tuple_id (identity_schedule ["s", "i"]),
        without_tuple_id (identity_schedule ["s", "i"])] →
      ∀ m ∈ l, isl_map_dim_out m = 2 ∧ ¬ ∃ v, static_coordinate m 2 v := by
    intro l hl m hm
    rw [hl] at hm
    simp only [List.mem_cons, List.mem_singleton, List.not_mem_nil, or_false, or_self] at hm
    rw [hm]
    exact ⟨rfl, fun ⟨v, h, _⟩ => absurd h (by decide)⟩
  refine ⟨?_, ?_, ?_⟩
  · obtain ⟨g, ea, -, e⟩ := after_eq two_computations 2 1 (by decide) (by decide) (by decide)
    rw [hs] at ea
    have hg := Option.some.inj ea
    subst hg
    have hmap : (after_result 2 1 (drop_tuple_ids two_computations).body).map
        (fun c => c.schedule)
        = two_computations.body.map (fun c => without_tuple_id c.schedule) := by
      simp only [after_result, drop_tuple_ids, two_computations, List.map_cons, List.map_nil]
      have h2 : (1 : Int) + 1 = 2 := by decide
      rw [h2, hid, hid]
    refine ⟨_, e, hmap, ?_⟩
    intro c hc
    exact hno _ hmap c.schedule (List.mem_map_of_mem (fun c => c.schedule) hc)
  · have h1 := isl_map_set_const_dim_eq (without_tuple_id (identity_schedule ["s", "i"])) 2 0
      (by decide) (by decide)
    have h2 := isl_map_set_const_dim_eq (without_tuple_id (identity_schedule ["s", "i"])) 2 1
      (by decide) (by decide)
    rw [hid] at h1 h2
    have hf : first two_computations 1 1 = some
        { body := [{ addr := 1, name := "S1",
                     schedule := without_tuple_id (identity_schedule ["s", "i"]),
                     relative_order := 0 },
                   { addr := 2, name := "S2",
                     schedule := without_tuple_id (identity_schedule ["s", "i"]),
                     relative_order := 1 }] } := by
      simp only [first, hs]
      simp only [drop_tuple_ids, two_computations, List.map_cons, List.map_nil, first_loop]
      rw [if_pos (by decide)]
      have e2 : (1 : Int) + 1 = 2 := by decide
      simp only [e2, if_true, h1]
      rw [if_pos (by decide)]
      simp only [show ((2 : Nat) = 1) = False from by decide, if_false, h2]
      rfl
    refine ⟨_, hf, rfl, ?_⟩
    intro c hc
    exact hno _ rfl c.schedule (List.mem_map_of_mem (fun c => c.schedule) hc)
  · intro c hc
    simp only [two_computations, List.mem_cons, List.mem_singleton, List.not_mem_nil,
      or_false] at hc
    rcases hc with rfl | rfl
    · exact ⟨rfl, fun ⟨v, h, _⟩ => absurd h (by decide)⟩
    · exact ⟨rfl, fun ⟨v, h, _⟩ => absurd h (by decide)⟩

/-! ## `first` and the order of the other computations -/

theorem first_loop_eq (this : Nat) (dim : Int) (l : List computation)
    (hroot : root_dimension ≤ dim) (h : ∀ c ∈ l, dim < isl_map_dim_out c.schedule) :
    first_loop this dim l = some (first_result this dim l) := by
  have hr : (-1 : Int) ≤ dim := hroot
  induction l with
  | nil => rfl
  | cons c tl ih =>
    have hc := h c (List.mem_cons_self _ _)
    simp only [first_loop]
    rw [if_pos ⟨hc, hroot⟩,
      isl_map_set_const_dim_eq c.schedule (dim + 1) _ (by omega) (by omega),
      ih (fun c hc => h c (List.mem_cons_of_mem _ hc))]
    rfl

/-- The method `first` for a level that passes the assertions on every
computation: the schedules are aligned, then the body is the one written by
`first_result`. -/
theorem first_eq (f : function) (this : Nat) (dim : Int)
    (hroot : root_dimension ≤ dim) (hd : dim < get_max_schedules_range_dim f) :
    ∃ f1, align_schedules f = some f1 ∧
      first f this dim = some { f1 with body := first_result this dim f1.body } := by
  obtain ⟨f1, e1, -, -⟩ := align_schedules_spec f
  have hrank : ∀ c ∈ f1.body, dim < isl_map_dim_out c.schedule := by
    intro c hc
    rw [align_schedules_rank f f1 e1 c hc]
    exact hd
  refine ⟨f1, e1, ?_⟩
  simp only [first, e1, first_loop_eq this dim f1.body hroot hrank]

theorem three_computations_after_a :
    after three_computations 1 (-1) = some
      { body := [{ addr := 1, name := "A",
                   schedule := set_const (without_tuple_id (identity_schedule ["s", "i"])) 0 0,
                   relative_order := 0 },
                 { addr := 2, name := "B",
                   schedule := set_const (without_tuple_id (identity_schedule ["s", "i"])) 0 1,
                   relative_order := 1 },
                 { addr := 3, name := "C",
                   schedule := set_const (without_tuple_id (identity_schedule ["s", "i"])) 0 2,
                   relative_order := 1 }] } := by
  obtain ⟨g, ea, -, e⟩ := after_eq three_computations 1 (-1) (by decide) (by decide) (by decide)
  have hs : align_schedules three_computations = some (drop_tuple_ids three_computations) :=
    align_schedules_same three_computations (by
      intro c hc c' hc'
      simp only [three_computations, List.mem_cons, List.mem_singleton, List.not_mem_nil,
        or_false] at hc hc'
      rcases hc with rfl | rfl | rfl <;> rcases hc' with rfl | rfl | rfl <;> rfl)
  rw [hs] at ea
  have hg := Option.some.inj ea
  subst hg
  rw [e]
  rfl

/-- Claim C11, the code at a failing input: on three computations `A`, `B`,
`C` with fresh identity schedules, `C.after(A, -1)` leaves the static
coordinates `0`, `1`, `2` at position `0`, so `A` is strictly before `C`.
`B.first(-1)` then writes `0` for `B` and the same constant `1` for `A` and for
`C`: the coordinate of `A` is no longer strictly less than the one of `C`.  The
loop of `first` updates `relative_order` and never sorts by it. -/
theorem first_merges_other_computations :
    ∃ f1 f2 a1 b1 c1 a2 b2 c2,
      after three_computations 1 (-1) = some f1 ∧ f1.body = [a1, b1, c1] ∧
      first f1 2 (-1) = some f2 ∧ f2.body = [a2, b2, c2] ∧
      a2.addr = 1 ∧ b2.addr = 2 ∧ c2.addr = 3 ∧
      static_coordinate_lt 0 a1.schedule c1.schedule ∧
      static_coordinate a2.schedule 0 1 ∧ static_coordinate c2.schedule 0 1 ∧
      a2.schedule.rel [0, 3] [1, 3] ∧ c2.schedule.rel [0, 3] [1, 3] ∧
      ¬ static_coordinate_lt 0 a2.schedule c2.schedule := by
  have hrel : ∀ v w : Int,
      (set_const (set_const (without_tuple_id (identity_schedule ["s", "i"])) 0 v) 0 w).rel [0, 3] [w, 3] := by
    intro v w
    rw [set_const_rel _ _ _ (by decide)]
    refine ⟨[v, 3], ?_, rfl⟩
    rw [set_const_rel _ _ _ (by decide)]
    exact ⟨[0, 3], ⟨rfl, rfl⟩, rfl⟩
  have hstat : ∀ v w : Int,
      static_coordinate (set_const (set_const (without_tuple_id (identity_schedule ["s", "i"])) 0 v) 0 w) 0 w := by
    intro v w
    exact static_coordinate_set_const _ 0 w (by decide) (by
      simp only [isl_map_dim_out, set_const_out_dims]
      decide)
  have hstat1 : ∀ v : Int,
      static_coordinate (set_const (without_tuple_id (identity_schedule ["s", "i"])) 0 v) 0 v := by
    intro v
    exact static_coordinate_set_const _ 0 v (by decide) (by decide)
  obtain ⟨g, ea, e⟩ := first_eq
    { body := [{ addr := 1, name := "A",
                 schedule := set_const (without_tuple_id (identity_schedule ["s", "i"])) 0 0,
                 relative_order := 0 },
               { addr := 2, name := "B",
                 schedule := set_const (without_tuple_id (identity_schedule ["s", "i"])) 0 1,
                 relative_order := 1 },
               { addr := 3, name := "C",
                 schedule := set_const (without_tuple_id (identity_schedule ["s", "i"])) 0 2,
                 relative_order := 1 }] } 2 (-1) (by decide) (by decide)
  have hs := align_schedules_of_rank_two_none
    { body := [{ addr := 1, name := "A",
                 schedule := set_const (without_tuple_id (identity_schedule ["s", "i"])) 0 0,
                 relative_order := 0 },
               { addr := 2, name := "B",
                 schedule := set_const (without_tuple_id (identity_schedule ["s", "i"])) 0 1,
                 relative_order := 1 },
               { addr := 3, name := "C",
                 schedule := set_const (without_tuple_id (identity_schedule ["s", "i"])) 0 2,
                 relative_order := 1 }] } (by
      intro c hc
      simp only [List.mem_cons, List.mem_singleton, List.not_mem_nil, or_false] at hc
      rcases hc with rfl | rfl | rfl <;> rfl)
    (by
      intro c hc
      simp only [List.mem_cons, List.mem_singleton, List.not_mem_nil, or_false] at hc
      rcases hc with rfl | rfl | rfl <;> rfl)
  rw [hs] at ea
  have hg := Option.some.inj ea
  subst hg
  refine ⟨_, _, _, _, _, _, _, _, three_computations_after_a, rfl, e, rfl, rfl, rfl, rfl,
    ?_, hstat 0 1, hstat 2 1, hrel 0 1, hrel 2 1, ?_⟩
  · intro i1 o1 i2 o2 h1 h2
    rw [(hstat1 0).2 i1 o1 h1, (hstat1 2).2 i2 o2 h2]
    decide
  · intro hlt
    have := hlt _ _ _ _ (hrel 0 1) (hrel 2 1)
    exact absurd this (by decide)

/-! ## `set_schedule` -/

theorem get_computation_by_name_some (f : function) (name : String) (c : computation)
    (h : get_computation_by_name f name = some c) : c ∈ f.body ∧ c.name = name := by
  unfold get_computation_by_name at h
  exact ⟨List.mem_of_find?_eq_some h, by simpa using List.find?_some h⟩

/-- An undeclared name that begins with `LET_STMT_PREFIX` (the search finds the
marker at position `0`) passes `update_let_stmt_schedule_domain_name`: the
branch that tries the marked name and reports the error is skipped. -/
theorem update_let_stmt_accepts_marked_name (f : function) (LET_STMT_PREFIX : String)
    (map : named_map) (hlen : map.tuple_name.length > 0)
    (hunknown : get_computation_by_name f map.tuple_name = none)
    (hmark : string_find LET_STMT_PREFIX.data map.tuple_name.data = some 0) :
    update_let_stmt_schedule_domain_name f LET_STMT_PREFIX map = some map := by
  unfold update_let_stmt_schedule_domain_name
  simp only [hlen, if_true, hunknown, hmark]
  simp

/-- Claim C12, the code at a failing input: the function holds the
computations `S1` and `S2`, the marker is `_let_` and the input tuple of the
map is named `_let_x`.  Neither `_let_x` nor `_let__let_x` is the name of a
computation, yet `set_schedule` reports no error and adopts the map
unchanged. -/
theorem set_schedule_accepts_unknown_marked_name :
    get_computation_by_name two_computations "_let_x" = none ∧
    get_computation_by_name two_computations ("_let_" ++ "_let_x") = none ∧
    ∀ m : isl_map,
      set_schedule two_computations "_let_" { tuple_name := "_let_x", map := m }
        = some { tuple_name := "_let_x", map := m } := by
  refine ⟨rfl, rfl, ?_⟩
  intro m
  exact update_let_stmt_accepts_marked_name two_computations "_let_"
    { tuple_name := "_let_x", map := m }
    (by show "_let_x".length > 0; decide) rfl
    (by show string_find "_let_".data "_let_x".data = some 0; decide)

/-- Claim C13, a counterexample: `S1.set_schedule` on a map whose input tuple
is named `S2`, the name of another computation of the function, is accepted
and the schedule stored on `S1` keeps the tuple name `S2`.  No step of
`set_schedule` compares the tuple name with the name of the receiver. -/
theorem set_schedule_keeps_foreign_name :
    ∃ c ∈ two_computations.body, ∃ stored,
      set_schedule two_computations "_let_"
        { tuple_name := "S2", map := identity_schedule ["s", "i"] } = some stored ∧
      c.name = "S1" ∧ stored.tuple_name = "S2" ∧ stored.tuple_name ≠ c.name :=
  ⟨{ addr := 1, name := "S1", schedule := identity_schedule ["s", "i"], relative_order := 0 },
    List.mem_cons_self _ _, { tuple_name := "S2", map := identity_schedule ["s", "i"] },
    rfl, rfl, rfl, by decide⟩

/-- Claim C13 as amended: when `set_schedule` accepts a map whose input tuple
name is declared or does not begin with `LET_STMT_PREFIX`, the schedule it
stores has the relation of the map and an input tuple name that is the name of
a computation of the owning function: the name of the map when that name is
declared, else the name with the marker put in front. -/
theorem set_schedule_names_a_computation (f : function) (LET_STMT_PREFIX : String)
    (map stored : named_map)
    (h : set_schedule f LET_STMT_PREFIX map = some stored)
    (hname : get_computation_by_name f map.tuple_name ≠ none ∨
      string_find LET_STMT_PREFIX.data map.tuple_name.data ≠ some 0) :
    (∃ c ∈ f.body, c.name = stored.tuple_name) ∧ stored.map = map.map ∧
    ((get_computation_by_name f map.tuple_name ≠ none ∧
        stored.tuple_name = map.tuple_name) ∨
      (get_computation_by_name f map.tuple_name = none ∧
        stored.tuple_name = LET_STMT_PREFIX ++ map.tuple_name)) := by
  unfold set_schedule update_let_stmt_schedule_domain_name at h
  dsimp only at h
  split at h
  · split at h
    · rename_i hnone
      split at h
      · split at h
        · rename_i c hc
          have hs := Option.some.inj h
          rw [← hs]
          obtain ⟨hmem, hcn⟩ := get_computation_by_name_some f _ c hc
          exact ⟨⟨c, hmem, hcn⟩, rfl, Or.inr ⟨hnone, rfl⟩⟩
        · exact absurd h (by simp)
      · rename_i hpos
        rcases hname with hk | hk
        · exact absurd hnone hk
        · exfalso
          apply hpos
          by_cases e : string_find LET_STMT_PREFIX.data map.tuple_name.data = none
          · exact Or.inl e
          · exact Or.inr hk
    · rename_i c hc
      have hs := Option.some.inj h
      rw [← hs]
      obtain ⟨hmem, hcn⟩ := get_computation_by_name_some f _ c hc
      exact ⟨⟨c, hmem, hcn⟩, rfl, Or.inl ⟨by rw [hc]; simp, rfl⟩⟩
  · exact absurd h (by simp)

/-- Witness for the amended claim C13: the tuple name `S2` on the sample
function. -/
theorem set_schedule_names_a_computation_witness :
    (∃ c ∈ two_computations.body, c.name = "S2") ∧
      identity_schedule ["s", "i"] = identity_schedule ["s", "i"] ∧
      ((get_computation_by_name two_computations "S2" ≠ none ∧ "S2" = "S2") ∨
        (get_computation_by_name two_computations "S2" = none ∧ "S2" = "_let_" ++ "S2")) :=
  set_schedule_names_a_computation two_computations "_let_"
    { tuple_name := "S2", map := identity_schedule ["s", "i"] }
    { tuple_name := "S2", map := identity_schedule ["s", "i"] } rfl
    (Or.inl (by
      show get_computation_by_name two_computations "S2" ≠ none
      rw [show get_computation_by_name two_computations "S2"
        = some { addr := 2, name := "S2", schedule := identity_schedule ["s", "i"],
                 relative_order := 0 } from rfl]
      exact Option.some_ne_none _))

/-! ## `add_computation` -/

theorem find_name_eq_none (l : List computation) (name : String) :
    l.find? (fun c => c.name = name) = none ↔ ∀ c ∈ l, c.name ≠ name := by
  simp [List.find?_eq_none]

theorem add_computation_fails_iff (f : function) (cpt : computation) :
    add_computation f cpt = none ↔ ∃ c ∈ f.body, c.name = cpt.name := by
  unfold add_computation
  split
  · rename_i h
    rw [find_name_eq_none] at h
    constructor
    · intro h2
      exact absurd h2 (by simp)
    · rintro ⟨c, hc, hn⟩
      exact absurd hn (h c hc)
  · rename_i c hc
    constructor
    · intro _
      exact ⟨c, List.mem_of_find?_eq_some hc, by simpa using List.find?_some hc⟩
    · intro _
      rfl

theorem add_computation_some (f f' : function) (cpt : computation)
    (h : add_computation f cpt = some f') :
    f'.body = f.body ++ [cpt] ∧ ∀ c ∈ f.body, c.name ≠ cpt.name := by
  unfold add_computation at h
  split at h
  · rename_i hn
    rw [find_name_eq_none] at hn
    rw [← Option.some.inj h]
    exact ⟨rfl, hn⟩
  · exact absurd h (by simp)

/-- A sequence of `add_computation` calls that all return keeps the names of
the body pairwise distinct. -/
theorem add_computations_nodup (cs : List computation) :
    ∀ (f g : function), (f.body.map (fun c => c.name)).Nodup →
      add_computations f cs = some g → (g.body.map (fun c => c.name)).Nodup := by
  induction cs with
  | nil =>
    intro f g hf h
    rw [← Option.some.inj h]
    exact hf
  | cons cpt rest ih =>
    intro f g hf h
    simp only [add_computations] at h
    split at h
    · exact absurd h (by simp)
    · rename_i f' hf'
      obtain ⟨hb, hn⟩ := add_computation_some f f' cpt hf'
      apply ih f' g _ h
      rw [hb, List.map_append, List.nodup_append]
      refine ⟨hf, by simp, ?_⟩
      intro a ha hb2
      obtain ⟨c, hc, rfl⟩ := List.mem_map.mp ha
      simp only [List.map_cons, List.map_nil, List.mem_singleton] at hb2
      exact hn c hc hb2

/-- Claim C14: `add_computation(c)` fails exactly when a computation of the
body has the name of `c`; when it returns, the new body is the old body
followed by `c`; and a function built from the empty body by `add_computation`
calls has pairwise distinct computation names. -/
theorem add_computation_appends_unless_duplicate (f : function) (cpt : computation) :
    (add_computation f cpt = none ↔ ∃ c ∈ f.body, c.name = cpt.name) ∧
    ((∀ c ∈ f.body, c.name ≠ cpt.name) →
      add_computation f cpt = some { f with body := f.body ++ [cpt] }) ∧
    (∀ f', add_computation f cpt = some f' → f'.body = f.body ++ [cpt]) ∧
    (∀ (cs : List computation) (g : function),
      add_computations { body := [] } cs = some g →
      (g.body.map (fun c => c.name)).Nodup) := by
  refine ⟨add_computation_fails_iff f cpt, ?_, ?_, ?_⟩
  · intro h
    unfold add_computation
    rw [(find_name_eq_none f.body cpt.name).mpr h]
  · intro f' h
    exact (add_computation_some f f' cpt h).1
  · intro cs g h
    exact add_computations_nodup cs { body := [] } g List.nodup_nil h

/-- Witness for `add_computation`: the computation `S1` enters the empty body,
a second computation with the same name is refused. -/
theorem add_computation_appends_unless_duplicate_witness :
    add_computation { body := [] } sample_computation
      = some { body := [sample_computation] } ∧
    add_computation { body := [sample_computation] } sample_computation = none := by
  refine ⟨?_, ?_⟩
  · exact (add_computation_appends_unless_duplicate { body := [] }
      sample_computation).2.1 (by simp)
  · exact (add_computation_appends_unless_duplicate
      { body := [sample_computation] } sample_computation).1.mpr
      ⟨_, List.mem_cons_self _ _, rfl⟩

/-! ## GPU tags -/

theorem gpu_dimensions_find_insert (tbl : List (String × (Int × Int))) (name : String)
    (dims : Int × Int) (h : gpu_dimensions_find tbl name = none) :
    gpu_dimensions_find (gpu_dimensions_insert tbl name dims) name = some dims := by
  unfold gpu_dimensions_insert
  rw [h]
  unfold gpu_dimensions_find at h ⊢
  have hn : tbl.find? (fun e => e.1 = name) = none := by
    cases hf : tbl.find? (fun e => e.1 = name) with
    | none => rfl
    | some e => rw [hf] at h; exact absurd h (by simp)
  rw [List.find?_append, hn]
  simp

/-- Claim C16, a counterexample: the computation `S1` already carries the GPU
tag `(0, 1)`.  `tag_gpu_dimensions(2, 3)` returns, but `std::map::insert` keeps
the old entry, so `get_gpu_iterator("S1", 2)` reports that the level is not
mapped and `should_map_to_gpu("S1", 2)` is false. -/
theorem tag_gpu_dimensions_keeps_first_tag :
    ∃ tbl, tag_gpu_dimensions [("S1", (0, 1))] "S1" 2 3 = some tbl ∧
      get_gpu_iterator tbl "S1" 2 = none ∧ get_gpu_iterator tbl "S1" 3 = none ∧
      should_map_to_gpu tbl "S1" 2 = some false ∧
      should_map_to_gpu tbl "S1" 0 = some true :=
  ⟨[("S1", (0, 1))], by decide, by decide, by decide, by decide, by decide⟩

/-- Claim C16 as amended: for every function state, every computation with a
non-empty name and every `d ≥ 0`, `tag_gpu_dimensions(d, d + 1)` returns.
When the computation has no GPU tag yet, afterwards
`get_gpu_iterator(name, d)` is `__thread_id_x`, `get_gpu_iterator(name, d + 1)`
is `__thread_id_y`, and `should_map_to_gpu(name, l)` is true exactly for
`l = d` and `l = d + 1`.  When the computation is already tagged, the call
changes nothing: the table is the one before the call, so the first tag
stays. -/
theorem tag_gpu_dimensions_first_tag (tbl : List (String × (Int × Int))) (name : String)
    (d : Int) (hname : name.length > 0) (hd : d ≥ 0) :
    ∃ tbl', tag_gpu_dimensions tbl name d (d + 1) = some tbl' ∧
      (gpu_dimensions_find tbl name = none →
        get_gpu_iterator tbl' name d = some "__thread_id_x" ∧
        get_gpu_iterator tbl' name (d + 1) = some "__thread_id_y" ∧
        ∀ l, should_map_to_gpu tbl' name l = some true ↔ (l = d ∨ l = d + 1)) ∧
      (gpu_dimensions_find tbl name ≠ none → tbl' = tbl) := by
  have hd1 : d + 1 ≥ 0 := by omega
  refine ⟨gpu_dimensions_insert tbl name (d, d + 1), ?_, ?_, ?_⟩
  · unfold tag_gpu_dimensions add_gpu_dimensions
    rw [if_pos ⟨hd, hd1, rfl, hname⟩, if_pos ⟨hd, hd1, rfl, hname⟩]
  · intro hfresh
    have hf := gpu_dimensions_find_insert tbl name (d, d + 1) hfresh
    refine ⟨?_, ?_, ?_⟩
    · unfold get_gpu_iterator
      rw [if_pos ⟨hname, hd⟩, hf]
      simp
    · unfold get_gpu_iterator
      rw [if_pos ⟨hname, hd1⟩, hf]
      have hne : ¬ d + 1 = d := by omega
      simp [hne]
    · intro l
      unfold should_map_to_gpu
      by_cases hl : l ≥ 0
      · rw [if_pos ⟨hname, hl⟩, hf]
        simp
      · rw [if_neg (fun h => hl h.2)]
        constructor
        · intro h
          exact absurd h (by simp)
        · intro h
          omega
  · intro htagged
    unfold gpu_dimensions_insert
    cases hfind : gpu_dimensions_find tbl name with
    | none => exact absurd hfind htagged
    | some old => rfl

/-- Witness for the amended claim C16: the first tag of `S1`, at the levels
`2` and `3`, and a second tag at the levels `4` and `5`, which changes
nothing. -/
theorem tag_gpu_dimensions_first_tag_witness :
    (∃ tbl', tag_gpu_dimensions [] "S1" 2 (2 + 1) = some tbl' ∧
      get_gpu_iterator tbl' "S1" 2 = some "__thread_id_x" ∧
      get_gpu_iterator tbl' "S1" (2 + 1) = some "__thread_id_y" ∧
      ∀ l, should_map_to_gpu tbl' "S1" l = some true ↔ (l = 2 ∨ l = 2 + 1)) ∧
    tag_gpu_dimensions [("S1", (2, 3))] "S1" 4 (4 + 1) = some [("S1", (2, 3))] := by
  obtain ⟨tbl1, e1, h1, -⟩ := tag_gpu_dimensions_first_tag [] "S1" 2 (by decide) (by decide)
  obtain ⟨tbl2, e2, -, h2⟩ := tag_gpu_dimensions_first_tag [("S1", (2, 3))] "S1" 4
    (by decide) (by decide)
  refine ⟨⟨tbl1, e1, h1 rfl⟩, ?_⟩
  rw [e2, h2 (by decide)]

/-! ## `split_string` -/

/-- What `find` returns: the string is the part before the position, the
delimiter, and the part that `erase` leaves. -/
theorem string_find_some (d : List Char) : ∀ (s : List Char) (pos : Nat),
    string_find d s = some pos →
    s.take pos ++ d ++ s.drop (pos + d.length) = s ∧ pos + d.length ≤ s.length := by
  intro s
  induction s with
  | nil =>
    intro pos h
    simp only [string_find] at h
    split at h
    · rename_i hd
      have hp : pos = 0 := (Option.some.inj h).symm
      subst hd
      subst hp
      simp
    · exact absurd h (by simp)
  | cons c t ih =>
    intro pos h
    simp only [string_find] at h
    split at h
    · rename_i ht
      have hp : pos = 0 := (Option.some.inj h).symm
      subst hp
      constructor
      · simp only [List.take_zero, List.nil_append, Nat.zero_add]
        have h3 := List.take_append_drop d.length (c :: t)
        rw [ht] at h3
        exact h3
      · have := congrArg List.length ht
        rw [List.length_take] at this
        omega
    · cases hf : string_find d t with
      | none => rw [hf] at h; exact absurd h (by simp)
      | some p =>
        rw [hf] at h
        have hp : pos = p + 1 := by simpa using h.symm
        subst hp
        obtain ⟨h1, h2⟩ := ih p hf
        constructor
        · have e : p + 1 + d.length = (p + d.length) + 1 := by omega
          rw [e, List.take_succ_cons, List.drop_succ_cons, List.cons_append, List.cons_append, h1]
        · simp only [List.length_cons]
          omega

theorem count_occurrences_skip (d : List Char) : ∀ (s : List Char) (skip : Nat),
    count_occurrences d skip s = count_occurrences d 0 (s.drop skip) := by
  intro s
  induction s with
  | nil => intro skip; simp [count_occurrences]
  | cons c t ih =>
    intro skip
    cases skip with
    | zero => rfl
    | succ k =>
      simp only [count_occurrences, List.drop_succ_cons]
      exact ih k

theorem count_occurrences_find_none (d : List Char) : ∀ (s : List Char),
    string_find d s = none → count_occurrences d 0 s = 0 := by
  intro s
  induction s with
  | nil => intro _; rfl
  | cons c t ih =>
    intro h
    simp only [string_find] at h
    split at h
    · exact absurd h (by simp)
    · rename_i hne
      simp only [count_occurrences, hne, if_false]
      apply ih
      cases hf : string_find d t with
      | none => rfl
      | some p => rw [hf] at h; exact absurd h (by simp)

theorem count_occurrences_find_some (d : List Char) (hd : d ≠ []) : ∀ (s : List Char) (pos : Nat),
    string_find d s = some pos →
    count_occurrences d 0 s = 1 + count_occurrences d 0 (s.drop (pos + d.length)) := by
  have hlen : 0 < d.length := List.length_pos.mpr hd
  intro s
  induction s with
  | nil =>
    intro pos h
    simp only [string_find, hd, if_false] at h
    exact absurd h (by simp)
  | cons c t ih =>
    intro pos h
    simp only [string_find] at h
    split at h
    · rename_i ht
      have hp : pos = 0 := (Option.some.inj h).symm
      subst hp
      simp only [count_occurrences, ht, if_true, Nat.zero_add]
      rw [count_occurrences_skip]
      have e : d.length = (d.length - 1) + 1 := by omega
      conv_rhs => rw [e, List.drop_succ_cons]
    · rename_i hne
      cases hf : string_find d t with
      | none => rw [hf] at h; exact absurd h (by simp)
      | some p =>
        rw [hf] at h
        have hp : pos = p + 1 := by simpa using h.symm
        subst hp
        simp only [count_occurrences, hne, if_false]
        rw [ih p hf]
        have e : p + 1 + d.length = (p + d.length) + 1 := by omega
        rw [e, List.drop_succ_cons]

theorem intercalate_cons_of_ne_nil (sep a : List Char) (l : List (List Char)) (h : l ≠ []) :
    sep.intercalate (a :: l) = a ++ sep ++ sep.intercalate l := by
  cases l with
  | nil => exact absurd rfl h
  | cons b tl =>
    simp [List.intercalate, List.intersperse_cons_cons]

/-- The loop of `split_string` with a non-empty delimiter and more fuel than
characters: it returns, and the tokens it appends are at least one, give the
string back when joined with the delimiter, and are one more than the
occurrences of the delimiter. -/
theorem split_string_loop_spec (d : List Char) (hd : d ≠ []) : ∀ (fuel : Nat) (str : List Char)
    (vector : List (List Char)), str.length < fuel →
    ∃ tokens, split_string_loop d fuel str vector = some (vector ++ tokens) ∧
      tokens ≠ [] ∧ d.intercalate tokens = str ∧
      tokens.length = count_occurrences d 0 str + 1 := by
  have hlen : 0 < d.length := List.length_pos.mpr hd
  intro fuel
  induction fuel with
  | zero => intro str vector h; omega
  | succ fuel ih =>
    intro str vector h
    simp only [split_string_loop]
    cases hf : string_find d str with
    | none =>
      refine ⟨[str], by simp, by simp, ?_, ?_⟩
      · simp [List.intercalate]
      · rw [count_occurrences_find_none d str hf]
        rfl
    | some pos =>
      obtain ⟨h1, h2⟩ := string_find_some d str pos hf
      have hrest : (str.drop (pos + d.length)).length < fuel := by
        rw [List.length_drop]
        omega
      obtain ⟨tokens, e, hne, hj, hc⟩ := ih (str.drop (pos + d.length))
        (vector ++ [str.take pos]) hrest
      refine ⟨str.take pos :: tokens, ?_, by simp, ?_, ?_⟩
      · simp only [e, List.append_assoc, List.singleton_append]
      · rw [intercalate_cons_of_ne_nil _ _ _ hne, hj, h1]
      · rw [List.length_cons, hc, count_occurrences_find_some d hd str pos hf]
        omega

/-- More fuel does not change what the loop returns. -/
theorem split_string_loop_mono (d : List Char) : ∀ (fuel1 fuel2 : Nat) (str : List Char)
    (vector r : List (List Char)), fuel1 ≤ fuel2 →
    split_string_loop d fuel1 str vector = some r →
    split_string_loop d fuel2 str vector = some r := by
  intro fuel1
  induction fuel1 with
  | zero =>
    intro fuel2 str vector r _ h
    simp [split_string_loop] at h
  | succ fuel1 ih =>
    intro fuel2 str vector r hle h
    cases fuel2 with
    | zero => omega
    | succ fuel2 =>
      simp only [split_string_loop] at h ⊢
      cases hf : string_find d str with
      | none =>
        rw [hf] at h
        exact h
      | some pos =>
        rw [hf] at h
        exact ih fuel2 _ _ r (by omega) h

/-- Claim C17: for every string and every non-empty delimiter, `split_string`
terminates (the fuel of one unit per character and one more is enough, and so
is any larger amount) and appends tokens to the vector: at least one, such that
the tokens joined with the delimiter between consecutive tokens are the string,
and one more than the non-overlapping occurrences of the delimiter read from
left to right. -/
theorem split_string_tokens (str delimiter : List Char) (vector : List (List Char))
    (hd : delimiter ≠ []) :
    ∃ tokens, split_string str delimiter vector = some (vector ++ tokens) ∧
      (∀ fuel, str.length < fuel →
        split_string_loop delimiter fuel str vector = some (vector ++ tokens)) ∧
      tokens ≠ [] ∧ delimiter.intercalate tokens = str ∧
      tokens.length = count_occurrences delimiter 0 str + 1 := by
  obtain ⟨tokens, e, hne, hj, hc⟩ := split_string_loop_spec delimiter hd (str.length + 1) str
    vector (by omega)
  refine ⟨tokens, e, ?_, hne, hj, hc⟩
  intro fuel hfuel
  exact split_string_loop_mono delimiter (str.length + 1) fuel str vector _ (by omega) e

/-- With an empty delimiter `find` always returns position `0` and `erase`
removes nothing: the loop is never left. -/
theorem split_string_loop_empty_delimiter : ∀ (fuel : Nat) (str : List Char)
    (vector : List (List Char)), split_string_loop [] fuel str vector = none := by
  intro fuel
  induction fuel with
  | zero => intro str vector; rfl
  | succ fuel ih =>
    intro str vector
    have hf : string_find [] str = some 0 := by
      cases str <;> simp [string_find]
    simp only [split_string_loop, hf]
    exact ih _ _

/-- Witness for `split_string`: the string `a,b` and the delimiter `,`. -/
theorem split_string_tokens_witness :
    ([','] : List Char) ≠ [] ∧
    ∃ tokens, split_string ['a', ',', 'b'] [','] [] = some ([] ++ tokens) ∧
      (∀ fuel, ['a', ',', 'b'].length < fuel →
        split_string_loop [','] fuel ['a', ',', 'b'] [] = some ([] ++ tokens)) ∧
      tokens ≠ [] ∧ [','].intercalate tokens = ['a', ',', 'b'] ∧
      tokens.length = count_occurrences [','] 0 ['a', ',', 'b'] + 1 :=
  ⟨by decide, split_string_tokens ['a', ',', 'b'] [','] [] (by decide)⟩

/-! ## `split` by one -/

theorem split_image_one (d : Nat) (x : List Int) :
    split_image d 1 x = x.take d ++ [x.getD d 0, 0, 0] ++ x.drop (d + 1) := by
  simp only [split_image, Int.fdiv_one, Int.fmod_one]

theorem split_image_one_erase_inner (d : Nat) (x : List Int) (hd : d < x.length) :
    (split_image d 1 x).eraseIdx (d + 2) = x.take (d + 1) ++ [0] ++ x.drop (d + 1) := by
  have hl : (x.take d).length = d := by rw [List.length_take]; omega
  rw [split_image_one d x, List.append_assoc,
    List.eraseIdx_append_of_length_le (by rw [hl]; omega), hl]
  have e : d + 2 - d = 2 := by omega
  rw [e, List.getD_eq_getElem?_getD, List.getElem?_eq_getElem hd, List.take_succ,
    List.getElem?_eq_getElem hd]
  show List.take d x ++ (x[d] :: 0 :: List.drop (d + 1) x)
    = List.take d x ++ [x[d]] ++ [0] ++ List.drop (d + 1) x
  simp only [List.append_assoc, List.cons_append, List.nil_append]

theorem split_image_one_erase_both (d : Nat) (x : List Int) (hd : d < x.length) :
    ((split_image d 1 x).eraseIdx (d + 2)).eraseIdx (d + 1) = x := by
  have hl : (x.take (d + 1)).length = d + 1 := by rw [List.length_take]; omega
  rw [split_image_one_erase_inner d x hd, List.append_assoc,
    List.eraseIdx_append_of_length_le (by rw [hl])]
  simp [hl]

/-- Claim C18, a counterexample: on the identity schedule of rank one,
`split(0, 1)` sends `(5)` to `(5, 0, 0)`.  With the inner dimension at
position `2` projected away, the range holds `(5, 0)`, of rank two, and not
`(5)`: it is not the range of the original schedule. -/
theorem split_one_range_differs :
    ∃ s' c', split (identity_schedule ["i"]) 0 1 0 = some (s', c') ∧
      isl_map_range (identity_schedule ["i"]) [5] ∧
      isl_set_project_out (isl_map_range s') 2 [5, 0] ∧
      ¬ isl_set_project_out (isl_map_range s') 2 [5] ∧
      isl_set_project_out (isl_map_range s') 2 ≠ isl_map_range (identity_schedule ["i"]) := by
  obtain ⟨s', c', e, -, hr⟩ := split_spec (identity_schedule ["i"]) 0 1 0
    (by decide) (by decide) (by decide)
  have h1 : isl_map_range (identity_schedule ["i"]) [5] := ⟨[5], rfl, rfl⟩
  have h2 : isl_set_project_out (isl_map_range s') 2 [5, 0] :=
    ⟨[5, 0, 0], ⟨[5], (hr _ _).mpr ⟨[5], ⟨rfl, rfl⟩, by decide⟩⟩, by decide⟩
  have h3 : ¬ isl_set_project_out (isl_map_range s') 2 [5] := by
    rintro ⟨x, ⟨i, hx⟩, hx2⟩
    obtain ⟨y, ⟨hy, rfl⟩, rfl⟩ := (hr _ _).mp hx
    have hy1 : y.length = 1 := hy
    have hl := congrArg List.length hx2
    have e0 : Int.toNat 0 = 0 := rfl
    rw [e0, split_image_one_erase_inner 0 y (by rw [hy1]; decide)] at hl
    simp [hy1] at hl
  refine ⟨s', c', e, h1, h2, h3, ?_⟩
  intro heq
  rw [heq] at h3
  exact h3 h1

/-- Claim C18 as amended: for a legal position `d`, `split(d, 1)` returns a
schedule whose range gives the range of the original schedule once the two
new dimensions, the inner one at `d + 2` and the static one at `d + 1`, are
projected away; with the inner dimension alone projected away it is the
original range with the constant `0` put in at position `d + 1`. -/
theorem split_one_range (schedule : isl_map) (d : Int) (id_counter : Nat)
    (hd0 : 0 ≤ d) (hd : d < isl_map_dim_out schedule) :
    ∃ s' c', split schedule d 1 id_counter = some (s', c') ∧
      isl_set_project_out (isl_set_project_out (isl_map_range s') (d.toNat + 2)) (d.toNat + 1)
        = isl_map_range schedule ∧
      ∀ o, isl_set_project_out (isl_map_range s') (d.toNat + 2) o ↔
        ∃ x, isl_map_range schedule x ∧ o = x.take (d.toNat + 1) ++ [0] ++ x.drop (d.toNat + 1) := by
  obtain ⟨s', c', e, -, hr⟩ := split_spec schedule d 1 id_counter hd0 hd (by decide)
  have hdn : d.toNat < isl_map_dim_out schedule := by omega
  have hinner : ∀ o, isl_set_project_out (isl_map_range s') (d.toNat + 2) o ↔
      ∃ x, isl_map_range schedule x ∧
        o = x.take (d.toNat + 1) ++ [0] ++ x.drop (d.toNat + 1) := by
    intro o
    constructor
    · rintro ⟨y, ⟨i, hy⟩, rfl⟩
      obtain ⟨x, hx, rfl⟩ := (hr _ _).mp hy
      exact ⟨x, ⟨i, hx⟩, split_image_one_erase_inner _ _ (by rw [schedule.wf i x hx]; exact hdn)⟩
    · rintro ⟨x, ⟨i, hx⟩, rfl⟩
      exact ⟨split_image d.toNat 1 x, ⟨i, (hr _ _).mpr ⟨x, hx, rfl⟩⟩,
        (split_image_one_erase_inner _ _ (by rw [schedule.wf i x hx]; exact hdn)).symm⟩
  refine ⟨s', c', e, ?_, hinner⟩
  funext o
  apply propext
  constructor
  · rintro ⟨y, hy, rfl⟩
    obtain ⟨x, ⟨i, hx⟩, rfl⟩ := (hinner y).mp hy
    have hxl : d.toNat < x.length := by rw [schedule.wf i x hx]; exact hdn
    rw [← split_image_one_erase_inner _ _ hxl, split_image_one_erase_both _ _ hxl]
    exact ⟨i, hx⟩
  · rintro ⟨i, hx⟩
    have hxl : d.toNat < o.length := by rw [schedule.wf i o hx]; exact hdn
    refine ⟨_, (hinner _).mpr ⟨o, ⟨i, hx⟩, rfl⟩, ?_⟩
    rw [← split_image_one_erase_inner _ _ hxl, split_image_one_erase_both _ _ hxl]

/-- Witness for the amended claim C18: the identity schedule of rank two,
split at position `0`. -/
theorem split_one_range_witness :
    ∃ s' c', split (identity_schedule ["i", "j"]) 0 1 0 = some (s', c') ∧
      isl_set_project_out (isl_set_project_out (isl_map_range s') 2) 1
        = isl_map_range (identity_schedule ["i", "j"]) := by
  obtain ⟨s', c', e, h, -⟩ := split_one_range (identity_schedule ["i", "j"]) 0 0
    (by decide) (by decide)
  exact ⟨s', c', e, h⟩

/-! ## Names of the dimensions after `split` -/

/-- Claim C19, the names after `split`: on the identity schedule of rank two,
`split(0, 2)` leaves the names `c0, c1, c3` on positions `0, 1, 2` and no name
on position `3`, so the inner name `c1` sits at position `d + 1 = 1`, not at
`d + 2`, and the last position has no generated name; on the identity
schedule of rank one the positions `1` and `2` both carry the inner name
`c1`, so the names are not pairwise distinct. -/
theorem split_names_shifted_and_repeated :
    (split (identity_schedule ["i", "j"]) 0 2 0).map (fun r => r.1.out_dims)
      = some [some "c0", some "c1", some "c3", none] ∧
    (split (identity_schedule ["i"]) 0 2 0).map (fun r => r.1.out_dims)
      = some [some "c0", some "c1", some "c1"] ∧
    ¬ ([some "c0", some "c1", some "c1"] : List (Option String)).Nodup := by
  refine ⟨?_, ?_, by decide⟩
  · rw [split_eq _ _ _ _ (by decide) (by decide) (by decide)]
    rfl
  · rw [split_eq _ _ _ _ (by decide) (by decide) (by decide)]
    rfl

theorem set_dim_ids_upto (map : isl_map) (dimensions : List String) :
    ∀ k, k ≤ dimensions.length → k ≤ map.out_dims.length →
    ((List.range k).foldl (fun m i => isl_map_set_dim_id m i (dimensions.getD i "")) map).out_dims
      = (dimensions.take k).map some ++ map.out_dims.drop k := by
  intro k
  induction k with
  | zero => intro _ _; simp
  | succ k ih =>
    intro h1 h2
    rw [List.range_succ, List.foldl_append, List.foldl_cons, List.foldl_nil]
    show (List.foldl (fun m i => isl_map_set_dim_id m i (dimensions.getD i "")) map
      (List.range k)).out_dims.set k (some (dimensions.getD k "")) = _
    rw [ih (by omega) (by omega)]
    have hl : ((dimensions.take k).map some).length = k := by
      rw [List.length_map, List.length_take]; omega
    have hk1 : k < dimensions.length := by omega
    have hk2 : k < map.out_dims.length := by omega
    rw [List.set_append_right _ _ (by rw [hl]), hl, Nat.sub_self,
      List.drop_eq_getElem_cons hk2, List.set_cons_zero, List.take_succ,
      List.getD_eq_getElem?_getD, List.getElem?_eq_getElem hk1]
    simp only [Option.getD_some, Option.toList_some, List.map_append, List.map_cons,
      List.map_nil, List.append_assoc, List.cons_append, List.nil_append]

/-- Names of the output dimensions after the loop of `split` that applies the
vector `dimensions`: the entries of the vector, then the names the reader gave
to the positions the vector does not reach. -/
theorem set_dim_ids_out_dims (map : isl_map) (dimensions : List String)
    (h : dimensions.length ≤ map.out_dims.length) :
    (set_dim_ids map dimensions).out_dims
      = dimensions.map some ++ map.out_dims.drop dimensions.length := by
  unfold set_dim_ids
  rw [set_dim_ids_upto map dimensions dimensions.length (le_refl _) h, List.take_length]

theorem split_text_dimensions (n d : Nat) (k : Int) (names : Nat → String) (hd : d < n) :
    (split_text n d k names).2
      = ((List.range n).map (fun i => names (2 + i))).take d ++ [names 0, names 1]
        ++ ((List.range n).map (fun i => names (2 + i))).drop (d + 1) := by
  have h := flatMap_range_splice ((List.range n).map (fun i => names (2 + i))) ""
    id [names 0, names 1] d (by simpa using hd)
  simp only [List.length_map, List.length_range, List.map_id_fun, id_eq] at h
  simpa [split_text] using h

/-- The name the reader gives to the last output position of the text of
`split`: the inner name when the split dimension is the last one, none
otherwise (the entry is then a name of the input tuple). -/
theorem split_text_last_name (n d : Nat) (k : Int) (names : Nat → String)
    (hinj : Function.Injective names) (hd : d < n) :
    parsed_dim_name (split_text n d k names).1.ins (split_text n d k names).1.outs (n + 1)
      = if d + 1 = n then some (names 1) else none := by
  have hins : (split_text n d k names).1.ins = (List.range n).map (fun i => names (2 + i)) := rfl
  rw [hins, split_text_outs n d k names hd]
  have hA : ((((List.range n).map (fun i => names (2 + i))).take d).map
      tuple_entry.ident).length = d := by
    rw [List.length_map, List.length_take, List.length_map, List.length_range]; omega
  by_cases hlast : d + 1 = n
  · rw [if_pos hlast]
    have hC : ((List.range n).map (fun i => names (2 + i))).drop (d + 1) = [] := by
      apply List.drop_eq_nil_of_le
      rw [List.length_map, List.length_range]; omega
    rw [hC, List.map_nil, List.append_nil]
    have hn : n + 1 = d + 2 := by omega
    unfold parsed_dim_name
    rw [hn, getD_append_offset _ _ d 2 _ hA]
    have htake : List.take (d + 2) ((((List.range n).map (fun i => names (2 + i))).take d).map
        tuple_entry.ident ++ [tuple_entry.ident (names 0), tuple_entry.zero,
          tuple_entry.ident (names 1)])
        = (((List.range n).map (fun i => names (2 + i))).take d).map tuple_entry.ident
          ++ [tuple_entry.ident (names 0), tuple_entry.zero] := by
      rw [List.take_append_eq_append_take, hA]
      have e1 : d + 2 - d = 2 := by omega
      rw [e1, List.take_of_length_le (by rw [hA]; omega)]
      rfl
    show (if names 1 ∈ _ ∨ tuple_entry.ident (names 1) ∈ List.take (d + 2) _ then none
      else some (names 1)) = _
    rw [htake, if_neg]
    rintro (h | h)
    · obtain ⟨i, -, hi⟩ := List.mem_map.mp h
      have := hinj hi
      omega
    · rcases List.mem_append.mp h with h | h
      · obtain ⟨x, hx, hx2⟩ := List.mem_map.mp h
        obtain ⟨i, -, hi⟩ := List.mem_map.mp (List.mem_of_mem_take hx)
        rw [← hi] at hx2
        have := hinj (tuple_entry.ident.inj hx2)
        omega
      · simp only [List.mem_cons, tuple_entry.ident.injEq, List.mem_singleton,
          List.not_mem_nil, or_false] at h
        rcases h with h | h
        · have := hinj h
          omega
        · exact absurd h (by simp)
  · rw [if_neg hlast]
    have hB : ((((List.range n).map (fun i => names (2 + i))).take d).map tuple_entry.ident
        ++ [tuple_entry.ident (names 0), tuple_entry.zero, tuple_entry.ident (names 1)]).length
        = d + 3 := by
      rw [List.length_append, hA]; rfl
    have hn : n + 1 = d + 3 + (n - d - 2) := by omega
    have hCl : (((List.range n).map (fun i => names (2 + i))).drop (d + 1)).length
        = n - (d + 1) := by
      rw [List.length_drop, List.length_map, List.length_range]
    have hj : n - d - 2 < ((((List.range n).map (fun i => names (2 + i))).drop (d + 1)).map
        tuple_entry.ident).length := by
      rw [List.length_map, hCl]; omega
    unfold parsed_dim_name
    rw [hn, getD_append_offset _ _ (d + 3) (n - d - 2) _ hB, List.getD_eq_getElem?_getD,
      List.getElem?_eq_getElem hj, Option.getD_some, List.getElem_map]
    show (if _ ∨ _ then none else some _) = none
    rw [if_pos (Or.inl (List.mem_of_mem_drop (List.getElem_mem _)))]

/-- Names of the output dimensions after `split(d, k)` on a schedule of rank
`n`, for every legal call: the vector `dimensions` has `n + 1` entries, the
old names up to `d`, the outer name, the inner name, the old names after `d`,
so the inner name lands on position `d + 1` and every later name is moved one
position to the left; the last position `n + 1` keeps what the reader gave it,
the inner name once more when `d = n - 1`, and no name otherwise. -/
theorem split_out_dims (schedule : isl_map) (d k : Int) (id_counter : Nat)
    (hd0 : 0 ≤ d) (hd : d < isl_map_dim_out schedule) (hk : 1 ≤ k) :
    ∃ s' c', split schedule d k id_counter = some (s', c') ∧
      s'.out_dims
        = ((((List.range (isl_map_dim_out schedule)).map
              (fun i => generate_new_variable_name (id_counter + (2 + i)))).take d.toNat
            ++ [generate_new_variable_name (id_counter + 0),
                generate_new_variable_name (id_counter + 1)]
            ++ ((List.range (isl_map_dim_out schedule)).map
              (fun i => generate_new_variable_name (id_counter + (2 + i)))).drop
                (d.toNat + 1)).map some)
          ++ [if d.toNat + 1 = isl_map_dim_out schedule
              then some (generate_new_variable_name (id_counter + 1)) else none] := by
  have hdn : d.toNat < isl_map_dim_out schedule := by omega
  refine ⟨_, _, split_eq schedule d k id_counter hd0 hd hk, ?_⟩
  show (set_dim_ids _ _).out_dims = _
  have hlen : (split_text (isl_map_dim_out schedule) d.toNat k
      (fun i => generate_new_variable_name (id_counter + i))).2.length
      = isl_map_dim_out schedule + 1 := by
    rw [split_text_dimensions _ _ _ _ hdn]
    simp only [List.length_append, List.length_take, List.length_map, List.length_range,
      List.length_cons, List.length_nil, List.length_drop]
    omega
  have hparsed : (isl_map_read_from_str (split_text (isl_map_dim_out schedule) d.toNat k
      (fun i => generate_new_variable_name (id_counter + i))).1).out_dims.length
      = isl_map_dim_out schedule + 2 := by
    show (List.map _ (List.range _)).length = _
    rw [List.length_map, List.length_range, split_text_outs_length _ _ _ _ hdn]
  rw [set_dim_ids_out_dims _ _ (by rw [hlen, hparsed]; omega), hlen,
    split_text_dimensions _ _ _ _ hdn]
  congr 1
  have hlast := split_text_last_name (isl_map_dim_out schedule) d.toNat k
    (fun i => generate_new_variable_name (id_counter + i))
    (generated_names_injective id_counter) hdn
  rw [← hlast]
  show List.drop _ (List.map _ (List.range _)) = _
  rw [split_text_outs_length _ _ _ _ hdn, ← List.map_drop, List.range_succ,
    List.drop_left' (List.length_range _)]
  rfl

/-! ## `after` on computations whose earlier order agrees with the request -/

theorem pair_le_total (p q : Int × Nat) : pair_le p q ∨ pair_le q p := by
  unfold pair_le
  omega

theorem pair_le_trans (p q r : Int × Nat) (h1 : pair_le p q) (h2 : pair_le q r) :
    pair_le p r := by
  unfold pair_le at h1 h2 ⊢
  omega

/-- The vector that `std::sort` leaves is ascending. -/
theorem sort_ordered_computations_sorted (l : List (Int × Nat)) :
    (sort_ordered_computations l).Pairwise pair_le :=
  @List.sorted_insertionSort _ pair_le _ ⟨pair_le_total⟩ ⟨pair_le_trans⟩ l

/-- In an ascending vector of pairs with distinct pointers, a pair with a
smaller `relative_order` stands before a pair with a larger one. -/
theorem sorted_index_lt (S : List (Int × Nat)) (hs : S.Pairwise pair_le)
    (hnd : (S.map Prod.snd).Nodup) (p q : Int × Nat) (hp : p ∈ S) (hq : q ∈ S)
    (hlt : p.1 < q.1) :
    (S.map Prod.snd).indexOf p.2 < (S.map Prod.snd).indexOf q.2 := by
  obtain ⟨i, hi, rfl⟩ := List.getElem_of_mem hp
  obtain ⟨j, hj, rfl⟩ := List.getElem_of_mem hq
  have ei : (S.map Prod.snd).indexOf S[i].2 = i := by
    have h := List.indexOf_getElem hnd i (by simpa using hi)
    simpa using h
  have ej : (S.map Prod.snd).indexOf S[j].2 = j := by
    have h := List.indexOf_getElem hnd j (by simpa using hj)
    simpa using h
  rw [ei, ej]
  by_contra hcon
  have hji : j ≤ i := by omega
  rcases Nat.lt_or_eq_of_le hji with h | h
  · have hle := (List.pairwise_iff_getElem.mp hs) j i hj hi h
    unfold pair_le at hle
    omega
  · subst h
    exact lt_irrefl _ hlt

theorem map_indexOf_of_nodup (P : List Nat) (h : P.Nodup) :
    P.map (fun a => P.indexOf a) = List.range P.length := by
  apply List.ext_getElem
  · simp
  · intro k h1 h2
    simp only [List.getElem_map, List.getElem_range]
    exact List.indexOf_getElem h k _

/-- Claim C20: for a function whose computations are distinct objects, two of
them `c1` and `c2`, distinct, and a level `d` that passes the assertions with
`d + 1` below the aligned rank: when `relative_order(c1) <= relative_order(c2)`
before `c2.after(c1, d)`, the call returns; every computation keeps its place
in the body, gets the shifted `relative_order` (times ten, plus one for all
but `c1`) and has a static coordinate `coord` at position `d + 1`; the
coordinate of `c1` is strictly less than the one of `c2`; the coordinates of
the `n` computations are the integers `0 .. n - 1`, each used once; and a
computation with a smaller updated `relative_order` has a smaller coordinate.
The `relative_order` is an unbounded integer here, so no product by ten
overflows. -/
theorem after_orders_by_relative_order (f : function) (c1 c2 : computation) (d : Int)
    (hnd : (f.body.map (fun c => c.addr)).Nodup)
    (h1 : c1 ∈ f.body) (h2 : c2 ∈ f.body) (hne : c1.addr ≠ c2.addr)
    (hroot : root_dimension ≤ d) (hd : d + 1 < get_max_schedules_range_dim f)
    (hle : c1.relative_order ≤ c2.relative_order) :
    ∃ (f' : function) (coord : Nat → Nat), after f c1.addr d = some f' ∧
      f'.body.map (fun c => c.addr) = f.body.map (fun c => c.addr) ∧
      f'.body.map (fun c => c.relative_order) = f.body.map (after_order c1.addr) ∧
      (∀ c ∈ f'.body, static_coordinate c.schedule (d + 1).toNat (coord c.addr)) ∧
      coord c1.addr < coord c2.addr ∧
      (f'.body.map (fun c => coord c.addr)).Perm (List.range f'.body.length) ∧
      ∀ c ∈ f'.body, ∀ c' ∈ f'.body, c.relative_order < c'.relative_order →
        coord c.addr < coord c'.addr := by
  have hr : (-1 : Int) ≤ d := hroot
  obtain ⟨g, ea, haddr, e⟩ := after_eq f c1.addr d hnd hroot (by omega)
  obtain ⟨g', ea', hl, hk⟩ := align_schedules_spec f
  rw [ea] at ea'
  have hg := Option.some.inj ea'
  subst hg
  have hsnd : (g.body.map (fun b => (after_order c1.addr b, b.addr))).map Prod.snd
      = g.body.map (fun c => c.addr) := by
    simp [List.map_map, Function.comp_def]
  have hperm := sorted_pointers_perm (g.body.map (fun b => (after_order c1.addr b, b.addr)))
  rw [hsnd] at hperm
  have hPnd : ((sort_ordered_computations
      (g.body.map (fun b => (after_order c1.addr b, b.addr)))).map Prod.snd).Nodup :=
    hperm.nodup_iff.mpr (by rw [haddr]; exact hnd)
  have hsorted := sort_ordered_computations_sorted
    (g.body.map (fun b => (after_order c1.addr b, b.addr)))
  have hmemS : ∀ b ∈ g.body, (after_order c1.addr b, b.addr) ∈ sort_ordered_computations
      (g.body.map (fun b => (after_order c1.addr b, b.addr))) := by
    intro b hb
    exact (List.perm_insertionSort pair_le _).mem_iff.mpr
      (List.mem_map_of_mem (fun b => (after_order c1.addr b, b.addr)) hb)
  have hlt : ∀ b ∈ g.body, ∀ b' ∈ g.body, after_order c1.addr b < after_order c1.addr b' →
      ((sort_ordered_computations
          (g.body.map (fun b => (after_order c1.addr b, b.addr)))).map Prod.snd).indexOf b.addr
        < ((sort_ordered_computations
          (g.body.map (fun b => (after_order c1.addr b, b.addr)))).map Prod.snd).indexOf b'.addr :=
    fun b hb b' hb' h =>
      sorted_index_lt _ hsorted hPnd (after_order c1.addr b, b.addr)
        (after_order c1.addr b', b'.addr) (hmemS b hb) (hmemS b' hb') h
  have hfind : ∀ c ∈ f.body, ∃ b ∈ g.body, b.addr = c.addr ∧
      b.relative_order = c.relative_order := by
    intro c hc
    obtain ⟨k, hk1, rfl⟩ := List.getElem_of_mem hc
    have hk2 : k < g.body.length := by omega
    exact ⟨g.body[k], List.getElem_mem hk2, (hk k hk1 hk2).1, (hk k hk1 hk2).2.2.1⟩
  refine ⟨{ g with body := after_result c1.addr d g.body },
    fun a => ((sort_ordered_computations
      (g.body.map (fun b => (after_order c1.addr b, b.addr)))).map Prod.snd).indexOf a,
    e, ?_, ?_, ?_, ?_, ?_, ?_⟩
  · show (after_result c1.addr d g.body).map (fun c => c.addr) = _
    rw [after_result_addr, haddr]
  · show (after_result c1.addr d g.body).map (fun c => c.relative_order) = _
    simp only [after_result, List.map_map]
    apply List.ext_getElem
    · simp [hl]
    · intro k hk1 hk2
      simp only [List.length_map] at hk1 hk2
      simp only [List.getElem_map, Function.comp, after_order]
      rw [(hk k hk2 hk1).1, (hk k hk2 hk1).2.2.1]
  · intro c hc
    have hc2 : c ∈ after_result c1.addr d g.body := hc
    simp only [after_result] at hc2
    obtain ⟨b, hb, rfl⟩ := List.mem_map.mp hc2
    exact static_coordinate_set_const b.schedule (d + 1) _ (by omega)
      (by rw [align_schedules_rank f g ea b hb]; exact hd)
  · obtain ⟨b1, hb1, ha1, hr1⟩ := hfind c1 h1
    obtain ⟨b2, hb2, ha2, hr2⟩ := hfind c2 h2
    have h := hlt b1 hb1 b2 hb2 (by
      unfold after_order
      rw [ha1, ha2, hr1, hr2, if_neg (by simp), if_pos (fun h => hne h.symm)]
      omega)
    rw [ha1, ha2] at h
    exact h
  · show ((after_result c1.addr d g.body).map _).Perm
      (List.range (after_result c1.addr d g.body).length)
    have hmap : (after_result c1.addr d g.body).map (fun c =>
        ((sort_ordered_computations
          (g.body.map (fun b => (after_order c1.addr b, b.addr)))).map Prod.snd).indexOf c.addr)
        = (g.body.map (fun c => c.addr)).map (fun a =>
        ((sort_ordered_computations
          (g.body.map (fun b => (after_order c1.addr b, b.addr)))).map Prod.snd).indexOf a) := by
      rw [← after_result_addr c1.addr d g.body, List.map_map]
      rfl
    have hlen : (after_result c1.addr d g.body).length
        = ((sort_ordered_computations
          (g.body.map (fun b => (after_order c1.addr b, b.addr)))).map Prod.snd).length := by
      rw [hperm.length_eq]
      simp [after_result]
    rw [hmap, hlen, ← map_indexOf_of_nodup _ hPnd]
    exact (hperm.map _).symm
  · intro c hc c' hc' hcc
    have hc2 : c ∈ after_result c1.addr d g.body := hc
    have hc2' : c' ∈ after_result c1.addr d g.body := hc'
    simp only [after_result] at hc2 hc2'
    obtain ⟨b, hb, rfl⟩ := List.mem_map.mp hc2
    obtain ⟨b', hb', rfl⟩ := List.mem_map.mp hc2'
    exact hlt b hb b' hb' hcc

/-- Witness for claim C20: `S2.after(S1, -1)` on the sample function with two
computations of equal `relative_order`. -/
theorem after_orders_by_relative_order_witness :
    ∃ (f' : function) (coord : Nat → Nat), after two_computations 1 (-1) = some f' ∧
      f'.body.map (fun c => c.addr) = [1, 2] ∧
      f'.body.map (fun c => c.relative_order) = [0, 1] ∧
      (∀ c ∈ f'.body, static_coordinate c.schedule 0 (coord c.addr)) ∧
      coord 1 < coord 2 ∧
      (f'.body.map (fun c => coord c.addr)).Perm (List.range f'.body.length) ∧
      ∀ c ∈ f'.body, ∀ c' ∈ f'.body, c.relative_order < c'.relative_order →
        coord c.addr < coord c'.addr :=
  after_orders_by_relative_order two_computations sample_computation
    { addr := 2, name := "S2", schedule := identity_schedule ["s", "i"], relative_order := 0 }
    (-1) (by decide) (List.Mem.head _) (List.Mem.tail _ (List.Mem.head _)) (by decide)
    (by decide) (by decide) (by decide)

/-! ## The static slots under the scheduling methods -/

/-- A schedule whose images are the images `F x` of the images `x` of an
interleaved schedule is interleaved when every even coordinate of `F x` is a
constant or a function of one even coordinate of `x`. -/
theorem interleaved_of_images (s s1 : isl_map) (F : List Int → List Int)
    (hrel : ∀ i o, s1.rel i o → ∃ x, s.rel i x ∧ o = F x)
    (hF : ∀ p, p % 2 = 0 → p < isl_map_dim_out s1 →
      (∃ v, ∀ x, x.length = isl_map_dim_out s → (F x).getD p 0 = v) ∨
      (∃ q, ∃ g : Int → Int, q % 2 = 0 ∧ q < isl_map_dim_out s ∧
        ∀ x, x.length = isl_map_dim_out s → (F x).getD p 0 = g (x.getD q 0)))
    (h : interleaved s) : interleaved s1 := by
  intro p hp hlt
  rcases hF p hp hlt with ⟨v, hv⟩ | ⟨q, g, hq, hqlt, hg⟩
  · refine ⟨v, hlt, ?_⟩
    intro i o hio
    obtain ⟨x, hx, rfl⟩ := hrel i o hio
    exact hv x (s.wf i x hx)
  · obtain ⟨w, -, hw⟩ := h q hq hqlt
    refine ⟨g w, hlt, ?_⟩
    intro i o hio
    obtain ⟨x, hx, rfl⟩ := hrel i o hio
    rw [hg x (s.wf i x hx), hw i x hx]

theorem split_image_getD (d : Nat) (k : Int) (x : List Int) (hd : d < x.length) (p : Nat) :
    (split_image d k x).getD p 0 =
      if p < d then x.getD p 0
      else if p = d then Int.fdiv (x.getD d 0) k
      else if p = d + 1 then 0
      else if p = d + 2 then Int.fmod (x.getD d 0) k
      else x.getD (p - 2) 0 := by
  have hl : (x.take d).length = d := by rw [List.length_take]; omega
  unfold split_image
  rw [List.append_assoc]
  by_cases h1 : p < d
  · rw [if_pos h1, List.getD_append _ _ _ _ (by rw [hl]; exact h1)]
    simp only [List.getD_eq_getElem?_getD, List.getElem?_take, h1, if_true]
  · rw [if_neg h1]
    obtain ⟨j, rfl⟩ : ∃ j, p = d + j := ⟨p - d, by omega⟩
    rw [getD_append_offset _ _ d j 0 hl]
    match j with
    | 0 => simp
    | 1 => simp
    | 2 => simp
    | m + 3 =>
      have e1 : ¬ (d + (m + 3) = d) := by omega
      have e2 : ¬ (d + (m + 3) = d + 1) := by omega
      have e3 : ¬ (d + (m + 3) = d + 2) := by omega
      rw [if_neg e1, if_neg e2, if_neg e3]
      have e4 : d + (m + 3) - 2 = d + 1 + m := by omega
      rw [e4]
      show (List.drop (d + 1) x).getD m 0 = x.getD (d + 1 + m) 0
      simp only [List.getD_eq_getElem?_getD, List.getElem?_drop]

theorem swap_image_getD (d0 d1 : Nat) (x : List Int) (p : Nat) (hp : p < x.length) :
    (swap_image d0 d1 x).getD p 0
      = x.getD (if p = d0 then d1 else if p = d1 then d0 else p) 0 := by
  simp [swap_image, List.getD_eq_getElem?_getD, hp]

theorem with_const_getD_ne (pos val : Int) (x : List Int) (p : Nat) (h : p ≠ pos.toNat) :
    (with_const pos val x).getD p 0 = x.getD p 0 := by
  unfold with_const
  simp only [List.getD_eq_getElem?_getD]
  rw [List.getElem?_set_ne (fun e => h e.symm)]

theorem split_inv (s s1 : isl_map) (d k : Int) (c c1 : Nat)
    (h : split s d k c = some (s1, c1)) : 0 ≤ d ∧ d < isl_map_dim_out s ∧ 1 ≤ k := by
  unfold split at h
  split at h
  · assumption
  · exact absurd h (by simp)

/-- The method `split`, at any position, keeps the static slots: the two new
positions shift the later coordinates by two, the middle one is `0`, and the
quotient and the remainder of a constant are constants. -/
theorem interleaved_split (s s1 : isl_map) (d k : Int) (c c1 : Nat)
    (h : split s d k c = some (s1, c1)) (hs : interleaved s) : interleaved s1 := by
  obtain ⟨hd0, hd, hk⟩ := split_inv s s1 d k c c1 h
  obtain ⟨s2, c2, e, hrank, hr⟩ := split_spec s d k c hd0 hd hk
  rw [h] at e
  have hs2 := (Prod.mk.inj (Option.some.inj e)).1
  subst hs2
  have hdn : d.toNat < isl_map_dim_out s := by omega
  apply interleaved_of_images s s1 (split_image d.toNat k) (fun i o hio => (hr i o).mp hio) _ hs
  intro p hp hlt
  rw [hrank] at hlt
  by_cases h1 : p < d.toNat
  · refine Or.inr ⟨p, id, hp, by omega, ?_⟩
    intro x hx
    rw [split_image_getD _ _ _ (by rw [hx]; exact hdn), if_pos h1]
    rfl
  · by_cases h2 : p = d.toNat
    · refine Or.inr ⟨d.toNat, fun v => Int.fdiv v k, by rw [← h2]; exact hp, hdn, ?_⟩
      intro x hx
      rw [split_image_getD _ _ _ (by rw [hx]; exact hdn), if_neg h1, if_pos h2]
    · by_cases h3 : p = d.toNat + 1
      · refine Or.inl ⟨0, ?_⟩
        intro x hx
        rw [split_image_getD _ _ _ (by rw [hx]; exact hdn), if_neg h1, if_neg h2, if_pos h3]
      · by_cases h4 : p = d.toNat + 2
        · refine Or.inr ⟨d.toNat, fun v => Int.fmod v k, by omega, hdn, ?_⟩
          intro x hx
          rw [split_image_getD _ _ _ (by rw [hx]; exact hdn), if_neg h1, if_neg h2, if_neg h3,
            if_pos h4]
        · refine Or.inr ⟨p - 2, id, by omega, by omega, ?_⟩
          intro x hx
          rw [split_image_getD _ _ _ (by rw [hx]; exact hdn), if_neg h1, if_neg h2, if_neg h3,
            if_neg h4]
          rfl

/-- Every image under the schedule that `interchange` returns is an old image
with the coordinates at the two positions exchanged, whatever the names of the
dimensions are. -/
theorem interchange_forward (s s1 : isl_map) (d0 d1 : Int) (c c1 : Nat)
    (h : interchange s d0 d1 c = some (s1, c1)) :
    (0 ≤ d0 ∧ d0 < isl_map_dim_out s ∧ 0 ≤ d1 ∧ d1 < isl_map_dim_out s) ∧
    isl_map_dim_out s1 = isl_map_dim_out s ∧
    ∀ i o, s1.rel i o → ∃ x, s.rel i x ∧ o = swap_image d0.toNat d1.toNat x := by
  obtain ⟨v0, v1, t, hcond, hv0, hv1, -, hs⟩ := interchange_inv s s1 d0 d1 c c1 h
  have hk0 := interchange_name_dims_keeps (List.range (isl_map_dim_out s)) (s, c) _ _ hv0
  have hk1 := interchange_name_dims_keeps (List.range (isl_map_dim_out s)) (s, c) _ _ hv1
  refine ⟨hcond, ?_, ?_⟩
  · rw [hs]
    simp [isl_map_dim_out, isl_map_apply_range, isl_map_set_tuple_id, isl_map_read_from_str,
      interchange_text]
  · intro i o hio
    rw [hs] at hio
    obtain ⟨x, hx, σ, hxσ, hoσ, -⟩ := hio
    rw [interchange_name_dims_rel] at hx
    refine ⟨x, hx, ?_⟩
    have hxl : x.length = isl_map_dim_out s := s.wf i x hx
    have hxget : ∀ j, j < isl_map_dim_out s → x.getD j 0
        = σ ((isl_map_get_dim_name
          ((List.range (isl_map_dim_out s)).foldl interchange_name_dim (s, c)).1 j).getD
            "") := by
      intro j hj
      rw [hxσ]
      simp [interchange_text, List.getD_eq_getElem?_getD, hj]
    rw [hoσ]
    unfold swap_image
    rw [hxl]
    simp only [interchange_text, List.map_map]
    apply List.map_congr_left
    intro j hj
    have hj2 := List.mem_range.mp hj
    simp only [Function.comp]
    by_cases e0 : j = d0.toNat
    · simp only [e0, ne_eq, not_true_eq_false, false_and, if_false, if_true,
        tuple_entry.eval]
      rw [hxget _ (by omega), hk1]
      rfl
    · by_cases e1 : j = d1.toNat
      · have e2 : ¬ d1.toNat = d0.toNat := fun e => e0 (e1.trans e)
        simp only [e1, e2, ne_eq, not_true_eq_false, and_false, if_false, if_true,
          tuple_entry.eval]
        rw [hxget _ (by omega), hk0]
        rfl
      · simp only [e0, e1, ne_eq, not_false_eq_true, and_self, if_false, if_true,
          tuple_entry.eval]
        rw [hxget _ hj2]

/-- The method `interchange` on two positions of the same parity keeps the
static slots. -/
theorem interleaved_interchange (s s1 : isl_map) (d0 d1 : Int) (c c1 : Nat)
    (h : interchange s d0 d1 c = some (s1, c1)) (hpar : d0 % 2 = d1 % 2)
    (hs : interleaved s) : interleaved s1 := by
  obtain ⟨⟨h0, h0n, h1, h1n⟩, hrank, hr⟩ := interchange_forward s s1 d0 d1 c c1 h
  apply interleaved_of_images s s1 (swap_image d0.toNat d1.toNat) hr _ hs
  intro p hp hlt
  rw [hrank] at hlt
  refine Or.inr ⟨if p = d0.toNat then d1.toNat else if p = d1.toNat then d0.toNat else p, id,
    ?_, ?_, ?_⟩
  · split
    · omega
    · split
      · omega
      · exact hp
  · split
    · omega
    · split
      · omega
      · exact hlt
  · intro x hx
    rw [swap_image_getD _ _ _ _ (by rw [hx]; exact hlt)]
    rfl

/-- The method `tile` keeps the static slots: the positions it hands to
`interchange` are two apart. -/
theorem interleaved_tile (s s1 : isl_map) (d0 d1 sizeX sizeY : Int) (c c1 : Nat)
    (h : tile s d0 d1 sizeX sizeY c = some (s1, c1)) (hs : interleaved s) :
    interleaved s1 := by
  unfold tile at h
  split at h
  · rename_i hcond
    split at h
    · exact absurd h (by simp)
    · rename_i sa ca ea
      dsimp only at h
      split at h
      · exact absurd h (by simp)
      · rename_i sb cb eb
        have ha := interleaved_split s sa d0 sizeX c ca ea hs
        have hb := interleaved_split sa sb (d1 + 2) sizeY ca cb eb ha
        exact interleaved_interchange sb s1 (d0 + 2) (d1 + 2) cb c1 h (by omega) hb
  · exact absurd h (by simp)

/-- Writing a constant at a position keeps the static slots. -/
theorem interleaved_set_const_dim (s s1 : isl_map) (pos val : Int)
    (h : isl_map_set_const_dim s pos val = some s1) (hs : interleaved s) :
    interleaved s1 := by
  unfold isl_map_set_const_dim at h
  split at h
  · rename_i hcond
    have e : s1 = set_const s pos val := (Option.some.inj h).symm
    subst e
    apply interleaved_of_images s (set_const s pos val) (with_const pos val)
      (fun i o hio => (set_const_rel s pos val hcond.1 i o).mp hio) _ hs
    intro p hp hlt
    have hrank : isl_map_dim_out (set_const s pos val) = isl_map_dim_out s := by
      unfold isl_map_dim_out
      rw [set_const_out_dims]
    rw [hrank] at hlt
    by_cases e : p = pos.toNat
    · refine Or.inl ⟨val, ?_⟩
      intro x hx
      rw [e]
      exact with_const_getD pos val x (by rw [hx, ← e]; exact hlt)
    · exact Or.inr ⟨p, id, hp, hlt, fun x _ => with_const_getD_ne pos val x p e⟩
  · exact absurd h (by simp)

/-- The method `align_schedules` keeps the static slots: the appended
coordinates are `0`. -/
theorem interleaved_align_schedules (f f1 : function) (h : align_schedules f = some f1)
    (hf : interleaved_function f) : interleaved_function f1 := by
  obtain ⟨f2, e, hl, hk⟩ := align_schedules_spec f
  rw [h] at e
  have e2 := Option.some.inj e
  subst e2
  intro c hc
  obtain ⟨k, hk1, rfl⟩ := List.getElem_of_mem hc
  have hk2 : k < f.body.length := by omega
  obtain ⟨-, -, -, hrank, -, hr⟩ := hk k hk2 hk1
  have hle := (get_max_schedules_range_dim_spec f).1 f.body[k] (List.getElem_mem hk2)
  apply interleaved_of_images f.body[k].schedule f1.body[k].schedule
    (fun x => x ++ List.replicate
      (get_max_schedules_range_dim f - isl_map_dim_out f.body[k].schedule) 0)
    (fun i o hio => (hr i o).mp hio) _ (hf _ (List.getElem_mem hk2))
  intro p hp hlt
  by_cases e : p < isl_map_dim_out f.body[k].schedule
  · refine Or.inr ⟨p, id, hp, e, ?_⟩
    intro x hx
    rw [List.getD_append _ _ _ _ (by rw [hx]; exact e)]
    rfl
  · refine Or.inl ⟨0, ?_⟩
    intro x hx
    rw [List.getD_append_right _ _ _ _ (by rw [hx]; omega)]
    simp only [List.getD_eq_getElem?_getD, List.getElem?_replicate]
    split <;> rfl

theorem get_schedule_at_mem (addr : Nat) (body : List computation) (s : isl_map)
    (h : get_schedule_at addr body = some s) : ∃ c ∈ body, c.schedule = s := by
  unfold get_schedule_at at h
  obtain ⟨c, hc, hs⟩ := Option.map_eq_some'.mp h
  exact ⟨c, List.mem_of_find?_eq_some hc, hs⟩

theorem set_schedule_at_keeps (P : isl_map → Prop) (addr : Nat) (s : isl_map)
    (body : List computation) (hs : P s) (hb : ∀ c ∈ body, P c.schedule) :
    ∀ c ∈ set_schedule_at addr s body, P c.schedule := by
  intro c hc
  unfold set_schedule_at at hc
  obtain ⟨b, hb1, rfl⟩ := List.mem_map.mp hc
  split
  · exact hs
  · exact hb b hb1

theorem interleaved_set_schedule_at (addr : Nat) (s : isl_map) (body : List computation)
    (hs : interleaved s) (hb : ∀ c ∈ body, interleaved c.schedule) :
    ∀ c ∈ set_schedule_at addr s body, interleaved c.schedule :=
  set_schedule_at_keeps interleaved addr s body hs hb

theorem after_update_orders_schedules (comp : Nat) (dim : Int) :
    ∀ (l l1 : List computation), after_update_orders comp dim l = some l1 →
      ∀ c1 ∈ l1, ∃ c ∈ l, c1.schedule = c.schedule := by
  intro l
  induction l with
  | nil =>
    intro l1 h c1 hc1
    have e : l1 = [] := (Option.some.inj h).symm
    subst e
    simp at hc1
  | cons a tl ih =>
    intro l1 h c1 hc1
    unfold after_update_orders at h
    split at h
    · split at h
      · exact absurd h (by simp)
      · rename_i rest1 e
        have e1 := Option.some.inj h
        subst e1
        rcases List.mem_cons.mp hc1 with rfl | hm
        · exact ⟨a, List.mem_cons_self _ _, rfl⟩
        · obtain ⟨c, hc, hcs⟩ := ih rest1 e c1 hm
          exact ⟨c, List.mem_cons_of_mem _ hc, hcs⟩
    · exact absurd h (by simp)

/-- A property of schedules that `isl_map_set_const_dim` keeps is kept by the
second loop of `after`. -/
theorem after_set_orders_keeps (P : isl_map → Prop)
    (hP : ∀ s pos val s1, isl_map_set_const_dim s pos val = some s1 → P s → P s1)
    (dim : Int) :
    ∀ (L : List (Int × Nat)) (order : Nat) (body body1 : List computation),
      after_set_orders dim L order body = some body1 →
      (∀ c ∈ body, P c.schedule) → ∀ c ∈ body1, P c.schedule := by
  intro L
  induction L with
  | nil =>
    intro order body body1 h hb
    have e : body = body1 := Option.some.inj h
    subst e
    exact hb
  | cons a tl ih =>
    intro order body body1 h hb
    unfold after_set_orders at h
    split at h
    · exact absurd h (by simp)
    · rename_i sched1 e1
      split at h
      · exact absurd h (by simp)
      · rename_i sched2 e2
        obtain ⟨c, hc, hcs⟩ := get_schedule_at_mem _ _ _ e1
        have h2 : P sched2 := hP sched1 _ _ sched2 e2 (by rw [← hcs]; exact hb c hc)
        exact ih _ _ _ h (set_schedule_at_keeps P _ _ _ h2 hb)

/-- When `after` returns, `align_schedules` has returned, and a property of
schedules that holds after `align_schedules` and that `isl_map_set_const_dim`
keeps holds for every schedule of the result. -/
theorem after_keeps (P : isl_map → Prop)
    (hP : ∀ s pos val s1, isl_map_set_const_dim s pos val = some s1 → P s → P s1)
    (f f1 : function) (comp : Nat) (dim : Int) (h : after f comp dim = some f1) :
    ∃ g, align_schedules f = some g ∧
      ((∀ c ∈ g.body, P c.schedule) → ∀ c ∈ f1.body, P c.schedule) := by
  unfold after at h
  split at h
  · exact absurd h (by simp)
  · rename_i g eg
    split at h
    · exact absurd h (by simp)
    · rename_i body eb
      split at h
      · exact absurd h (by simp)
      · rename_i body1 eb1
        have e := Option.some.inj h
        subst e
        refine ⟨g, eg, ?_⟩
        intro hg
        apply after_set_orders_keeps P hP dim _ 0 body body1 eb1
        intro c hc
        obtain ⟨b, hb, hbs⟩ := after_update_orders_schedules comp dim g.body body eb c hc
        rw [hbs]
        exact hg b hb

/-- The method `after` keeps the static slots. -/
theorem interleaved_after (f f1 : function) (comp : Nat) (dim : Int)
    (h : after f comp dim = some f1) (hf : interleaved_function f) :
    interleaved_function f1 := by
  obtain ⟨g, eg, hk⟩ := after_keeps interleaved
    (fun s pos val s1 => interleaved_set_const_dim s s1 pos val) f f1 comp dim h
  exact hk (interleaved_align_schedules f g eg hf)

theorem first_loop_keeps (P : isl_map → Prop)
    (hP : ∀ s pos val s1, isl_map_set_const_dim s pos val = some s1 → P s → P s1)
    (this : Nat) (dim : Int) :
    ∀ (l l1 : List computation), first_loop this dim l = some l1 →
      (∀ c ∈ l, P c.schedule) → ∀ c ∈ l1, P c.schedule := by
  intro l
  induction l with
  | nil =>
    intro l1 h _ c hc
    have e : l1 = [] := (Option.some.inj h).symm
    subst e
    simp at hc
  | cons a tl ih =>
    intro l1 h hl c hc
    unfold first_loop at h
    split at h
    · split at h
      · exact absurd h (by simp)
      · rename_i sched1 e1
        split at h
        · exact absurd h (by simp)
        · rename_i rest1 e2
          have e := Option.some.inj h
          subst e
          rcases List.mem_cons.mp hc with rfl | hm
          · exact hP a.schedule _ _ sched1 e1 (hl a (List.mem_cons_self _ _))
          · exact ih rest1 e2 (fun b hb => hl b (List.mem_cons_of_mem _ hb)) c hm
    · exact absurd h (by simp)

/-- When `first` returns, `align_schedules` has returned, and a property of
schedules that holds after `align_schedules` and that `isl_map_set_const_dim`
keeps holds for every schedule of the result. -/
theorem first_keeps (P : isl_map → Prop)
    (hP : ∀ s pos val s1, isl_map_set_const_dim s pos val = some s1 → P s → P s1)
    (f f1 : function) (this : Nat) (dim : Int) (h : first f this dim = some f1) :
    ∃ g, align_schedules f = some g ∧
      ((∀ c ∈ g.body, P c.schedule) → ∀ c ∈ f1.body, P c.schedule) := by
  unfold first at h
  split at h
  · exact absurd h (by simp)
  · rename_i g eg
    split at h
    · exact absurd h (by simp)
    · rename_i body eb
      have e := Option.some.inj h
      subst e
      exact ⟨g, eg, first_loop_keeps P hP this dim g.body body eb⟩

/-- The method `first` keeps the static slots. -/
theorem interleaved_first (f f1 : function) (this : Nat) (dim : Int)
    (h : first f this dim = some f1) (hf : interleaved_function f) :
    interleaved_function f1 := by
  obtain ⟨g, eg, hk⟩ := first_keeps interleaved
    (fun s pos val s1 => interleaved_set_const_dim s s1 pos val) f f1 this dim h
  exact hk (interleaved_align_schedules f g eg hf)

theorem isl_map_set_const_dim_tuple_id (s : isl_map) (pos val : Int) (s1 : isl_map)
    (h : isl_map_set_const_dim s pos val = some s1) (hs : s.out_tuple_id = none) :
    s1.out_tuple_id = none := by
  unfold isl_map_set_const_dim at h
  split at h
  · rw [← Option.some.inj h]
    have e := set_const_out_tuple_id s pos val
    unfold set_const at e
    rw [e, hs]
  · exact absurd h (by simp)

/-- After `align_schedules`, `after`, `before` or `first` no schedule of the
function has an identifier on its output tuple, so every `interchange` call
on a computation of the function stores no schedule, until a `split` gives
the output tuple an identifier again. -/
theorem interchange_after_ordering_call (f f1 : function) (x : Nat) (dim : Int)
    (h : align_schedules f = some f1 ∨ after f x dim = some f1 ∨
      before f x dim = some f1 ∨ first f x dim = some f1) :
    ∀ c ∈ f1.body, c.schedule.out_tuple_id = none ∧
      ∀ d0 d1 k, interchange c.schedule d0 d1 k = none := by
  have hid : ∀ c ∈ f1.body, c.schedule.out_tuple_id = none := by
    rcases h with h | h | h | h
    · exact align_schedules_tuple_id f f1 h
    · obtain ⟨g, eg, hk⟩ := after_keeps (fun s => s.out_tuple_id = none)
        isl_map_set_const_dim_tuple_id f f1 x dim h
      exact hk (align_schedules_tuple_id f g eg)
    · obtain ⟨g, eg, hk⟩ := after_keeps (fun s => s.out_tuple_id = none)
        isl_map_set_const_dim_tuple_id f f1 x dim h
      exact hk (align_schedules_tuple_id f g eg)
    · obtain ⟨g, eg, hk⟩ := first_keeps (fun s => s.out_tuple_id = none)
        isl_map_set_const_dim_tuple_id f f1 x dim h
      exact hk (align_schedules_tuple_id f g eg)
  intro c hc
  exact ⟨hid c hc, fun d0 d1 k => interchange_without_tuple_id _ d0 d1 k (hid c hc)⟩

theorem interleaved_method_on (this : Nat) (st st1 : function × Nat)
    (method : isl_map → Nat → Option (isl_map × Nat))
    (hm : ∀ s c s1 c1, method s c = some (s1, c1) → interleaved s → interleaved s1)
    (h : method_on this st method = some st1) (hf : interleaved_function st.1) :
    interleaved_function st1.1 := by
  unfold method_on at h
  split at h
  · exact absurd h (by simp)
  · rename_i schedule e1
    split at h
    · exact absurd h (by simp)
    · rename_i r e2
      have e := Option.some.inj h
      subst e
      obtain ⟨c, hc, hcs⟩ := get_schedule_at_mem _ _ _ e1
      exact interleaved_set_schedule_at this r.1 st.1.body
        (hm schedule st.2 r.1 r.2 e2 (by rw [← hcs]; exact hf c hc)) hf

theorem interleaved_apply_call (st st1 : function × Nat) (call : transformer_call)
    (hpar : same_parity_interchange call) (h : apply_call st call = some st1)
    (hf : interleaved_function st.1) : interleaved_function st1.1 := by
  cases call with
  | split this d k =>
    exact interleaved_method_on this st st1 _
      (fun s c s1 c1 hs => interleaved_split s s1 d k c c1 hs) h hf
  | interchange this d0 d1 =>
    exact interleaved_method_on this st st1 _
      (fun s c s1 c1 hs => interleaved_interchange s s1 d0 d1 c c1 hs hpar) h hf
  | tile this d0 d1 sx sy =>
    exact interleaved_method_on this st st1 _
      (fun s c s1 c1 hs => interleaved_tile s s1 d0 d1 sx sy c c1 hs) h hf
  | after this comp dim =>
    obtain ⟨f1, hf1, e⟩ := Option.map_eq_some'.mp h
    rw [← e]
    exact interleaved_after st.1 f1 comp dim hf1 hf
  | before this comp dim =>
    obtain ⟨f1, hf1, e⟩ := Option.map_eq_some'.mp h
    rw [← e]
    exact interleaved_after st.1 f1 this dim hf1 hf
  | first this dim =>
    obtain ⟨f1, hf1, e⟩ := Option.map_eq_some'.mp h
    rw [← e]
    exact interleaved_first st.1 f1 this dim hf1 hf

/-! ## The interleaving invariant -/

theorem interleave_getD_even : ∀ (x : List Int) (p : Nat), p % 2 = 0 →
    (interleave x).getD p 0 = 0 := by
  intro x
  induction x with
  | nil =>
    intro p _
    cases p with
    | zero => rfl
    | succ q => rfl
  | cons v rest ih =>
    intro p hp
    match p with
    | 0 => rfl
    | 1 => exact absurd hp (by decide)
    | q + 2 =>
      show (interleave rest).getD q 0 = 0
      exact ih q (by omega)

/-- The interleaved identity schedule has the static slots: every even
position holds `0`. -/
theorem interleaved_identity_is_interleaved (names : List String) :
    interleaved (interleaved_identity_schedule names) := by
  intro p hp hlt
  refine ⟨0, hlt, ?_⟩
  rintro i o ⟨-, rfl⟩
  exact interleave_getD_even i p hp

/-- On the computation with the schedule `{ S[i] -> [0, i, 0] }`, the calls
`split(1, 2)` and `interchange(d0, d1)` with `d0, d1 < 4` both return: the
split leaves names on the positions `0` to `3`, and the schedule then sends
`i` to `(0, floor(i/2), 0, i mod 2, 0)` with the coordinates at `d0` and
`d1` exchanged. -/
theorem split_then_interchange (d0 d1 : Int) (h0 : 0 ≤ d0) (h0n : d0 < 4)
    (h1 : 0 ≤ d1) (h1n : d1 < 4) :
    ∃ s2 c2, run_calls (one_interleaved_computation, 0)
        [transformer_call.split 1 1 2, transformer_call.interchange 1 d0 d1]
        = some (single_computation s2, c2) ∧
      isl_map_dim_out s2 = 5 ∧
      ∀ v : Int, s2.rel [v]
        (swap_image d0.toNat d1.toNat [0, Int.fdiv v 2, 0, Int.fmod v 2, 0]) := by
  have hs1 := split_eq (interleaved_identity_schedule ["i"]) 1 2 0
    (by decide) (by decide) (by decide)
  obtain ⟨s1, c1, e1, -, r1⟩ := split_spec (interleaved_identity_schedule ["i"]) 1 2 0
    (by decide) (by decide) (by decide)
  have hc1 : c1 = 5 := by
    rw [hs1] at e1
    exact ((Prod.mk.inj (Option.some.inj e1)).2).symm
  have hd1 : s1.out_dims = [some "c2", some "c0", some "c1", some "c4", none] := by
    rw [hs1] at e1
    rw [← (Prod.mk.inj (Option.some.inj e1)).1]
    rfl
  subst hc1
  have hn1 : isl_map_dim_out s1 = 5 := by simp [isl_map_dim_out, hd1]
  have hnames : ((List.range (isl_map_dim_out s1)).foldl interchange_name_dim (s1, 5)).1.out_dims
      = ["c2", "c0", "c1", "c4", "c5"].map some := by
    rw [hn1]
    simp [List.range, List.range.loop, interchange_name_dim, isl_map_get_dim_name, hd1,
      isl_map_set_dim_id, generate_new_variable_name]
    rfl
  have hnamed : ∀ d : Int, 0 ≤ d → d < 4 → isl_map_get_dim_name s1 d.toNat ≠ none := by
    intro d hd hdn
    have : d.toNat = 0 ∨ d.toNat = 1 ∨ d.toNat = 2 ∨ d.toNat = 3 := by omega
    rcases this with e | e | e | e <;> rw [e] <;> simp [isl_map_get_dim_name, hd1]
  obtain ⟨s2, c2, e2, hn2, r2⟩ := interchange_of_named s1 d0 d1 5
    ["c2", "c0", "c1", "c4", "c5"]
    h0 (by rw [hn1]; omega) h1 (by rw [hn1]; omega) (hnamed d0 h0 h0n) (hnamed d1 h1 h1n)
    hnames (by decide) (by rw [split_out_tuple_id _ s1 _ _ _ _ e1]; simp)
  refine ⟨s2, c2, ?_, by rw [hn2, hn1], ?_⟩
  · have g0 : get_schedule_at 1 one_interleaved_computation.body
        = some (interleaved_identity_schedule ["i"]) := rfl
    simp only [run_calls, apply_call, method_on, g0, e1]
    have g1 : get_schedule_at 1
        (set_schedule_at 1 s1 one_interleaved_computation.body) = some s1 := rfl
    simp only [g1, e2]
    rfl
  · intro v
    exact (r2 [v] _).mpr ⟨_, (r1 [v] _).mpr ⟨[0, v, 0], ⟨rfl, rfl⟩, rfl⟩, rfl⟩

theorem one_interleaved_computation_interleaved :
    interleaved_function one_interleaved_computation := by
  intro c hc
  have e := List.mem_singleton.mp hc
  rw [e]
  exact interleaved_identity_is_interleaved ["i"]

theorem run_calls_append (l1 l2 : List transformer_call) : ∀ st : function × Nat,
    run_calls st (l1 ++ l2) = (run_calls st l1).bind (fun st1 => run_calls st1 l2) := by
  induction l1 with
  | nil => intro st; rfl
  | cons call rest ih =>
    intro st
    simp only [List.cons_append, run_calls]
    cases apply_call st call with
    | none => rfl
    | some st1 => exact ih st1

/-- Claim C15, a counterexample: the computation `S` has the interleaved
identity schedule `{ S[i] -> [0, i, 0] }`, which has its static slots.  The
calls `S.split(1, 2)` and `S.interchange(0, 1)` both pass their assertions
and leave the schedule `{ S[i] -> [floor(i/2), 0, 0, i mod 2, 0] }`: it sends
`0` to `(0, 0, 0, 0, 0)` and `2` to `(1, 0, 0, 0, 0)`, so position `0` is not
constrained to a constant.  The plain identity `{ S[i] -> S[i] }` has no
constant at position `0` before any call. -/
theorem interchange_breaks_interleaving :
    interleaved_function one_interleaved_computation ∧
    (∃ st1, run_calls (one_interleaved_computation, 0)
        [transformer_call.split 1 1 2, transformer_call.interchange 1 0 1] = some st1 ∧
      (∃ c ∈ st1.1.body, c.schedule.rel [0] [0, 0, 0, 0, 0] ∧
        c.schedule.rel [2] [1, 0, 0, 0, 0]) ∧
      ¬ interleaved_function st1.1) ∧
    ¬ interleaved (identity_schedule ["i"]) := by
  refine ⟨?_, ?_, ?_⟩
  · exact one_interleaved_computation_interleaved
  · obtain ⟨s2, c2, e, -, hr⟩ := split_then_interchange 0 1 (by decide) (by decide)
      (by decide) (by decide)
    have r0 : s2.rel [0] [0, 0, 0, 0, 0] := hr 0
    have r2 : s2.rel [2] [1, 0, 0, 0, 0] := hr 2
    refine ⟨_, e, ⟨_, List.mem_cons_self _ _, r0, r2⟩, ?_⟩
    intro hinv
    obtain ⟨v, -, hv⟩ := hinv _ (List.mem_cons_self _ _) 0 (by decide) (by
      show 0 < s2.out_dims.length
      rw [← s2.wf _ _ r0]
      decide)
    have a0 := hv _ _ r0
    have a2 := hv _ _ r2
    rw [← a2] at a0
    exact absurd a0 (by decide)
  · intro hinv
    obtain ⟨v, -, hv⟩ := hinv 0 (by decide) (by decide)
    have a0 := hv [0] [0] ⟨rfl, rfl⟩
    have a1 := hv [1] [1] ⟨rfl, rfl⟩
    rw [← a1] at a0
    exact absurd a0 (by decide)

/-- Claim C15 as amended: when every schedule of the function has a constant
at each of the output positions `0, 2, 4, ...`, this still holds after any
finite sequence of calls of `split`, `interchange`, `tile`, `after`, `before`
and `first` on computations of the function that all pass their assertions
and store a schedule, provided every `interchange` call exchanges two
positions of the same parity.  An `interchange` call on a schedule whose
output tuple has no identifier passes its assertions and stores a NULL
schedule; a sequence with such a call is not among those the statement
speaks of. -/
theorem interleaving_preserved (calls : List transformer_call) (st st1 : function × Nat)
    (hf : interleaved_function st.1)
    (hpar : ∀ call ∈ calls, same_parity_interchange call)
    (h : run_calls st calls = some st1) : interleaved_function st1.1 := by
  induction calls generalizing st with
  | nil =>
    have e : st = st1 := Option.some.inj h
    rw [← e]
    exact hf
  | cons call rest ih =>
    unfold run_calls at h
    split at h
    · exact absurd h (by simp)
    · rename_i st2 e2
      exact ih st2
        (interleaved_apply_call st st2 call (hpar call (List.mem_cons_self _ _)) e2 hf)
        (fun c hc => hpar c (List.mem_cons_of_mem _ hc)) h

/-- Witness for the amended claim C15: `S.split(1, 2)`, `S.interchange(1, 3)`
and `S.first(-1)` on the computation with the schedule
`{ S[i] -> [0, i, 0] }`; the run returns, the schedule after the second call
is `{ S[i] -> [0, i mod 2, 0, floor(i/2), 0] }`, and every schedule of the
result has its static slots. -/
theorem interleaving_preserved_witness :
    interleaved_function one_interleaved_computation ∧
    (∃ st1, run_calls (one_interleaved_computation, 0)
        [transformer_call.split 1 1 2, transformer_call.interchange 1 1 3] = some st1 ∧
      ∃ c ∈ st1.1.body, c.schedule.rel [5] [0, 1, 0, 2, 0]) ∧
    ∃ st2, run_calls (one_interleaved_computation, 0)
        [transformer_call.split 1 1 2, transformer_call.interchange 1 1 3,
          transformer_call.first 1 (-1)] = some st2 ∧
      interleaved_function st2.1 := by
  have hinit := one_interleaved_computation_interleaved
  obtain ⟨s2, c2, e, hrank, hr⟩ := split_then_interchange 1 3 (by decide) (by decide)
    (by decide) (by decide)
  have hmax : get_max_schedules_range_dim (single_computation s2) = 5 := by
    simp [get_max_schedules_range_dim, single_computation, hrank]
  obtain ⟨f1, -, ef⟩ := first_eq (single_computation s2) 1 (-1) (by decide)
    (by rw [hmax]; decide)
  have e3 : run_calls (one_interleaved_computation, 0)
      ([transformer_call.split 1 1 2, transformer_call.interchange 1 1 3]
        ++ [transformer_call.first 1 (-1)])
      = some ({ f1 with body := first_result 1 (-1) f1.body }, c2) := by
    rw [run_calls_append, e]
    simp only [Option.bind, run_calls, apply_call, ef, Option.map_some']
  refine ⟨hinit, ⟨_, e, _, List.mem_cons_self _ _, hr 5⟩, _, e3, ?_⟩
  exact interleaving_preserved _ (one_interleaved_computation, 0) _ hinit
    (by
      intro call hcall
      simp only [List.cons_append, List.nil_append, List.mem_cons, List.mem_singleton,
        List.not_mem_nil, or_false] at hcall
      rcases hcall with rfl | rfl | rfl
      · trivial
      · show (1 : Int) % 2 = 3 % 2
        decide
      · trivial)
    e3

end coli
